import Mathlib

/-!
Shallow embedding of the cohort Markov simulation engine in `core.py`
(classes `Probability`, `ProbabilityWithRange`, `TimeVaringProbability`,
`ComplementProbability`, `Node`, `ChanceNode`, `MarkovState`,
`StateTransition`, `MarkovController`) together with theorems checking the
specification's claims about it.

Modelling conventions:
* Python floats are modelled as exact rationals (`ℚ`); float literals are
  read as the decimal values they denote.
* Mutable object state (per-state occupancy histories, per-transition
  cumulative histories, the controller's accumulators) is passed explicitly
  in a `SimState` record, keyed by node name.  Node names are assumed unique
  across the tree, as the source's `lookup` protocol requires.
* Code paths that raise a Python exception (out-of-range list indexing,
  sending to an unknown node name, appending to a scalar entry) are modelled
  by `Option`, `none` meaning the run aborts with an exception.
* In the source the controller's `handle_node_message` runs synchronously
  during the recursive `forward`/`start` cascade.  The cascade reads only
  node-local state (`trans_prob`, the histories, `variables`, `children`)
  and never reads the controller's accumulators, while the handler mutates
  only the controller's accumulators; therefore collecting the emitted
  messages first and folding the handler over them afterwards produces the
  same final state, and this is how the embedding is organised.
-/

/-! ### Association-list state, mirroring Python dict / defaultdict -/

/-- Python dict lookup `m[k]` returning `none` when the key is absent. -/
def alistGet {β : Type} (m : List (String × β)) (k : String) : Option β :=
  match m with
  | [] => none
  | (k', v) :: rest => if k' = k then some v else alistGet rest k

/-- Python dict assignment `m[k] = v`: replaces the value of an existing key
in place, otherwise inserts the key at the end (dicts preserve insertion
order). -/
def setEntry {β : Type} (m : List (String × β)) (k : String) (v : β) :
    List (String × β) :=
  match m with
  | [] => [(k, v)]
  | (k', v') :: rest => if k' = k then (k, v) :: rest else (k', v') :: setEntry rest k v

/-- A `defaultdict(list)` read: the stored list, or `[]` if absent. -/
def histGet (m : List (String × List ℚ)) (k : String) : List ℚ :=
  (alistGet m k).getD []

/-- `defaultdict(list)`: `m[k].append(x)`. -/
def appendEntry (m : List (String × List ℚ)) (k : String) (x : ℚ) :
    List (String × List ℚ) :=
  setEntry m k (histGet m k ++ [x])

/-- Keys of an association list, in insertion order. -/
def keysOf {β : Type} (m : List (String × β)) : List String :=
  m.map Prod.fst

/-- Sum of every value ever appended into a `defaultdict(list)` of rationals:
`Σ_k Σ m[k]`. -/
def histTotal (m : List (String × List ℚ)) : ℚ :=
  (m.map (fun kv => kv.2.sum)).sum

/-- Row `t` of the table `pd.DataFrame.from_dict(m)`: the sum across all
columns of the entry at index `t` (`0` for columns whose series is shorter,
matching the claim's reading of "sum across all state-occupancy columns"). -/
def rowSum (m : List (String × List ℚ)) (t : ℕ) : ℚ :=
  (m.map (fun kv => kv.2.getD t 0)).sum

/-! ### Variable maps (the `**variables` kwargs dicts) -/

/-- A Python dict of named numeric variables (`cost=...`, `utility=...`). -/
abbrev VarMap := List (String × ℚ)

/-- Python `d.get(k, 0)`. -/
def varGet (m : VarMap) (k : String) : ℚ :=
  (alistGet m k).getD 0

/-- The keys of a variable dict. -/
def varKeys (m : VarMap) : List String :=
  m.map Prod.fst

/-- Python `keys1 | keys2` (set union of dict key views).  The set's
iteration order is unspecified in Python; the embedding fixes the
deterministic order "keys of the first dict, then the new keys of the
second", which realises the same key set. -/
def unionKeys (ks1 ks2 : List String) : List String :=
  ks1 ++ ks2.filter (fun k => decide (k ∉ ks1))

/-- `Node.forward` lines 156-157: the out variables of a chance node,
`out[k] = input.get(k, 0) + own.get(k, 0)` for `k` in
`input.keys() | own.keys()`. -/
def mergeVars (inputVariables own : VarMap) : VarMap :=
  (unionKeys (varKeys inputVariables) (varKeys own)).map
    (fun k => (k, varGet inputVariables k + varGet own k))

/-- `StateTransition.forward` lines 236-237: the reported out variables,
`out[k] = input.get(k, 0) + own.get(k, 0) + destination.variables.get(k, 0)`
for `k` ranging over `input.keys() | own.keys()` (the destination's keys are
*not* part of the iterated union in the source). -/
def mergeVarsTrans (inputVariables own dstVars : VarMap) : VarMap :=
  (unionKeys (varKeys inputVariables) (varKeys own)).map
    (fun k => (k, varGet inputVariables k + varGet own k + varGet dstVars k))

/-- `MarkovState.forward` line 210: `{k: 0 for k in self.variables.keys()}`. -/
def zeroVars (m : VarMap) : VarMap :=
  m.map (fun kv => (kv.1, 0))

/-! ### The probability abstraction -/

/-- The `Probability` hierarchy.
* `withRange p` is a `ProbabilityWithRange` whose current scalar value is
  `p` (the distribution parameters only matter for resampling, which
  replaces the scalar; theorems quantify over the scalar instead).
* `timeVaring ps` is a `TimeVaringProbability` holding the current scalar
  values of its per-cycle `ProbabilityWithRange` elements.
* `complement others` is a `ComplementProbability` whose sibling reference
  list `_other_probs` has been populated (evaluating it earlier raises). -/
inductive Prob where
  | withRange (prob : ℚ)
  | timeVaring (probs : List ℚ)
  | complement (others : List Prob)

mutual
/-- `Probability.value(time)`.  For `timeVaring`, Python indexes
`probs[time]` (an out-of-range cycle raises `IndexError`; the embedding
returns `0` there, a case no theorem exercises).  For `complement`,
`1 - sum(p.value(time) for p in _other_probs)`, recomputed on each call. -/
def Prob.value : Prob → ℕ → ℚ
  | .withRange p, _ => p
  | .timeVaring ps, t => ps.getD t 0
  | .complement others, t => 1 - Prob.sumValues others t
/-- `sum(p.value(time) for p in probs)`. -/
def Prob.sumValues : List Prob → ℕ → ℚ
  | [], _ => 0
  | p :: ps, t => p.value t + Prob.sumValues ps t
end

/-- `ComplementProbability.set_other_probabilities(group)`: stores
`[p for p in group if p is not self]`.  Python excludes the complement by
object identity; the embedding renders identity positionally, erasing the
complement's own position `selfIdx` from the sibling group (the value stored
at that position is the complement itself and is never read). -/
def setOtherProbabilities (group : List Prob) (selfIdx : ℕ) : Prob :=
  .complement (group.eraseIdx selfIdx)

/-! ### The node tree -/

/-- Inner tree nodes owned by a `MarkovState`:
* `chance` is a `ChanceNode` (name, transition probability, variables,
  children);
* `trans` is a `StateTransition` (name, transition probability, the
  *name* of its destination `MarkovState`, variables).  In the source the
  destination is held by reference; destinations are the controller-owned
  states (the construction contract), so the embedding resolves the
  reference by name against the controller's state list. -/
inductive TNode where
  | chance (nodeName : String) (transProb : Prob) (vars : VarMap) (children : List TNode)
  | trans (nodeName : String) (transProb : Prob) (dst : String) (vars : VarMap)

/-- The probability field of an inner node (`self.trans_prob`). -/
def TNode.probOfNode : TNode → Prob
  | .chance _ p _ _ => p
  | .trans _ p _ _ => p

/-- A `MarkovState` as built: name, initial probability (`init_prob`, stored
in `trans_prob` until the first cycle overwrites it), variables and owned
children. -/
structure MState where
  nodeName : String
  initProb : Prob
  vars : VarMap
  children : List TNode

/-- `count_method` literal. -/
inductive CountMethod where
  | mstart
  | mhalf
  | mend
deriving DecidableEq

/-- The `MarkovController` configuration: its `MarkovState` children and the
constructor parameters. -/
structure MarkovController where
  states : List MState
  totalCycles : ℕ
  countMethod : CountMethod
  discountRate : ℚ

/-- `Node.lookup` resolved over the controller's children (names are unique
across the tree, so the depth-first search finds the state of that name). -/
def findState (states : List MState) (nm : String) : Option MState :=
  match states with
  | [] => none
  | st :: rest => if st.nodeName = nm then some st else findState rest nm

/-- `destination.variables`, resolving the destination reference of a
`StateTransition` against the controller-owned states. -/
def stateVarsOf (states : List MState) (nm : String) : VarMap :=
  match findState states nm with
  | some st => st.vars
  | none => []

/-! ### Mutable per-run state -/

/-- A value of the controller's `next_cycle_start_prob` dict: a scalar
(after `run`'s seeding or `end_one_cycle`'s summing) or a list still being
accumulated during a cycle. -/
inductive NextVal where
  | scalar (v : ℚ)
  | acc (vs : List ℚ)

/-- `np.sum` over a `next_cycle_start_prob` entry (a no-op on a scalar). -/
def NextVal.total : NextVal → ℚ
  | .scalar v => v
  | .acc vs => vs.sum

/-- All object state mutated during a run, keyed by node name:
* `stateProbs`: each `MarkovState`'s current `trans_prob` (initially its
  `init_prob`; `MarkovState.start` overwrites it each cycle);
* `stateHist`: each `MarkovState.initial_prob` history list;
* `transHist`: each `StateTransition.cumulative_probs`;
* `transVarHist`: each `StateTransition.cumulative_variables` (the source
  never appends to it);
* the remaining fields are the controller's own attributes. -/
structure SimState where
  stateProbs : List (String × Prob)
  stateHist : List (String × List ℚ)
  transHist : List (String × List ℚ)
  transVarHist : List (String × List VarMap)
  modelTime : ℕ
  totalProbs : List (String × List ℚ)
  totalVariables : List (String × List ℚ)
  cycleProbs : List (String × List ℚ)
  cycleVariables : List (String × List ℚ)
  nextCycleStartProb : List (String × NextVal)

/-- The state of a freshly built controller, before any run. -/
def initSim (M : MarkovController) : SimState :=
  { stateProbs := M.states.map (fun st => (st.nodeName, st.initProb)),
    stateHist := [], transHist := [], transVarHist := [], modelTime := 0,
    totalProbs := [], totalVariables := [], cycleProbs := [],
    cycleVariables := [], nextCycleStartProb := [] }

/-! ### The mediator (`MarkovController.handle_node_message`) -/

/-- A node report delivered to `notify_controller`.  The source passes a
dict; the reporting node's kind is what the mediator dispatches on, so the
embedding is the tagged form: `{prob: window, **vars}` from a `MarkovState`,
`{dst: dst, prob: window, **vars}` from a `StateTransition`, and an
arbitrary payload from any other node kind. -/
inductive NodeMsg where
  | fromState (nodeName : String) (probWindow : List ℚ) (vars : VarMap)
  | fromTrans (dst : String) (probWindow : List ℚ) (vars : VarMap)
  | fromOther (vars : VarMap)

/-- Lines 340-341: `{'start': prob_data[0], 'end': prob_data[1],
'half': np.mean(prob_data)}[count_method]`.  The dict literal evaluates all
three entries, so a window of fewer than two elements raises `IndexError`
(`none`); `np.mean` is the list's sum divided by its length. -/
def selectProb (method : CountMethod) (window : List ℚ) : Option ℚ :=
  match window with
  | w0 :: w1 :: rest =>
      some (match method with
        | .mstart => w0
        | .mend => w1
        | .mhalf => (w0 :: w1 :: rest).sum / ((w0 :: w1 :: rest).length : ℚ))
  | _ => none

/-- Line 336: `next_cycle_start_prob[dst].append(prob_data[1])` on the
`defaultdict(list)`.  Appending to an entry that currently holds a scalar
would raise `AttributeError` (`none`); during a cycle the dict holds only
freshly accumulated lists, so that branch is unreachable. -/
def nextAppend (m : List (String × NextVal)) (k : String) (x : ℚ) :
    Option (List (String × NextVal)) :=
  match alistGet m k with
  | none => some (setEntry m k (.acc [x]))
  | some (.acc vs) => some (setEntry m k (.acc (vs ++ [x])))
  | some (.scalar _) => none

/-- Lines 340-348, the part common to state and transition reports: select
the scalar from the window, append it to `cycle_probs[key]`, then for every
remaining variable append `(value * prob) / (1 + discount_rate) ** model_time`
to `cycle_variables[name]`. -/
def handleReport (method : CountMethod) (discountRate : ℚ) (s : SimState)
    (key : String) (window : List ℚ) (vars : VarMap) : Option SimState := do
  let prob ← selectProb method window
  let discountFactor := (1 + discountRate) ^ s.modelTime
  some { s with
    cycleProbs := appendEntry s.cycleProbs key prob,
    cycleVariables := vars.foldl
      (fun acc kv => appendEntry acc kv.1 (kv.2 * prob / discountFactor))
      s.cycleVariables }

/-- `MarkovController.handle_node_message` (lines 326-348). A state report
is keyed by the state's own name; a transition report is keyed by the
destination's name and additionally appends the window's second element to
`next_cycle_start_prob[dst]` (before the scalar selection, matching the
source's statement order); any other node kind falls through to `return`
with no state change. -/
def handleNodeMessage (method : CountMethod) (discountRate : ℚ)
    (s : SimState) : NodeMsg → Option SimState
  | .fromOther _ => some s
  | .fromState nodeName window vars =>
      handleReport method discountRate s nodeName window vars
  | .fromTrans dst window vars =>
      match window with
      | _ :: w1 :: _ => do
          let next ← nextAppend s.nextCycleStartProb dst w1
          handleReport method discountRate
            { s with nextCycleStartProb := next } dst window vars
      | _ => none

/-- Folding the mediator over the messages a cascade emits, in emission
order (see the header note on why this equals the source's synchronous
interleaving). -/
def handleMsgs (method : CountMethod) (discountRate : ℚ) :
    List NodeMsg → SimState → Option SimState
  | [], s => some s
  | msg :: rest, s => do
      let s1 ← handleNodeMessage method discountRate s msg
      handleMsgs method discountRate rest s1

/-! ### The propagation cascade -/

mutual
/-- `Node.forward` / `StateTransition.forward` on an inner node: threads the
per-transition cumulative histories and returns the emitted reports in
emission order.
* `ChanceNode` (lines 152-160): multiplies the mass by its own probability,
  union-merges the variables, recurses into its children, emits nothing of
  its own.
* `StateTransition` (lines 226-239): on cycle 0 first seeds its history
  with `0`; appends `input * value(t)`; merges in the destination state's
  variables; emits `{dst, prob: cumulative_probs[t : t+2], **out}`. -/
def TNode.forward (states : List MState) (t : ℕ) (inputProb : ℚ)
    (inputVariables : VarMap) :
    TNode → List (String × List ℚ) → List (String × List ℚ) × List NodeMsg
  | .chance _ prob vars children, th =>
      let outputProb := inputProb * prob.value t
      let outputVariables := mergeVars inputVariables vars
      TNode.forwardList states t outputProb outputVariables children th
  | .trans nodeName prob dstName vars, th =>
      let h0 := histGet th nodeName
      let h1 := if t = 0 then h0 ++ [0] else h0
      let outputProb := inputProb * prob.value t
      let h2 := h1 ++ [outputProb]
      let outputVariables :=
        mergeVarsTrans inputVariables vars (stateVarsOf states dstName)
      (setEntry th nodeName h2,
       [.fromTrans dstName ((h2.drop t).take 2) outputVariables])
/-- `for child in self.children: child.forward(...)`, in declaration
order. -/
def TNode.forwardList (states : List MState) (t : ℕ) (inputProb : ℚ)
    (inputVariables : VarMap) :
    List TNode → List (String × List ℚ) → List (String × List ℚ) × List NodeMsg
  | [], th => (th, [])
  | c :: cs, th =>
      let r1 := TNode.forward states t inputProb inputVariables c th
      let r2 := TNode.forwardList states t inputProb inputVariables cs r1.1
      (r2.1, r1.2 ++ r2.2)
end

/-- `MarkovState.start(time, cycle_start_prob)` (lines 192-200): on cycle 0
seeds the history with the delivered mass; appends the `0` placeholder;
emits `{prob: initial_prob[time : time+2], **variables}`; overwrites
`trans_prob` with `ProbabilityWithRange(cycle_start_prob)`; then fans out
into the children with the new mass and this state's variable keys zeroed
(`MarkovState.forward`, lines 208-210).  The state's own report precedes
its children's, matching the source's statement order. -/
def MState.start (states : List MState) (st : MState) (t : ℕ)
    (cycleStartProb : ℚ) (s : SimState) : SimState × List NodeMsg :=
  let h0 := histGet s.stateHist st.nodeName
  let h1 := if t = 0 then h0 ++ [cycleStartProb] else h0
  let h2 := h1 ++ [0]
  let stateMsg : NodeMsg := .fromState st.nodeName ((h2.drop t).take 2) st.vars
  let r := TNode.forwardList states t cycleStartProb (zeroVars st.vars)
    st.children s.transHist
  ({ s with
      stateHist := setEntry s.stateHist st.nodeName h2,
      stateProbs := setEntry s.stateProbs st.nodeName (.withRange cycleStartProb),
      transHist := r.1 },
   stateMsg :: r.2)

/-! ### The cycle driver (`MarkovController`) -/

/-- `send_to_node` (lines 319-324) for a cycle-start message: look the name
up among the controller's states and run that state's `start`; an unknown
name raises `ValueError` (`none`). -/
def sendToNode (M : MarkovController) (nodeName : String)
    (cycleStartProb : ℚ) (s : SimState) : Option (SimState × List NodeMsg) :=
  match findState M.states nodeName with
  | some st => some (MState.start M.states st s.modelTime cycleStartProb s)
  | none => none

/-- The loop body of `start_one_cycle` (lines 292-293): deliver each
snapshot entry's scalar to the named state, handling the emitted reports as
they arrive.  Delivering an entry still holding an accumulation list (never
the case in a run: the dict is rebuilt from scalars before each cycle)
would put a Python list where arithmetic expects a float and raise
(`none`). -/
def deliverAll (M : MarkovController) :
    List (String × NextVal) → SimState → Option SimState
  | [], s => some s
  | (nodeName, .scalar m) :: rest, s => do
      let r ← sendToNode M nodeName m s
      let s2 ← handleMsgs M.countMethod M.discountRate r.2 r.1
      deliverAll M rest s2
  | (_, .acc _) :: _, _ => none

/-- `start_one_cycle` (lines 289-293): snapshot and clear
`next_cycle_start_prob`, then deliver every entry. -/
def startOneCycle (M : MarkovController) (s : SimState) : Option SimState :=
  deliverAll M s.nextCycleStartProb { s with nextCycleStartProb := [] }

/-- `end_one_cycle` (lines 295-308): collapse each `next_cycle_start_prob`
entry to its sum; append each per-cycle accumulator's sum to the cumulative
series; clear the per-cycle accumulators; advance the model time. -/
def endOneCycle (s : SimState) : SimState :=
  { s with
    nextCycleStartProb :=
      s.nextCycleStartProb.map (fun kv => (kv.1, NextVal.scalar kv.2.total)),
    totalProbs := s.cycleProbs.foldl
      (fun acc kv => appendEntry acc kv.1 kv.2.sum) s.totalProbs,
    totalVariables := s.cycleVariables.foldl
      (fun acc kv => appendEntry acc kv.1 kv.2.sum) s.totalVariables,
    cycleProbs := [], cycleVariables := [],
    modelTime := s.modelTime + 1 }

/-! ### Reset -/

mutual
/-- `Node.reset` / `StateTransition.reset` on inner nodes.  A `ChanceNode`
has no `reset_memory` and recurses into its children; a `StateTransition`
overrides `reset` to call only its own `reset_memory` (clearing
`cumulative_probs` and `cumulative_variables`) and does *not* recurse into
its destination-state child. -/
def TNode.reset : TNode → SimState → SimState
  | .chance _ _ _ children, s => TNode.resetList children s
  | .trans nodeName _ _ _, s =>
      { s with
        transHist := setEntry s.transHist nodeName [],
        transVarHist := setEntry s.transVarHist nodeName [] }
/-- `for child in self.children: child.reset()`. -/
def TNode.resetList : List TNode → SimState → SimState
  | [], s => s
  | c :: cs, s => TNode.resetList cs (c.reset s)
end

/-- `MarkovState`'s `reset`: its `reset_memory` clears `initial_prob`, then
`Node.reset` recurses into the children.  (`trans_prob` is *not* restored.) -/
def MState.reset (st : MState) (s : SimState) : SimState :=
  TNode.resetList st.children
    { s with stateHist := setEntry s.stateHist st.nodeName [] }

/-- `MarkovController.reset_memory` (lines 310-317). -/
def resetMemory (s : SimState) : SimState :=
  { s with modelTime := 0, totalProbs := [], totalVariables := [],
           cycleProbs := [], cycleVariables := [], nextCycleStartProb := [] }

/-- The controller's `reset()`: its own `reset_memory`, then every owned
state's `reset`. -/
def MarkovController.reset (M : MarkovController) (s : SimState) : SimState :=
  M.states.foldl (fun s st => st.reset s) (resetMemory s)

/-- The current `trans_prob` object of the state named `nm` (the default is
unreachable: `initSim` populates an entry for every owned state and nothing
removes entries). -/
def probOf (s : SimState) (nm : String) : Prob :=
  (alistGet s.stateProbs nm).getD (.withRange 0)

/-- `run`'s loop: `for _ in range(n): start_one_cycle(); end_one_cycle()`. -/
def runCycles (M : MarkovController) : ℕ → SimState → Option SimState
  | 0, s => some s
  | n + 1, s => do
      let s1 ← startOneCycle M s
      runCycles M n (endOneCycle s1)

/-- The reset-seed-loop phase of `MarkovController.run` (lines 273-279):
reset, seed `next_cycle_start_prob[state] = state.trans_prob.value(0)` for
each owned state, run `total_cycles` cycles. -/
def runLoop (M : MarkovController) (s : SimState) : Option SimState :=
  let s1 := M.reset s
  let s2 := M.states.foldl
    (fun s st =>
      let seeded := setEntry s.nextCycleStartProb st.nodeName
        (.scalar ((probOf s st.nodeName).value 0))
      { s with nextCycleStartProb := seeded }) s1
  runCycles M M.totalCycles s2

/-- `pd.DataFrame.from_dict` requires every column of a dict of lists to
have the same length: this is the check, `True` also on an empty dict. -/
def sameLengths (m : List (String × List ℚ)) : Bool :=
  match m with
  | [] => true
  | kv :: rest => rest.all (fun kv2 => kv2.2.length == kv.2.length)

/-- `pd.DataFrame.from_dict` on a dict of per-key lists: the column dict
itself when all columns have equal length, `ValueError` (`none`) on ragged
columns. -/
def fromDict (m : List (String × List ℚ)) :
    Option (List (String × List ℚ)) :=
  if sameLengths m then some m else none

/-- The pair `run` returns (line 281):
`(pd.DataFrame.from_dict(total_probs), pd.DataFrame.from_dict(total_variables))`,
each built by `fromDict` (so a ragged table raises). -/
def outputTables (s : SimState) :
    Option (List (String × List ℚ) × List (String × List ℚ)) := do
  let p ← fromDict s.totalProbs
  let v ← fromDict s.totalVariables
  some (p, v)

/-- `MarkovController.run` (lines 272-281): the reset-seed-loop phase, then
the construction of both returned DataFrames, which raises `ValueError`
when either accumulated table is ragged.  The final controller state is
returned; the source's return value is `outputTables` of it, whose success
is exactly what the final line requires. -/
def MarkovController.run (M : MarkovController) (s : SimState) :
    Option SimState := do
  let s3 ← runLoop M s
  let _ ← outputTables s3
  some s3

/-! ### Verification (`verify`) -/

/-- `math.isclose(x, 1.0, rel_tol=1e-9)` (with the default `abs_tol=0`):
`|x - 1| ≤ 1e-9 * max(|x|, 1)`. -/
def iscloseOne (x : ℚ) : Bool :=
  decide (|x - 1| ≤ 1 / 1000000000 * max |x| 1)

mutual
/-- `sum(child.trans_prob for child in children)` at cycle 0.  The source
coerces each `Probability` through `value()` with no time argument; before
any cycle has run every time cursor is `0`, so this is `value 0` — `verify`
is specified to run once after construction and before simulation. -/
def sumChildProbs : List TNode → ℚ
  | [] => 0
  | c :: cs => c.probOfNode.value 0 + sumChildProbs cs
end

mutual
/-- `Node.verify` / `StateTransition.verify` on inner nodes, as a Boolean
(`false` = raises).  A `ChanceNode` with children checks their probability
sum against `math.isclose(·, 1.0, rel_tol=1e-9)` and recurses; with no
children it returns immediately.  A `StateTransition` checks it has exactly
one `MarkovState` child, which holds by construction here. -/
def TNode.verify : TNode → Bool
  | .trans _ _ _ _ => true
  | .chance _ _ _ children =>
      (if children.isEmpty then true else iscloseOne (sumChildProbs children)) &&
      TNode.verifyList children
/-- `for child in children: child.verify()`. -/
def TNode.verifyList : List TNode → Bool
  | [] => true
  | c :: cs => c.verify && TNode.verifyList cs
end

/-- `Node.verify` on a `MarkovState`. -/
def MState.verify (st : MState) : Bool :=
  (if st.children.isEmpty then true else iscloseOne (sumChildProbs st.children)) &&
  TNode.verifyList st.children

/-- `verify()` on the whole tree, entered at the controller: the
controller's own children are its states, whose `trans_prob` at this point
is still `init_prob`, so the top-level check is that the initial
probabilities sum to 1. -/
def MarkovController.verify (M : MarkovController) : Bool :=
  (if M.states.isEmpty then true
   else iscloseOne ((M.states.map (fun st => st.initProb.value 0)).sum)) &&
  M.states.all MState.verify

/-! ### Derived notions used by the theorems -/

/-- The probability window of a report (empty for other payloads). -/
def msgWindow : NodeMsg → List ℚ
  | .fromState _ w _ => w
  | .fromTrans _ w _ => w
  | .fromOther _ => []

/-- First element of a report's window. -/
def msgW0 (m : NodeMsg) : ℚ :=
  (msgWindow m).getD 0 0

/-- Second element of a report's window. -/
def msgW1 (m : NodeMsg) : ℚ :=
  (msgWindow m).getD 1 0

/-- The key under which the mediator accumulates a report's probability:
the state's own name, or the transition's destination name. -/
def msgKey : NodeMsg → String
  | .fromState nm _ _ => nm
  | .fromTrans d _ _ => d
  | .fromOther _ => ""

/-- A report with a two-element window, from a state or a transition. -/
def IsBinaryReport (m : NodeMsg) : Prop :=
  (∃ nm w0 w1 v, m = .fromState nm [w0, w1] v) ∨
  (∃ d w0 w1 v, m = .fromTrans d [w0, w1] v)

/-- The window's second element for a transition report, `0` otherwise: the
amount a message feeds into `next_cycle_start_prob`. -/
def msgFeed : NodeMsg → ℚ
  | .fromTrans _ w _ => w.getD 1 0
  | _ => 0

/-- Destination keys of the transition reports in a message list. -/
def msgDsts : List NodeMsg → List String
  | [] => []
  | .fromTrans d _ _ :: rest => d :: msgDsts rest
  | _ :: rest => msgDsts rest

/-- The scalar `count_method` selects from a two-element window. -/
def selVal (method : CountMethod) (w0 w1 : ℚ) : ℚ :=
  match method with
  | .mstart => w0
  | .mend => w1
  | .mhalf => (w0 + w1) / 2

/-- The selected scalar of a report (meaningful for binary reports). -/
def msgSel (method : CountMethod) (m : NodeMsg) : ℚ :=
  selVal method (msgW0 m) (msgW1 m)

/-- The variable keys carried by a report, in dict order; a foreign-node
payload contributes none (the mediator ignores it). -/
def msgVarKeys : NodeMsg → List String
  | .fromState _ _ v => varKeys v
  | .fromTrans _ _ v => varKeys v
  | .fromOther _ => []

mutual
/-- Names of all `StateTransition`s in a subtree, depth first. -/
def TNode.transNames : TNode → List String
  | .trans nm _ _ _ => [nm]
  | .chance _ _ _ children => TNode.transNamesList children
/-- Names of all `StateTransition`s in a forest. -/
def TNode.transNamesList : List TNode → List String
  | [] => []
  | c :: cs => c.transNames ++ TNode.transNamesList cs
end

mutual
/-- Destination names of all `StateTransition`s in a subtree, depth first. -/
def TNode.dstNames : TNode → List String
  | .trans _ _ d _ => [d]
  | .chance _ _ _ children => TNode.dstNamesList children
/-- Destination names of all `StateTransition`s in a forest. -/
def TNode.dstNamesList : List TNode → List String
  | [] => []
  | c :: cs => c.dstNames ++ TNode.dstNamesList cs
end

mutual
/-- The variable keys of each report a subtree's cascade emits, in emission
order, as a function of the incoming dict's keys only: a chance node merges
its own keys into the union passed down, a transition reports the union of
the incoming and its own keys (the destination's keys are not iterated, see
C3).  The reported values depend on the mass, time and histories; the keys
do not. -/
def TNode.varSig (inKeys : List String) : TNode → List (List String)
  | .trans _ _ _ v => [unionKeys inKeys (varKeys v)]
  | .chance _ _ v children =>
      TNode.varSigList (unionKeys inKeys (varKeys v)) children
/-- `varSig` over a forest. -/
def TNode.varSigList (inKeys : List String) : List TNode → List (List String)
  | [] => []
  | c :: cs => TNode.varSig inKeys c ++ TNode.varSigList inKeys cs
end

/-- The variable keys of each report a `MarkovState.start` cascade emits:
the state's own report first (its own keys, zero-valued), then its subtree
with the state's keys as the incoming dict. -/
def stateVarSig (st : MState) : List (List String) :=
  varKeys st.vars :: TNode.varSigList (varKeys st.vars) st.children

/-- `stateVarSig` of the controller-owned state of a given name. -/
def stateVarSigOf (M : MarkovController) (nm : String) : List (List String) :=
  match findState M.states nm with
  | some st => stateVarSig st
  | none => []

/-- Every variable key any report of any state's cascade can mention. -/
def MarkovController.varNames (M : MarkovController) : List String :=
  (M.states.map (fun st => (stateVarSig st).flatten)).flatten

/-- Sum of a forest's transition probabilities at cycle `t`. -/
def sumProbsAt (t : ℕ) (cs : List TNode) : ℚ :=
  (cs.map (fun c => c.probOfNode.value t)).sum

mutual
/-- Every node with children below (and including) this node has children
whose transition probabilities sum to exactly `1` at cycle `t` — the
"closed model" condition of the claims, at one cycle.  (A sum over no
children is `0`, so a childless `ChanceNode`, which would leak mass, does
not count as closed.) -/
def TNode.closedAt (t : ℕ) : TNode → Bool
  | .trans _ _ _ _ => true
  | .chance _ _ _ children =>
      (sumProbsAt t children == 1) && TNode.closedAtList t children
/-- `closedAt` over a forest. -/
def TNode.closedAtList (t : ℕ) : List TNode → Bool
  | [] => true
  | c :: cs => TNode.closedAt t c && TNode.closedAtList t cs
end

/-- The names of the controller's states, in declaration order. -/
def MarkovController.stateNames (M : MarkovController) : List String :=
  M.states.map (fun st => st.nodeName)

/-- The names of every transition in the whole model. -/
def MarkovController.transNames (M : MarkovController) : List String :=
  (M.states.map (fun st => TNode.transNamesList st.children)).flatten

/-- The destination names of every transition in the whole model. -/
def MarkovController.dstNames (M : MarkovController) : List String :=
  (M.states.map (fun st => TNode.dstNamesList st.children)).flatten

/-- The whole model is closed at cycle `t`: every state's children's
probabilities sum to `1` at `t`, recursively through the chance subtrees. -/
def MarkovController.closedAt (M : MarkovController) (t : ℕ) : Bool :=
  M.states.all (fun st =>
    (sumProbsAt t st.children == 1) && TNode.closedAtList t st.children)

/-- Total mass scheduled in `next_cycle_start_prob`. -/
def nextTotal (m : List (String × NextVal)) : ℚ :=
  (m.map (fun kv => kv.2.total)).sum

/-- Every `next_cycle_start_prob` entry is a committed scalar. -/
def AllScalar (m : List (String × NextVal)) : Prop :=
  ∀ kv ∈ m, ∃ v, kv.2 = NextVal.scalar v

/-- Every `next_cycle_start_prob` entry is an accumulation list (the
mid-cycle shape). -/
def AllAcc (m : List (String × NextVal)) : Prop :=
  ∀ kv ∈ m, ∃ vs, kv.2 = NextVal.acc vs

/-- The shape of a `MarkovState.initial_prob` history after `j` cycles in
which the state was started every cycle: empty before the first cycle,
afterwards the cycle-0 mass followed by `j` never-corrected `0`
placeholders. -/
def histShape (j : ℕ) (h : List ℚ) : Prop :=
  if j = 0 then h = [] else ∃ m0, h = m0 :: List.replicate j 0

/-- Sum, over all of the model's transitions, of entry `t` of their
cumulative histories. -/
def transIdxSum (M : MarkovController) (s : SimState) (t : ℕ) : ℚ :=
  (M.transNames.map (fun nm => (histGet s.transHist nm).getD t 0)).sum

/-- The run invariant holding between cycles: after `j` completed cycles of
a closed, covered model, the controller and node state has this shape. -/
structure CycleInv (M : MarkovController) (j : ℕ) (s : SimState) : Prop where
  modelTime : s.modelTime = j
  cycleProbsEmpty : s.cycleProbs = []
  cycleVarsEmpty : s.cycleVariables = []
  nextScalar : AllScalar s.nextCycleStartProb
  nextKeysNodup : (keysOf s.nextCycleStartProb).Nodup
  nextKeysMem : ∀ k, k ∈ keysOf s.nextCycleStartProb ↔ k ∈ M.stateNames
  nextTotalOne : nextTotal s.nextCycleStartProb = 1
  stateHistShape : ∀ st ∈ M.states, histShape j (histGet s.stateHist st.nodeName)
  transHistLen : ∀ nm ∈ M.transNames,
    (histGet s.transHist nm).length = if j = 0 then 0 else j + 1
  transLastSum : 1 ≤ j → transIdxSum M s j = 1
  totalProbsNil : j = 0 → s.totalProbs = []
  totalProbsKeys : 1 ≤ j → (keysOf s.totalProbs).Nodup ∧
    ∀ k, k ∈ keysOf s.totalProbs ↔ k ∈ M.stateNames
  totalProbsLen : ∀ kv ∈ s.totalProbs, kv.2.length = j
  totalVarsNil : j = 0 → s.totalVariables = []
  totalVarsKeys : 1 ≤ j → (keysOf s.totalVariables).Nodup ∧
    ∀ k, k ∈ keysOf s.totalVariables ↔ k ∈ M.varNames
  totalVarsLen : ∀ kv ∈ s.totalVariables, kv.2.length = j
  rowsOne : ∀ i < j, rowSum s.totalProbs i = 1

/-! ### Concrete models used by counterexamples and witnesses -/

/-- A two-state model: `A` (initial mass 1) feeds everything into `B`
(initial mass 0), `B` loops on itself; 2 cycles, `count_method='start'`,
no discounting.  Fully closed, but `A` has no incoming transition, so from
cycle 1 on `A` is never started. -/
def exModel : MarkovController :=
  { states :=
      [{ nodeName := "A", initProb := .withRange 1, vars := [],
         children := [.trans "ab" (.withRange 1) "B" []] },
       { nodeName := "B", initProb := .withRange 0, vars := [],
         children := [.trans "bb" (.withRange 1) "B" []] }],
    totalCycles := 2, countMethod := .mstart, discountRate := 0 }

/-- A single absorbing state `S` with a probability-1 self-loop; 2 cycles. -/
def exModelS : MarkovController :=
  { states :=
      [{ nodeName := "S", initProb := .withRange 1, vars := [],
         children := [.trans "ss" (.withRange 1) "S" []] }],
    totalCycles := 2, countMethod := .mstart, discountRate := 0 }

/-- A closed two-state model in which every state is the destination of
some transition: `A` keeps half its mass and sends half to `B`; `B` loops
on itself. -/
def exModelW : MarkovController :=
  { states :=
      [{ nodeName := "A", initProb := .withRange 1, vars := [],
         children := [.trans "aa" (.withRange (1/2)) "A" [],
                      .trans "ab" (.withRange (1/2)) "B" []] },
       { nodeName := "B", initProb := .withRange 0, vars := [],
         children := [.trans "bb" (.withRange 1) "B" []] }],
    totalCycles := 2, countMethod := .mhalf, discountRate := 0 }

/-- A one-transition model whose destination state carries a variable the
transition's path never mentions: used against the union-sum claim. -/
def exDstVarStates : List MState :=
  [{ nodeName := "B", initProb := .withRange 1, vars := [("cost", 5)],
     children := [] }]

mutual
/-- The children-probability sums `verify` checks in a subtree: one entry
for every node that has children (a transition contributes none — its
overridden `verify` checks only the single-`MarkovState`-child shape, which
holds by construction here). -/
def TNode.childSums : TNode → List ℚ
  | .trans _ _ _ _ => []
  | .chance _ _ _ children =>
      (if children.isEmpty then [] else [sumChildProbs children]) ++
      TNode.childSumsList children
/-- `childSums` over a forest. -/
def TNode.childSumsList : List TNode → List ℚ
  | [] => []
  | c :: cs => c.childSums ++ TNode.childSumsList cs
end

/-- Every children-probability sum `verify` checks over the whole tree: the
controller's own children first (the states' initial probabilities), then
every state's subtree. -/
def MarkovController.childSums (M : MarkovController) : List ℚ :=
  (if M.states.isEmpty then []
   else [(M.states.map (fun st => st.initProb.value 0)).sum]) ++
  (M.states.map (fun st =>
    (if st.children.isEmpty then [] else [sumChildProbs st.children]) ++
    TNode.childSumsList st.children)).flatten

/-- The state `run` on `exModel` reaches just before its cycle loop (after
the reset and the initial-mass seeding). -/
def exSeedS : SimState :=
  { stateProbs := [("S", .withRange 1)],
    stateHist := [("S", [])], transHist := [("ss", [])],
    transVarHist := [("ss", [])], modelTime := 0,
    totalProbs := [], totalVariables := [], cycleProbs := [],
    cycleVariables := [], nextCycleStartProb := [("S", .scalar 1)] }

/-- The final state of the first `run` on `exModel`. -/
def exRun1 : SimState :=
  { stateProbs := [("A", .withRange 1), ("B", .withRange 1)],
    stateHist := [("A", [1, 0]), ("B", [0, 0, 0])],
    transHist := [("ab", [0, 1]), ("bb", [0, 0, 1])],
    transVarHist := [("ab", []), ("bb", [])],
    modelTime := 2,
    totalProbs := [("A", [1]), ("B", [0, 0])],
    totalVariables := [], cycleProbs := [], cycleVariables := [],
    nextCycleStartProb := [("B", .scalar 1)] }

/-- The final state of a second `run` on `exModel`, started from `exRun1`. -/
def exRun2 : SimState :=
  { stateProbs := [("A", .withRange 1), ("B", .withRange 2)],
    stateHist := [("A", [1, 0]), ("B", [1, 0, 0])],
    transHist := [("ab", [0, 1]), ("bb", [0, 1, 2])],
    transVarHist := [("ab", []), ("bb", [])],
    modelTime := 2,
    totalProbs := [("A", [1]), ("B", [1, 1])],
    totalVariables := [], cycleProbs := [], cycleVariables := [],
    nextCycleStartProb := [("B", .scalar 2)] }

/-- The state reached one cycle into the run of `exModelS` (the pending
entry schedules a delivery of mass `1` to `S` at cycle `1`). -/
def exMidS : SimState :=
  { stateProbs := [("S", .withRange 1)],
    stateHist := [("S", [1, 0])], transHist := [("ss", [0, 1])],
    transVarHist := [("ss", [])], modelTime := 1,
    totalProbs := [("S", [1])], totalVariables := [], cycleProbs := [],
    cycleVariables := [], nextCycleStartProb := [("S", .scalar 1)] }

/-- The final state of the run of `exModelS`, two cycles past `exSeedS`. -/
def exFinS : SimState :=
  { stateProbs := [("S", .withRange 1)],
    stateHist := [("S", [1, 0, 0])], transHist := [("ss", [0, 1, 1])],
    transVarHist := [("ss", [])], modelTime := 2,
    totalProbs := [("S", [1, 1])], totalVariables := [], cycleProbs := [],
    cycleVariables := [], nextCycleStartProb := [("S", .scalar 1)] }

/-- The final state of the first `run` on `exModelW`. -/
def exRunW1 : SimState :=
  { stateProbs := [("A", .withRange (1/2)), ("B", .withRange (1/2))],
    stateHist := [("A", [1, 0, 0]), ("B", [0, 0, 0])],
    transHist := [("aa", [0, 1/2, 1/4]), ("ab", [0, 1/2, 1/4]),
                  ("bb", [0, 0, 1/2])],
    transVarHist := [("aa", []), ("ab", []), ("bb", [])],
    modelTime := 2,
    totalProbs := [("A", [3/4, 3/8]), ("B", [1/4, 5/8])],
    totalVariables := [], cycleProbs := [], cycleVariables := [],
    nextCycleStartProb := [("A", .scalar (1/4)), ("B", .scalar (3/4))] }

/-- The final state of a second `run` on `exModelW`, started from
`exRunW1`: the seeding reads the stale `trans_prob` masses `1/2, 1/2`
instead of the initial probabilities `1, 0`. -/
def exRunW2 : SimState :=
  { stateProbs := [("A", .withRange (1/4)), ("B", .withRange (3/4))],
    stateHist := [("A", [1/2, 0, 0]), ("B", [1/2, 0, 0])],
    transHist := [("aa", [0, 1/4, 1/8]), ("ab", [0, 1/4, 1/8]),
                  ("bb", [0, 1/2, 3/4])],
    transVarHist := [("aa", []), ("ab", []), ("bb", [])],
    modelTime := 2,
    totalProbs := [("A", [3/8, 3/16]), ("B", [5/8, 13/16])],
    totalVariables := [], cycleProbs := [], cycleVariables := [],
    nextCycleStartProb := [("A", .scalar (1/8)), ("B", .scalar (7/8))] }

/-- The inductive specification of `TNode.forward` on one subtree, used by
the mass-conservation proof.  On a closed subtree whose transition
histories all have the expected pre-cycle length, forwarding mass through
it (1) emits only two-element transition reports, whose (2) second window
elements total the input mass times the subtree root's own probability and
whose (3) first window elements total the entries at index `t` of the
subtree's pre-call histories; (4) the reports' destinations are exactly the
subtree's destination list; (5) histories outside the subtree are
untouched, while the subtree's own histories (6) each gain exactly one
entry and (7) their new entries at index `t+1` total the input mass times
the root's probability. -/
def ForwardSpec (n : TNode) : Prop :=
  ∀ (states : List MState) (t : ℕ) (mass : ℚ) (vars : VarMap)
    (th : List (String × List ℚ)),
    TNode.closedAt t n = true →
    n.transNames.Nodup →
    (∀ nm ∈ n.transNames, (histGet th nm).length = (if t = 0 then 0 else t + 1)) →
    (∀ m ∈ (TNode.forward states t mass vars n th).2,
       ∃ d w0 w1 v, m = .fromTrans d [w0, w1] v) ∧
    ((TNode.forward states t mass vars n th).2.map msgW1).sum =
      mass * n.probOfNode.value t ∧
    ((TNode.forward states t mass vars n th).2.map msgW0).sum =
      (n.transNames.map (fun nm => (histGet th nm).getD t 0)).sum ∧
    msgDsts (TNode.forward states t mass vars n th).2 = n.dstNames ∧
    (∀ nm, nm ∉ n.transNames →
       histGet (TNode.forward states t mass vars n th).1 nm = histGet th nm) ∧
    (∀ nm ∈ n.transNames,
       (histGet (TNode.forward states t mass vars n th).1 nm).length = t + 2) ∧
    (n.transNames.map
       (fun nm => (histGet (TNode.forward states t mass vars n th).1 nm).getD (t + 1) 0)).sum =
      mass * n.probOfNode.value t

/-- `ForwardSpec` for a whole forest under `TNode.forwardList`; the mass
factor is the sum of the roots' probabilities. -/
def ForwardListSpec (cs : List TNode) : Prop :=
  ∀ (states : List MState) (t : ℕ) (mass : ℚ) (vars : VarMap)
    (th : List (String × List ℚ)),
    TNode.closedAtList t cs = true →
    (TNode.transNamesList cs).Nodup →
    (∀ nm ∈ TNode.transNamesList cs,
       (histGet th nm).length = (if t = 0 then 0 else t + 1)) →
    (∀ m ∈ (TNode.forwardList states t mass vars cs th).2,
       ∃ d w0 w1 v, m = .fromTrans d [w0, w1] v) ∧
    ((TNode.forwardList states t mass vars cs th).2.map msgW1).sum =
      mass * sumProbsAt t cs ∧
    ((TNode.forwardList states t mass vars cs th).2.map msgW0).sum =
      ((TNode.transNamesList cs).map (fun nm => (histGet th nm).getD t 0)).sum ∧
    msgDsts (TNode.forwardList states t mass vars cs th).2 = TNode.dstNamesList cs ∧
    (∀ nm, nm ∉ TNode.transNamesList cs →
       histGet (TNode.forwardList states t mass vars cs th).1 nm = histGet th nm) ∧
    (∀ nm ∈ TNode.transNamesList cs,
       (histGet (TNode.forwardList states t mass vars cs th).1 nm).length = t + 2) ∧
    ((TNode.transNamesList cs).map
       (fun nm => (histGet (TNode.forwardList states t mass vars cs th).1 nm).getD (t + 1) 0)).sum =
      mass * sumProbsAt t cs

/-- The transition names in the subtree of the state named `nm`. -/
def stateTransNames (M : MarkovController) (nm : String) : List String :=
  match findState M.states nm with
  | some st => TNode.transNamesList st.children
  | none => []

/-- The destination names in the subtree of the state named `nm`. -/
def stateDsts (M : MarkovController) (nm : String) : List String :=
  match findState M.states nm with
  | some st => TNode.dstNamesList st.children
  | none => []

/-- Sum of entry `j` of the cumulative histories of the transitions under
the state named `nm`. -/
def stateTransIdxSum (M : MarkovController) (s : SimState) (j : ℕ) (nm : String) : ℚ :=
  ((stateTransNames M nm).map (fun τ => (histGet s.transHist τ).getD j 0)).sum

/-- The frame of one reset step relative to a base state `s0`: the
controller accumulators, the model time and the `trans_prob` map are
untouched, and the occupancy and transition histories are only ever
cleared — `reset` writes `[]` into some entries and reads nothing. -/
def ResetFrame (s0 s : SimState) : Prop :=
  s.stateProbs = s0.stateProbs ∧
  s.modelTime = s0.modelTime ∧
  s.totalProbs = s0.totalProbs ∧
  s.totalVariables = s0.totalVariables ∧
  s.cycleProbs = s0.cycleProbs ∧
  s.cycleVariables = s0.cycleVariables ∧
  s.nextCycleStartProb = s0.nextCycleStartProb ∧
  (∀ nm, histGet s.stateHist nm = [] ∨
    histGet s.stateHist nm = histGet s0.stateHist nm) ∧
  (∀ nm, histGet s.transHist nm = [] ∨
    histGet s.transHist nm = histGet s0.transHist nm)

/-! ## Association-list lemmas -/

theorem keysOf_cons {β : Type} (k1 : String) (v1 : β) (rest : List (String × β)) :
    keysOf ((k1, v1) :: rest) = k1 :: keysOf rest := rfl

theorem alistGet_cons {β : Type} (k1 : String) (v1 : β) (rest : List (String × β))
    (k : String) :
    alistGet ((k1, v1) :: rest) k = if k1 = k then some v1 else alistGet rest k := rfl

theorem alistGet_eq_none_of_not_mem {β : Type} (m : List (String × β)) (k : String)
    (h : k ∉ keysOf m) : alistGet m k = none := by
  induction m with
  | nil => rfl
  | cons kv rest ih =>
    obtain ⟨k1, v1⟩ := kv
    rw [keysOf_cons, List.mem_cons, not_or] at h
    rw [alistGet_cons, if_neg (fun e => h.1 e.symm)]
    exact ih h.2

theorem alistGet_setEntry_self {β : Type} (m : List (String × β)) (k : String) (v : β) :
    alistGet (setEntry m k v) k = some v := by
  induction m with
  | nil => simp [setEntry, alistGet]
  | cons kv rest ih =>
    obtain ⟨k1, v1⟩ := kv
    by_cases h : k1 = k <;> simp [setEntry, alistGet, h, ih]

theorem setEntry_cons {β : Type} (k1 : String) (v1 : β) (rest : List (String × β))
    (k : String) (v : β) :
    setEntry ((k1, v1) :: rest) k v =
      if k1 = k then (k, v) :: rest else (k1, v1) :: setEntry rest k v := rfl

theorem alistGet_setEntry_ne {β : Type} (m : List (String × β)) (k k2 : String) (v : β)
    (h : k2 ≠ k) : alistGet (setEntry m k v) k2 = alistGet m k2 := by
  induction m with
  | nil =>
    show alistGet [(k, v)] k2 = none
    rw [alistGet_cons, if_neg (fun e => h e.symm)]
    rfl
  | cons kv rest ih =>
    obtain ⟨k1, v1⟩ := kv
    by_cases h1 : k1 = k
    · subst h1
      rw [setEntry_cons, if_pos rfl, alistGet_cons, alistGet_cons,
        if_neg (fun e => h e.symm), if_neg (fun e => h e.symm)]
    · rw [setEntry_cons, if_neg h1, alistGet_cons, alistGet_cons]
      by_cases h2 : k1 = k2
      · rw [if_pos h2, if_pos h2]
      · rw [if_neg h2, if_neg h2]
        exact ih

theorem keysOf_setEntry {β : Type} (m : List (String × β)) (k : String) (v : β) :
    keysOf (setEntry m k v) = if k ∈ keysOf m then keysOf m else keysOf m ++ [k] := by
  induction m with
  | nil => simp [setEntry, keysOf]
  | cons kv rest ih =>
    obtain ⟨k1, v1⟩ := kv
    by_cases h : k1 = k
    · subst h
      simp [setEntry, keysOf_cons]
    · simp only [setEntry, if_neg h, keysOf_cons]
      rw [ih]
      by_cases h2 : k ∈ keysOf rest
      · rw [if_pos h2, if_pos (List.mem_cons.mpr (Or.inr h2))]
      · rw [if_neg h2,
          if_neg (fun hh => (List.mem_cons.mp hh).elim (fun e => h e.symm) h2)]
        rfl

theorem nodup_keysOf_setEntry {β : Type} (m : List (String × β)) (k : String) (v : β)
    (h : (keysOf m).Nodup) : (keysOf (setEntry m k v)).Nodup := by
  rw [keysOf_setEntry]
  split_ifs with hm
  · exact h
  · refine List.Nodup.append h (List.nodup_singleton k) ?_
    intro a ha hak
    rw [List.mem_singleton] at hak
    exact hm (hak ▸ ha)

theorem histGet_setEntry_self (m : List (String × List ℚ)) (k : String) (v : List ℚ) :
    histGet (setEntry m k v) k = v := by
  simp [histGet, alistGet_setEntry_self]

theorem histGet_setEntry_ne (m : List (String × List ℚ)) (k k2 : String) (v : List ℚ)
    (h : k2 ≠ k) : histGet (setEntry m k v) k2 = histGet m k2 := by
  simp [histGet, alistGet_setEntry_ne m k k2 v h]

theorem histGet_eq_nil_of_not_mem (m : List (String × List ℚ)) (k : String)
    (h : k ∉ keysOf m) : histGet m k = [] := by
  simp [histGet, alistGet_eq_none_of_not_mem m k h]

theorem histGet_appendEntry_self (m : List (String × List ℚ)) (k : String) (x : ℚ) :
    histGet (appendEntry m k x) k = histGet m k ++ [x] := by
  simp [appendEntry, histGet_setEntry_self]

theorem histGet_appendEntry_ne (m : List (String × List ℚ)) (k k2 : String) (x : ℚ)
    (h : k2 ≠ k) : histGet (appendEntry m k x) k2 = histGet m k2 := by
  simp [appendEntry, histGet_setEntry_ne m k k2 _ h]

theorem keysOf_appendEntry (m : List (String × List ℚ)) (k : String) (x : ℚ) :
    keysOf (appendEntry m k x) = if k ∈ keysOf m then keysOf m else keysOf m ++ [k] :=
  keysOf_setEntry m k _

theorem histTotal_cons (k1 : String) (v1 : List ℚ) (rest : List (String × List ℚ)) :
    histTotal ((k1, v1) :: rest) = v1.sum + histTotal rest := by
  simp [histTotal]

theorem histTotal_setEntry_absent (m : List (String × List ℚ)) (k : String) (v : List ℚ)
    (h : k ∉ keysOf m) : histTotal (setEntry m k v) = histTotal m + v.sum := by
  induction m with
  | nil => simp [setEntry, histTotal]
  | cons kv rest ih =>
    obtain ⟨k1, v1⟩ := kv
    rw [keysOf_cons, List.mem_cons, not_or] at h
    rw [setEntry_cons, if_neg (fun e => h.1 e.symm)]
    rw [histTotal_cons, histTotal_cons, ih h.2]
    ring

theorem histTotal_setEntry_present (m : List (String × List ℚ)) (k : String) (v : List ℚ)
    (hk : k ∈ keysOf m) :
    histTotal (setEntry m k v) = histTotal m - (histGet m k).sum + v.sum := by
  induction m with
  | nil => simp [keysOf] at hk
  | cons kv rest ih =>
    obtain ⟨k1, v1⟩ := kv
    rw [keysOf_cons] at hk
    by_cases h1 : k1 = k
    · subst h1
      rw [setEntry_cons, if_pos rfl]
      rw [histTotal_cons, histTotal_cons]
      have hg : histGet ((k1, v1) :: rest) k1 = v1 := by
        simp [histGet, alistGet_cons]
      rw [hg]
      ring
    · rcases List.mem_cons.mp hk with hk1 | hk2
      · exact absurd hk1.symm h1
      · rw [setEntry_cons, if_neg h1]
        rw [histTotal_cons, histTotal_cons, ih hk2]
        simp only [histGet, alistGet_cons, if_neg h1]
        ring

theorem histTotal_appendEntry (m : List (String × List ℚ)) (k : String) (x : ℚ) :
    histTotal (appendEntry m k x) = histTotal m + x := by
  by_cases hk : k ∈ keysOf m
  · rw [appendEntry, histTotal_setEntry_present m k _ hk]
    simp
    ring
  · rw [appendEntry, histTotal_setEntry_absent m k _ hk,
      histGet_eq_nil_of_not_mem m k hk]
    simp

theorem alistGet_isSome_of_mem {β : Type} :
    ∀ (m : List (String × β)) (k : String), k ∈ keysOf m → ∃ v, alistGet m k = some v := by
  intro m
  induction m with
  | nil => intro k h; cases h
  | cons kv rest ih =>
    intro k h
    obtain ⟨k1, v1⟩ := kv
    by_cases h1 : k1 = k
    · exact ⟨v1, by rw [alistGet_cons, if_pos h1]⟩
    · rw [keysOf_cons] at h
      rcases List.mem_cons.mp h with he | he
      · exact absurd he.symm h1
      · obtain ⟨v, hv⟩ := ih k he
        exact ⟨v, by rw [alistGet_cons, if_neg h1]; exact hv⟩

theorem mem_setEntry {β : Type} :
    ∀ (m : List (String × β)) (k : String) (v : β) (kv : String × β),
      kv ∈ setEntry m k v → kv = (k, v) ∨ kv ∈ m := by
  intro m
  induction m with
  | nil =>
    intro k v kv h
    simp [setEntry] at h
    exact Or.inl h
  | cons e rest ih =>
    intro k v kv h
    obtain ⟨k1, v1⟩ := e
    by_cases h1 : k1 = k
    · rw [setEntry_cons, if_pos h1] at h
      rcases List.mem_cons.mp h with he | he
      · exact Or.inl he
      · exact Or.inr (List.mem_cons.mpr (Or.inr he))
    · rw [setEntry_cons, if_neg h1] at h
      rcases List.mem_cons.mp h with he | he
      · exact Or.inr (List.mem_cons.mpr (Or.inl he))
      · rcases ih k v kv he with hh | hh
        · exact Or.inl hh
        · exact Or.inr (List.mem_cons.mpr (Or.inr hh))

theorem histGet_foldAppend_not_mem {α : Type} (f : α → ℚ) :
    ∀ (es : List (String × α)) (acc : List (String × List ℚ)) (k : String),
      k ∉ keysOf es →
      histGet (es.foldl (fun a e => appendEntry a e.1 (f e.2)) acc) k = histGet acc k := by
  intro es
  induction es with
  | nil => intro acc k _; rfl
  | cons e rest ih =>
    intro acc k h
    obtain ⟨k1, x1⟩ := e
    rw [keysOf_cons, List.mem_cons, not_or] at h
    rw [List.foldl_cons]
    rw [ih _ k h.2, histGet_appendEntry_ne _ _ _ _ h.1]

theorem histGet_foldAppend {α : Type} (f : α → ℚ) :
    ∀ (es : List (String × α)) (acc : List (String × List ℚ)),
      (keysOf es).Nodup → ∀ (k : String) (x : α), (k, x) ∈ es →
      histGet (es.foldl (fun a e => appendEntry a e.1 (f e.2)) acc) k =
        histGet acc k ++ [f x] := by
  intro es
  induction es with
  | nil => intro acc _ k x h; cases h
  | cons e rest ih =>
    intro acc hnd k x h
    obtain ⟨k1, x1⟩ := e
    rw [keysOf_cons] at hnd
    obtain ⟨hnm, hnd2⟩ := List.nodup_cons.mp hnd
    rw [List.foldl_cons]
    rcases List.mem_cons.mp h with he | he
    · obtain ⟨hk, hx⟩ := Prod.mk.injEq .. ▸ he
      subst hk
      subst hx
      rw [histGet_foldAppend_not_mem f rest _ k hnm, histGet_appendEntry_self]
    · have hkmem : k ∈ keysOf rest := by
        exact List.mem_map.mpr ⟨(k, x), he, rfl⟩
      have hne : k ≠ k1 := fun e => hnm (e ▸ hkmem)
      rw [ih _ hnd2 k x he, histGet_appendEntry_ne _ _ _ _ hne]

theorem nextTotal_cons (k1 : String) (v1 : NextVal) (rest : List (String × NextVal)) :
    nextTotal ((k1, v1) :: rest) = v1.total + nextTotal rest := by
  simp [nextTotal]

theorem nextTotal_setEntry_absent :
    ∀ (m : List (String × NextVal)) (k : String) (v : NextVal), k ∉ keysOf m →
      nextTotal (setEntry m k v) = nextTotal m + v.total := by
  intro m
  induction m with
  | nil => intro k v _; simp [setEntry, nextTotal]
  | cons kv rest ih =>
    intro k v h
    obtain ⟨k1, v1⟩ := kv
    rw [keysOf_cons, List.mem_cons, not_or] at h
    rw [setEntry_cons, if_neg (fun e => h.1 e.symm)]
    rw [nextTotal_cons, nextTotal_cons, ih k v h.2]
    ring

theorem nextTotal_setEntry_acc_append :
    ∀ (m : List (String × NextVal)) (k : String) (vs : List ℚ) (x : ℚ),
      alistGet m k = some (.acc vs) →
      nextTotal (setEntry m k (.acc (vs ++ [x]))) = nextTotal m + x := by
  intro m
  induction m with
  | nil => intro k vs x h; cases h
  | cons kv rest ih =>
    intro k vs x h
    obtain ⟨k1, v1⟩ := kv
    rw [alistGet_cons] at h
    by_cases h1 : k1 = k
    · rw [if_pos h1] at h
      obtain rfl : v1 = NextVal.acc vs := by injection h
      rw [setEntry_cons, if_pos h1, nextTotal_cons, nextTotal_cons]
      simp [NextVal.total]
      ring
    · rw [if_neg h1] at h
      rw [setEntry_cons, if_neg h1, nextTotal_cons, nextTotal_cons, ih k vs x h]
      ring

/-- Appending to `next_cycle_start_prob` during a cycle: on the mid-cycle
shape it always succeeds, adds the appended value to the scheduled total,
preserves the shape, and creates the key if absent. -/
theorem nextAppend_spec (m : List (String × NextVal)) (k : String) (x : ℚ)
    (hacc : AllAcc m) :
    ∃ m', nextAppend m k x = some m' ∧ nextTotal m' = nextTotal m + x ∧
      AllAcc m' ∧
      keysOf m' = (if k ∈ keysOf m then keysOf m else keysOf m ++ [k]) := by
  by_cases hk : k ∈ keysOf m
  · obtain ⟨v, hv⟩ := alistGet_isSome_of_mem m k hk
    have hmem : (k, v) ∈ m := by
      clear hacc
      induction m with
      | nil => cases hv
      | cons kv rest ih =>
        obtain ⟨k1, v1⟩ := kv
        rw [alistGet_cons] at hv
        by_cases h1 : k1 = k
        · rw [if_pos h1] at hv
          obtain rfl : v1 = v := by injection hv
          exact h1 ▸ List.mem_cons_self _ _
        · rw [if_neg h1] at hv
          rw [keysOf_cons] at hk
          rcases List.mem_cons.mp hk with he | he
          · exact absurd he.symm h1
          · exact List.mem_cons.mpr (Or.inr (ih he hv))
    obtain ⟨vs, hvs⟩ := hacc (k, v) hmem
    subst hvs
    refine ⟨setEntry m k (.acc (vs ++ [x])), ?_, ?_, ?_, ?_⟩
    · rw [nextAppend, hv]
    · exact nextTotal_setEntry_acc_append m k vs x hv
    · intro kv hkv
      rcases mem_setEntry m k _ kv hkv with he | he
      · exact ⟨vs ++ [x], by rw [he]⟩
      · exact hacc kv he
    · rw [keysOf_setEntry]
  · have hv : alistGet m k = none := alistGet_eq_none_of_not_mem m k hk
    refine ⟨setEntry m k (.acc [x]), ?_, ?_, ?_, ?_⟩
    · rw [nextAppend, hv]
    · rw [nextTotal_setEntry_absent m k _ hk]
      simp [NextVal.total]
    · intro kv hkv
      rcases mem_setEntry m k _ kv hkv with he | he
      · exact ⟨[x], by rw [he]⟩
      · exact hacc kv he
    · rw [keysOf_setEntry]

theorem mem_of_alistGet {β : Type} :
    ∀ (m : List (String × β)) (k : String) (v : β),
      alistGet m k = some v → (k, v) ∈ m := by
  intro m
  induction m with
  | nil => intro k v h; cases h
  | cons kv rest ih =>
    intro k v h
    obtain ⟨k1, v1⟩ := kv
    rw [alistGet_cons] at h
    by_cases h1 : k1 = k
    · rw [if_pos h1] at h
      obtain rfl : v1 = v := by injection h
      exact h1 ▸ List.mem_cons_self _ _
    · rw [if_neg h1] at h
      exact List.mem_cons.mpr (Or.inr (ih k v h))

/-! ## Mediator lemmas -/

theorem selectProb_pair (method : CountMethod) (w0 w1 : ℚ) :
    selectProb method [w0, w1] = some (selVal method w0 w1) := by
  cases method <;> simp [selectProb, selVal]

theorem handleReport_pair (method : CountMethod) (rate : ℚ) (s : SimState)
    (key : String) (w0 w1 : ℚ) (vars : VarMap) :
    handleReport method rate s key [w0, w1] vars = some
      { s with
        cycleProbs := appendEntry s.cycleProbs key (selVal method w0 w1),
        cycleVariables := vars.foldl
          (fun acc kv =>
            appendEntry acc kv.1 (kv.2 * selVal method w0 w1 / (1 + rate) ^ s.modelTime))
          s.cycleVariables } := by
  rw [handleReport, selectProb_pair]
  rfl

theorem handleNodeMessage_fromState (method : CountMethod) (rate : ℚ) (s : SimState)
    (nm : String) (window : List ℚ) (vars : VarMap) :
    handleNodeMessage method rate s (.fromState nm window vars) =
      handleReport method rate s nm window vars := rfl

theorem handleNodeMessage_fromTrans_pair (method : CountMethod) (rate : ℚ)
    (s : SimState) (d : String) (w0 w1 : ℚ) (vars : VarMap)
    (next : List (String × NextVal))
    (hnext : nextAppend s.nextCycleStartProb d w1 = some next) :
    handleNodeMessage method rate s (.fromTrans d [w0, w1] vars) =
      handleReport method rate { s with nextCycleStartProb := next } d [w0, w1] vars := by
  rw [handleNodeMessage, hnext]
  rfl

/-! ## Claims C9, C7, C8, C10, C5 -/

/-- C9: a message from a node that is neither a `MarkovState` nor a
`StateTransition` makes `handle_node_message` return without raising and
without modifying any controller state (the result is the input state
unchanged, hence in particular the per-cycle accumulators, the next-cycle
start-mass map, the cumulative output series and the model time are all
unchanged). -/
theorem unknown_node_messages_ignored (method : CountMethod) (rate : ℚ)
    (s : SimState) (payload : VarMap) :
    handleNodeMessage method rate s (.fromOther payload) = some s := rfl

/-- C7: for a two-element window `[w0, w1]` reported by a state or a
transition, the scalar appended to that cycle's probability accumulator is
`w0` under `count_method='start'`, `w1` under `'end'`, and `(w0+w1)/2`
under `'half'`. -/
theorem count_method_selects_window (method : CountMethod) (rate : ℚ)
    (s : SimState) (nm d : String) (w0 w1 : ℚ) (vars vars2 : VarMap)
    (hacc : AllAcc s.nextCycleStartProb) :
    (∃ s1, handleNodeMessage method rate s (.fromState nm [w0, w1] vars) = some s1 ∧
       histGet s1.cycleProbs nm = histGet s.cycleProbs nm ++ [selVal method w0 w1]) ∧
    (∃ s2, handleNodeMessage method rate s (.fromTrans d [w0, w1] vars2) = some s2 ∧
       histGet s2.cycleProbs d = histGet s.cycleProbs d ++ [selVal method w0 w1]) ∧
    selVal .mstart w0 w1 = w0 ∧ selVal .mend w0 w1 = w1 ∧
    selVal .mhalf w0 w1 = (w0 + w1) / 2 := by
  refine ⟨?_, ?_, rfl, rfl, rfl⟩
  · refine ⟨_, by rw [handleNodeMessage_fromState, handleReport_pair], ?_⟩
    exact histGet_appendEntry_self _ _ _
  · obtain ⟨next, hnext, -, -, -⟩ := nextAppend_spec s.nextCycleStartProb d w1 hacc
    refine ⟨_, by rw [handleNodeMessage_fromTrans_pair method rate s d w0 w1 vars2 next hnext,
      handleReport_pair], ?_⟩
    exact histGet_appendEntry_self _ _ _

/-- Witness for C7 at a concrete input. -/
theorem count_method_selects_window_witness :
    (∃ s1, handleNodeMessage .mhalf 0 (initSim exModel) (.fromState "A" [1, 0] []) = some s1 ∧
       histGet s1.cycleProbs "A" = histGet (initSim exModel).cycleProbs "A" ++ [selVal .mhalf 1 0]) ∧
    (∃ s2, handleNodeMessage .mhalf 0 (initSim exModel) (.fromTrans "B" [1, 0] []) = some s2 ∧
       histGet s2.cycleProbs "B" = histGet (initSim exModel).cycleProbs "B" ++ [selVal .mhalf 1 0]) ∧
    selVal .mstart 1 0 = 1 ∧ selVal .mend 1 0 = 0 ∧
    selVal .mhalf 1 0 = (1 + 0) / 2 := by
  have h := count_method_selects_window .mhalf 0 (initSim exModel) "A" "B" 1 0 [] []
    (by intro kv hkv; simp [initSim] at hkv)
  exact ⟨h.1, h.2.1, rfl, rfl, rfl⟩

/-- C8: a variable entry `(k, v)` remaining in a handled report contributes
exactly `v * p / (1 + r) ^ t` to this cycle's accumulator for `k`, where
`p` is the selected window scalar, `r` the discount rate and `t` the model
time; and `end_one_cycle` appends each such accumulator's sum to that
variable's column of the output table. -/
theorem discounted_variable_contribution (method : CountMethod) (rate : ℚ)
    (s : SimState) (nm : String) (w0 w1 : ℚ) (vars : VarMap) (k : String) (v : ℚ)
    (hnd : (varKeys vars).Nodup) (hkv : (k, v) ∈ vars) :
    (∃ s1, handleNodeMessage method rate s (.fromState nm [w0, w1] vars) = some s1 ∧
       histGet s1.cycleVariables k =
         histGet s.cycleVariables k ++ [v * selVal method w0 w1 / (1 + rate) ^ s.modelTime]) ∧
    (∀ s2 : SimState, (keysOf s2.cycleVariables).Nodup →
       ∀ (k2 : String) (l : List ℚ), alistGet s2.cycleVariables k2 = some l →
       histGet (endOneCycle s2).totalVariables k2 =
         histGet s2.totalVariables k2 ++ [l.sum]) := by
  constructor
  · refine ⟨_, by rw [handleNodeMessage_fromState, handleReport_pair], ?_⟩
    exact histGet_foldAppend (fun x => x * selVal method w0 w1 / (1 + rate) ^ s.modelTime)
      vars s.cycleVariables hnd k v hkv
  · intro s2 hnd2 k2 l hl
    exact histGet_foldAppend (fun x => x.sum) s2.cycleVariables s2.totalVariables hnd2
      k2 l (mem_of_alistGet _ _ _ hl)

/-- Witness for C8 at a concrete input. -/
theorem discounted_variable_contribution_witness :
    (∃ s1, handleNodeMessage .mstart (1/10) (initSim exModel)
        (.fromState "A" [1, 0] [("cost", 7)]) = some s1 ∧
       histGet s1.cycleVariables "cost" =
         histGet (initSim exModel).cycleVariables "cost" ++
           [7 * selVal .mstart 1 0 / (1 + 1/10) ^ (initSim exModel).modelTime]) ∧
    (∀ s2 : SimState, (keysOf s2.cycleVariables).Nodup →
       ∀ (k2 : String) (l : List ℚ), alistGet s2.cycleVariables k2 = some l →
       histGet (endOneCycle s2).totalVariables k2 =
         histGet s2.totalVariables k2 ++ [l.sum]) :=
  discounted_variable_contribution .mstart (1/10) (initSim exModel) "A" 1 0
    [("cost", 7)] "cost" 7 (by simp [varKeys]) (by simp)

/-- C10: `StateTransition.reset` clears only the transition's own
cumulative probability and variable histories; the destination state's
occupancy history, current probability and every other piece of state are
unchanged, as are all other transitions' histories (the override does not
recurse into the destination child, which is also why `reset` terminates
on cyclic transition graphs — in the embedding the transition is a leaf). -/
theorem state_transition_reset_frame (nm : String) (p : Prob) (d : String)
    (v : VarMap) (s : SimState) (other : String) (hne : other ≠ nm) :
    (TNode.reset (.trans nm p d v) s).stateHist = s.stateHist ∧
    (TNode.reset (.trans nm p d v) s).stateProbs = s.stateProbs ∧
    (TNode.reset (.trans nm p d v) s).modelTime = s.modelTime ∧
    (TNode.reset (.trans nm p d v) s).totalProbs = s.totalProbs ∧
    (TNode.reset (.trans nm p d v) s).totalVariables = s.totalVariables ∧
    (TNode.reset (.trans nm p d v) s).cycleProbs = s.cycleProbs ∧
    (TNode.reset (.trans nm p d v) s).cycleVariables = s.cycleVariables ∧
    (TNode.reset (.trans nm p d v) s).nextCycleStartProb = s.nextCycleStartProb ∧
    histGet (TNode.reset (.trans nm p d v) s).transHist nm = [] ∧
    alistGet (TNode.reset (.trans nm p d v) s).transVarHist nm = some [] ∧
    histGet (TNode.reset (.trans nm p d v) s).transHist other = histGet s.transHist other ∧
    alistGet (TNode.reset (.trans nm p d v) s).transVarHist other =
      alistGet s.transVarHist other := by
  rw [TNode.reset]
  refine ⟨rfl, rfl, rfl, rfl, rfl, rfl, rfl, rfl, ?_, ?_, ?_, ?_⟩
  · exact histGet_setEntry_self _ _ _
  · exact alistGet_setEntry_self _ _ _
  · exact histGet_setEntry_ne _ _ _ _ hne
  · exact alistGet_setEntry_ne _ _ _ _ hne

/-- Witness for C10 at a concrete input. -/
theorem state_transition_reset_frame_witness :
    (TNode.reset (.trans "ab" (.withRange 1) "B" []) (initSim exModel)).stateHist =
      (initSim exModel).stateHist ∧
    (TNode.reset (.trans "ab" (.withRange 1) "B" []) (initSim exModel)).stateProbs =
      (initSim exModel).stateProbs ∧
    (TNode.reset (.trans "ab" (.withRange 1) "B" []) (initSim exModel)).modelTime =
      (initSim exModel).modelTime ∧
    (TNode.reset (.trans "ab" (.withRange 1) "B" []) (initSim exModel)).totalProbs =
      (initSim exModel).totalProbs ∧
    (TNode.reset (.trans "ab" (.withRange 1) "B" []) (initSim exModel)).totalVariables =
      (initSim exModel).totalVariables ∧
    (TNode.reset (.trans "ab" (.withRange 1) "B" []) (initSim exModel)).cycleProbs =
      (initSim exModel).cycleProbs ∧
    (TNode.reset (.trans "ab" (.withRange 1) "B" []) (initSim exModel)).cycleVariables =
      (initSim exModel).cycleVariables ∧
    (TNode.reset (.trans "ab" (.withRange 1) "B" []) (initSim exModel)).nextCycleStartProb =
      (initSim exModel).nextCycleStartProb ∧
    histGet (TNode.reset (.trans "ab" (.withRange 1) "B" []) (initSim exModel)).transHist "ab" = [] ∧
    alistGet (TNode.reset (.trans "ab" (.withRange 1) "B" []) (initSim exModel)).transVarHist "ab" =
      some [] ∧
    histGet (TNode.reset (.trans "ab" (.withRange 1) "B" []) (initSim exModel)).transHist "bb" =
      histGet (initSim exModel).transHist "bb" ∧
    alistGet (TNode.reset (.trans "ab" (.withRange 1) "B" []) (initSim exModel)).transVarHist "bb" =
      alistGet (initSim exModel).transVarHist "bb" :=
  state_transition_reset_frame "ab" (.withRange 1) "B" [] (initSim exModel) "bb"
    (by decide)

/-- C5: a `ComplementProbability` whose sibling set has been populated by
`set_other_probabilities` — the complement itself excluded — evaluates at
every cycle `t` to `1` minus the sum of the siblings' values at `t`.  The
siblings `p1, p2` are universally quantified, and the complement recomputes
from their current values on each call, so the identity holds both before
and after any resampling replaces a sibling's scalar. -/
theorem complement_probability_value (p1 p2 q : Prob) (t : ℕ) :
    (setOtherProbabilities [p1, p2, q] 2).value t = 1 - (p1.value t + p2.value t) := by
  show (Prob.complement (List.eraseIdx [p1, p2, q] 2)).value t = _
  have he : List.eraseIdx [p1, p2, q] 2 = [p1, p2] := rfl
  rw [he]
  rw [Prob.value, Prob.sumValues, Prob.sumValues, Prob.sumValues]
  ring

/-! ## Concrete run evaluations -/

theorem exModel_run_first :
    runLoop exModel (initSim exModel) = some exRun1 := by
  simp [exModel, initSim, exRun1, runLoop, MarkovController.reset,
    resetMemory, MState.reset, TNode.reset, TNode.resetList, probOf, runCycles,
    startOneCycle, deliverAll, sendToNode, findState, MState.start, TNode.forward,
    TNode.forwardList, handleMsgs, handleNodeMessage, handleReport, selectProb,
    nextAppend, alistGet, setEntry, appendEntry, histGet, endOneCycle,
    NextVal.total, mergeVars, mergeVarsTrans, unionKeys, varKeys, zeroVars,
    stateVarsOf, Prob.value, keysOf]

theorem exModel_run_second :
    runLoop exModel exRun1 = some exRun2 := by
  simp only [show (1:ℚ) + 1 = 2 from by norm_num, exModel, exRun1, exRun2]
  simp [exModel, exRun1, exRun2, runLoop, MarkovController.reset,
    resetMemory, MState.reset, TNode.reset, TNode.resetList, probOf, runCycles,
    startOneCycle, deliverAll, sendToNode, findState, MState.start, TNode.forward,
    TNode.forwardList, handleMsgs, handleNodeMessage, handleReport, selectProb,
    nextAppend, alistGet, setEntry, appendEntry, histGet, endOneCycle,
    NextVal.total, mergeVars, mergeVarsTrans, unionKeys, varKeys, zeroVars,
    stateVarsOf, Prob.value, keysOf, show (1:ℚ) + 1 = 2 from by norm_num]

theorem exModel_verify_true : exModel.verify = true := by
  norm_num [exModel, MarkovController.verify, MState.verify, TNode.verify,
    TNode.verifyList, sumChildProbs, TNode.probOfNode, Prob.value, iscloseOne]

theorem exModelS_seed :
    runLoop exModelS (initSim exModelS) = runCycles exModelS 2 exSeedS := by
  simp [exModelS, initSim, exSeedS, runLoop, MarkovController.reset,
    resetMemory, MState.reset, TNode.reset, TNode.resetList, probOf, setEntry,
    alistGet, Prob.value, exModelS]

theorem exModelS_cycle1 : runCycles exModelS 1 exSeedS = some exMidS := by
  simp [exModelS, exSeedS, exMidS, runCycles, startOneCycle, deliverAll,
    sendToNode, findState, MState.start, TNode.forward, TNode.forwardList,
    handleMsgs, handleNodeMessage, handleReport, selectProb, nextAppend,
    alistGet, setEntry, appendEntry, histGet, endOneCycle, NextVal.total,
    mergeVars, mergeVarsTrans, unionKeys, varKeys, zeroVars, stateVarsOf,
    Prob.value, keysOf]

theorem exModelS_cycles : runCycles exModelS 2 exSeedS = some exFinS := by
  simp [exModelS, exSeedS, exFinS, runCycles, startOneCycle, deliverAll,
    sendToNode, findState, MState.start, TNode.forward, TNode.forwardList,
    handleMsgs, handleNodeMessage, handleReport, selectProb, nextAppend,
    alistGet, setEntry, appendEntry, histGet, endOneCycle, NextVal.total,
    mergeVars, mergeVarsTrans, unionKeys, varKeys, zeroVars, stateVarsOf,
    Prob.value, keysOf]

theorem exModelW_verify_true : exModelW.verify = true := by
  norm_num [exModelW, MarkovController.verify, MState.verify, TNode.verify,
    TNode.verifyList, sumChildProbs, TNode.probOfNode, Prob.value, iscloseOne]

theorem exModelW_run_first :
    runLoop exModelW (initSim exModelW) = some exRunW1 := by
  simp [exModelW, initSim, exRunW1, runLoop, MarkovController.reset,
    resetMemory, MState.reset, TNode.reset, TNode.resetList, probOf, runCycles,
    startOneCycle, deliverAll, sendToNode, findState, MState.start, TNode.forward,
    TNode.forwardList, handleMsgs, handleNodeMessage, handleReport, selectProb,
    nextAppend, alistGet, setEntry, appendEntry, histGet, endOneCycle,
    NextVal.total, mergeVars, mergeVarsTrans, unionKeys, varKeys, zeroVars,
    stateVarsOf, Prob.value, keysOf]
  norm_num

theorem exModelW_run_second :
    runLoop exModelW exRunW1 = some exRunW2 := by
  simp [exModelW, exRunW1, exRunW2, runLoop, MarkovController.reset,
    resetMemory, MState.reset, TNode.reset, TNode.resetList, probOf, runCycles,
    startOneCycle, deliverAll, sendToNode, findState, MState.start, TNode.forward,
    TNode.forwardList, handleMsgs, handleNodeMessage, handleReport, selectProb,
    nextAppend, alistGet, setEntry, appendEntry, histGet, endOneCycle,
    NextVal.total, mergeVars, mergeVarsTrans, unionKeys, varKeys, zeroVars,
    stateVarsOf, Prob.value, keysOf]
  norm_num

/-! ## Variable-merge lemmas -/

theorem mem_unionKeys (ks1 ks2 : List String) (k : String) :
    k ∈ unionKeys ks1 ks2 ↔ k ∈ ks1 ∨ k ∈ ks2 := by
  simp only [unionKeys, List.mem_append, List.mem_filter, decide_eq_true_eq]
  constructor
  · rintro (h | ⟨h, -⟩)
    · exact Or.inl h
    · exact Or.inr h
  · rintro (h | h)
    · exact Or.inl h
    · by_cases h1 : k ∈ ks1
      · exact Or.inl h1
      · exact Or.inr ⟨h, h1⟩

theorem varKeys_keyMap (ks : List String) (f : String → ℚ) :
    varKeys (ks.map (fun k => (k, f k))) = ks := by
  induction ks with
  | nil => rfl
  | cons k1 rest ih => simp only [List.map_cons, varKeys, keysOf] at ih ⊢; rw [ih]

theorem varGet_keyMap (ks : List String) (f : String → ℚ) (k : String)
    (h : k ∈ ks) : varGet (ks.map (fun k => (k, f k))) k = f k := by
  induction ks with
  | nil => cases h
  | cons k1 rest ih =>
    by_cases h1 : k1 = k
    · subst h1
      simp [varGet, alistGet_cons]
    · rcases List.mem_cons.mp h with he | he
      · exact absurd he.symm h1
      · simpa [varGet, alistGet_cons, h1] using ih he

/-! ## Claims C3, C4 -/

/-- C3 counterexample: a key present only in the destination state's
variables does *not* appear in the transition's reported variables.  Here
the destination `B` carries `cost = 5`, the transition and the incoming
variables are empty, and the emitted report's variable dict is empty — the
claim would require a `cost` entry (of value `0 + 0 + 5`). -/
theorem transition_forward_drops_destination_variables :
    varGet (stateVarsOf exDstVarStates "B") "cost" = 5 ∧
    TNode.forward exDstVarStates 0 1 [] (.trans "t" (.withRange 1) "B" []) [] =
      ([("t", [0, 1])], [.fromTrans "B" [0, 1] []]) ∧
    varKeys (mergeVarsTrans [] [] (stateVarsOf exDstVarStates "B")) = [] := by
  refine ⟨?_, ?_, ?_⟩
  · simp [exDstVarStates, stateVarsOf, findState, varGet, alistGet]
  · simp [TNode.forward, exDstVarStates, stateVarsOf, findState, histGet, alistGet,
      setEntry, mergeVarsTrans, unionKeys, varKeys, Prob.value]
  · simp [mergeVarsTrans, unionKeys, varKeys]

/-- C3 amended: `StateTransition.forward` reports its output variables over
the union of the keys of `inputVariables` and the transition's *own*
variables only (a key present only in the destination's variables does not
appear); every reported key's value is the three-way sum of that key's
values in the input map, the transition's own map and the destination
state's map, each missing key counting as `0`. -/
theorem transition_forward_variable_union (states : List MState) (t : ℕ)
    (inputProb : ℚ) (inputVariables : VarMap) (nm : String) (p : Prob) (d : String)
    (own : VarMap) (th : List (String × List ℚ)) :
    (∃ th2 w,
      TNode.forward states t inputProb inputVariables (.trans nm p d own) th =
        (th2, [.fromTrans d w (mergeVarsTrans inputVariables own (stateVarsOf states d))])) ∧
    (∀ k, k ∈ varKeys (mergeVarsTrans inputVariables own (stateVarsOf states d)) ↔
       (k ∈ varKeys inputVariables ∨ k ∈ varKeys own)) ∧
    (∀ k, (k ∈ varKeys inputVariables ∨ k ∈ varKeys own) →
       varGet (mergeVarsTrans inputVariables own (stateVarsOf states d)) k =
         varGet inputVariables k + varGet own k + varGet (stateVarsOf states d) k) := by
  refine ⟨⟨_, _, by rw [TNode.forward]⟩, ?_, ?_⟩
  · intro k
    rw [mergeVarsTrans, varKeys_keyMap, mem_unionKeys]
  · intro k hk
    rw [mergeVarsTrans, varGet_keyMap]
    rw [mem_unionKeys]
    exact hk

/-- Witness for the C3 amended theorem at a concrete input. -/
theorem transition_forward_variable_union_witness :
    (∃ th2 w,
      TNode.forward exDstVarStates 0 1 [("u", 2)] (.trans "t" (.withRange 1) "B" [("c", 3)]) [] =
        (th2, [.fromTrans "B" w (mergeVarsTrans [("u", 2)] [("c", 3)] (stateVarsOf exDstVarStates "B"))])) ∧
    (∀ k, k ∈ varKeys (mergeVarsTrans [("u", 2)] [("c", 3)] (stateVarsOf exDstVarStates "B")) ↔
       (k ∈ varKeys [("u", (2:ℚ))] ∨ k ∈ varKeys [("c", (3:ℚ))])) ∧
    (∀ k, (k ∈ varKeys [("u", (2:ℚ))] ∨ k ∈ varKeys [("c", (3:ℚ))]) →
       varGet (mergeVarsTrans [("u", 2)] [("c", 3)] (stateVarsOf exDstVarStates "B")) k =
         varGet [("u", 2)] k + varGet [("c", 3)] k + varGet (stateVarsOf exDstVarStates "B") k) :=
  transition_forward_variable_union exDstVarStates 0 1 [("u", 2)] "t" (.withRange 1) "B"
    [("c", 3)] []

/-- C4 amended: the two-element window `MarkovState.start` reports is
`initial_prob[t : t+2]` after the appends; its first element equals the
delivered mass only at cycle `0`.  At every later cycle of a run in which
the state has been started each cycle, the history is the cycle-0 mass
followed by the `0` placeholders, which no one ever corrects, so both
window elements are `0` regardless of the delivered mass `m`. -/
theorem state_start_window (states : List MState) (st : MState) (m : ℚ) (s : SimState) :
    (histGet s.stateHist st.nodeName = [] →
       (MState.start states st 0 m s).2.head? =
         some (.fromState st.nodeName [m, 0] st.vars)) ∧
    (∀ t m0, 1 ≤ t → histGet s.stateHist st.nodeName = m0 :: List.replicate t 0 →
       (MState.start states st t m s).2.head? =
         some (.fromState st.nodeName [0, 0] st.vars)) := by
  constructor
  · intro h
    rw [MState.start]
    simp [h]
  · intro t m0 ht h
    obtain ⟨tt, rfl⟩ := Nat.exists_eq_add_of_le ht
    rw [MState.start]
    have ht0 : ¬ (1 + tt = 0) := by omega
    have hwin : (((m0 :: List.replicate (1 + tt) (0:ℚ)) ++ [0]).drop (1 + tt)).take 2 =
        [0, 0] := by
      rw [List.cons_append, ← List.replicate_succ']
      rw [show (1 + tt) = tt + 1 from by omega]
      rw [List.drop_succ_cons]
      rw [List.drop_replicate, List.take_replicate]
      rw [show tt + 1 + 1 - tt = 2 from by omega]
      rfl
    simp only [h, if_neg ht0, hwin, List.head?]

/-! ## Claims C1, C2 (counterexample), C4 (counterexample) -/

/-- C1 (code-bug exhibit): `exModelW` is fully built and verified, and no
probability is resampled between runs; yet two successive `run()` calls
complete and produce different output-table pairs.  `MarkovState.start`
overwrote each state's `trans_prob` with that cycle's start mass, the
reset performed at the start of the second `run()` does not restore it,
and `run()` reseeds the initial masses from exactly that field, so the
second run starts from masses `1/2, 1/2` instead of `1, 0` (first
probability table: `A ↦ [3/4, 3/8], B ↦ [1/4, 5/8]`; second:
`A ↦ [3/8, 3/16], B ↦ [5/8, 13/16]`). -/
theorem run_twice_differs :
    exModelW.verify = true ∧
    MarkovController.run exModelW (initSim exModelW) = some exRunW1 ∧
    MarkovController.run exModelW exRunW1 = some exRunW2 ∧
    outputTables exRunW1 ≠ outputTables exRunW2 :=
  ⟨exModelW_verify_true,
   by rw [MarkovController.run, exModelW_run_first]; rfl,
   by rw [MarkovController.run, exModelW_run_second]; rfl,
   by norm_num [outputTables, fromDict, sameLengths, exRunW1, exRunW2]⟩

/-- C2 counterexample: `exModel` is closed in the claim's sense — every
node's children's probabilities sum to 1 at every cycle, every transition's
destination is a controller-owned state, and the initial probabilities sum
to 1 — yet `run()` returns no probability table at all: state `A` has no
incoming transition, is therefore never started after cycle 0, its
accumulated column stops at one entry while `B`'s reaches two, and the
final `pd.DataFrame.from_dict(self.total_probs)` raises `ValueError` on
the ragged columns.  (Before that raise, the accumulated cycle-1 row sums
to `0`, the mass `a_to_b` moved into `B` being reported by nobody.) -/
theorem mass_conservation_counterexample :
    exModel.closedAt 0 = true ∧ exModel.closedAt 1 = true ∧
    (∀ d ∈ exModel.dstNames, d ∈ exModel.stateNames) ∧
    (exModel.states.map (fun st => st.initProb.value 0)).sum = 1 ∧
    runLoop exModel (initSim exModel) = some exRun1 ∧
    exRun1.totalProbs = [("A", [1]), ("B", [0, 0])] ∧
    rowSum exRun1.totalProbs 1 = 0 ∧
    MarkovController.run exModel (initSim exModel) = none := by
  refine ⟨?_, ?_, ?_, ?_, exModel_run_first, rfl, ?_,
    by rw [MarkovController.run, exModel_run_first]; rfl⟩
  · simp [exModel, MarkovController.closedAt, TNode.closedAt, TNode.closedAtList,
      sumProbsAt, TNode.probOfNode, Prob.value]
  · simp [exModel, MarkovController.closedAt, TNode.closedAt, TNode.closedAtList,
      sumProbsAt, TNode.probOfNode, Prob.value]
  · intro d hd
    simp [exModel, MarkovController.dstNames, TNode.dstNames, TNode.dstNamesList,
      MarkovController.stateNames] at hd ⊢
    simp [hd]
  · simp [exModel, Prob.value]
  · simp [exRun1, rowSum]

/-- C4 counterexample: in the run of `exModelS` the controller delivers
cycle-start mass `1` to state `S` at cycle `1` (the pending entry after the
first cycle is `S ↦ 1`), but the state's report at that delivery carries
the window `[0, 0]`: its first element is the untouched `0` placeholder,
not the delivered mass `1`. -/
theorem state_start_window_counterexample :
    MarkovController.run exModelS (initSim exModelS) = runCycles exModelS 2 exSeedS ∧
    runCycles exModelS 1 exSeedS = some exMidS ∧
    alistGet exMidS.nextCycleStartProb "S" = some (.scalar 1) ∧
    exMidS.modelTime = 1 ∧
    (sendToNode exModelS "S" 1 exMidS).map (fun r => r.2) =
      some [.fromState "S" [0, 0] [], .fromTrans "S" [1, 1] []] ∧
    (0 : ℚ) ≠ 1 := by
  refine ⟨by rw [MarkovController.run, exModelS_seed, exModelS_cycles]; rfl,
    exModelS_cycle1, rfl, rfl, ?_, by norm_num⟩
  simp [sendToNode, findState, exModelS, exMidS, MState.start, TNode.forwardList,
    TNode.forward, histGet, alistGet, setEntry, zeroVars, mergeVarsTrans,
    unionKeys, varKeys, stateVarsOf, Prob.value]

/-- Witness for the C4 amended theorem at concrete inputs: cycle 0 on a
fresh history, and cycle 1 on the mid-run history of `exModelS`. -/
theorem state_start_window_witness :
    (histGet exSeedS.stateHist "S" = [] →
       (MState.start exModelS.states
           { nodeName := "S", initProb := .withRange 1, vars := [],
             children := [.trans "ss" (.withRange 1) "S" []] } 0 1 exSeedS).2.head? =
         some (.fromState "S" [1, 0] [])) ∧
    ((1:ℕ) ≤ 1 ∧ histGet exMidS.stateHist "S" = 1 :: List.replicate 1 0 ∧
       (MState.start exModelS.states
           { nodeName := "S", initProb := .withRange 1, vars := [],
             children := [.trans "ss" (.withRange 1) "S" []] } 1 1 exMidS).2.head? =
         some (.fromState "S" [0, 0] [])) := by
  constructor
  · exact (state_start_window exModelS.states
      { nodeName := "S", initProb := .withRange 1, vars := [],
        children := [.trans "ss" (.withRange 1) "S" []] } 1 exSeedS).1
  · refine ⟨le_refl 1, by simp [exMidS, histGet, alistGet, List.replicate], ?_⟩
    exact (state_start_window exModelS.states
      { nodeName := "S", initProb := .withRange 1, vars := [],
        children := [.trans "ss" (.withRange 1) "S" []] } 1 exMidS).2 1 1 (le_refl 1)
      (by simp [exMidS, histGet, alistGet, List.replicate])

/-! ## Claim C6 -/

theorem TNode.inductionOn (P : TNode → Prop)
    (h1 : ∀ nm p d v, P (.trans nm p d v))
    (h2 : ∀ nm p v cs, (∀ c ∈ cs, P c) → P (.chance nm p v cs)) : ∀ n, P n := by
  intro n
  refine @TNode.rec P (fun cs => ∀ c ∈ cs, P c) ?_ ?_ ?_ ?_ n
  · exact fun nm p v cs ih => h2 nm p v cs ih
  · exact h1
  · intro c hc
    cases hc
  · intro c cs hc hcs d hd
    rcases List.mem_cons.mp hd with h | h
    · exact h ▸ hc
    · exact hcs d h

theorem tnode_verify_iff :
    ∀ n : TNode, (TNode.verify n = true ↔ ∀ x ∈ TNode.childSums n, iscloseOne x = true) := by
  refine TNode.inductionOn _ ?_ ?_
  · intro nm p d v
    simp [TNode.verify, TNode.childSums]
  · intro nm p v cs ih
    have hlist : (TNode.verifyList cs = true ↔
        ∀ x ∈ TNode.childSumsList cs, iscloseOne x = true) := by
      induction cs with
      | nil => simp [TNode.verifyList, TNode.childSumsList]
      | cons c rest ihr =>
        have hc := ih c (List.mem_cons_self c rest)
        have hrest := ihr (fun d hd => ih d (List.mem_cons.mpr (Or.inr hd)))
        rw [TNode.verifyList, Bool.and_eq_true, hc, hrest]
        constructor
        · rintro ⟨ha, hb⟩ x hx
          rw [TNode.childSumsList, List.mem_append] at hx
          rcases hx with hx | hx
          · exact ha x hx
          · exact hb x hx
        · intro h
          exact ⟨fun x hx => h x (by rw [TNode.childSumsList, List.mem_append]; exact Or.inl hx),
                 fun x hx => h x (by rw [TNode.childSumsList, List.mem_append]; exact Or.inr hx)⟩
    rw [TNode.verify, Bool.and_eq_true, hlist]
    by_cases he : cs.isEmpty
    · simp [TNode.childSums, he]
    · simp only [TNode.childSums, he, if_false, Bool.false_eq_true, List.mem_append,
        List.mem_singleton]
      constructor
      · rintro ⟨ha, hb⟩ x hx
        rcases hx with hx | hx
        · exact hx ▸ ha
        · exact hb x hx
      · intro h
        exact ⟨h _ (Or.inl rfl), fun x hx => h x (Or.inr hx)⟩

theorem mstate_verify_iff (st : MState) :
    MState.verify st = true ↔
      (∀ x ∈ (if st.children.isEmpty then ([] : List ℚ) else [sumChildProbs st.children]) ++
          TNode.childSumsList st.children, iscloseOne x = true) := by
  have hlist : (TNode.verifyList st.children = true ↔
      ∀ x ∈ TNode.childSumsList st.children, iscloseOne x = true) := by
    induction st.children with
    | nil => simp [TNode.verifyList, TNode.childSumsList]
    | cons c rest ihr =>
      rw [TNode.verifyList, Bool.and_eq_true, tnode_verify_iff c, ihr]
      constructor
      · rintro ⟨ha, hb⟩ x hx
        rw [TNode.childSumsList, List.mem_append] at hx
        rcases hx with hx | hx
        · exact ha x hx
        · exact hb x hx
      · intro h
        exact ⟨fun x hx => h x (by rw [TNode.childSumsList, List.mem_append]; exact Or.inl hx),
               fun x hx => h x (by rw [TNode.childSumsList, List.mem_append]; exact Or.inr hx)⟩
  rw [MState.verify, Bool.and_eq_true, hlist]
  by_cases he : st.children.isEmpty
  · simp [he]
  · simp only [he, if_false, Bool.false_eq_true, List.mem_append, List.mem_singleton]
    constructor
    · rintro ⟨ha, hb⟩ x hx
      rcases hx with hx | hx
      · exact hx ▸ ha
      · exact hb x hx
    · intro h
      exact ⟨h _ (Or.inl rfl), fun x hx => h x (Or.inr hx)⟩

/-- C6: `verify()` on a built tree (after initialization, before any cycle)
fails if and only if some node with children — the controller itself
included, whose children's probabilities are the states' initial
probabilities — has a children's probability sum at cycle 0 that violates
`math.isclose(Σ, 1.0, rel_tol=1e-9)`; when every such sum passes, `verify`
returns `true`, and being a pure function of the tree it modifies nothing. -/
theorem verify_checks_all_child_sums (M : MarkovController) :
    (M.verify = true ↔ ∀ x ∈ M.childSums, iscloseOne x = true) ∧
    (M.verify = false ↔ ∃ x ∈ M.childSums, iscloseOne x = false) := by
  have hall : (M.states.all MState.verify = true ↔
      ∀ x ∈ (M.states.map (fun st =>
          (if st.children.isEmpty then ([] : List ℚ) else [sumChildProbs st.children]) ++
          TNode.childSumsList st.children)).flatten, iscloseOne x = true) := by
    rw [List.all_eq_true]
    constructor
    · intro h x hx
      rw [List.mem_flatten] at hx
      obtain ⟨l, hl, hxl⟩ := hx
      rw [List.mem_map] at hl
      obtain ⟨st, hst, rfl⟩ := hl
      exact (mstate_verify_iff st).mp (h st hst) x hxl
    · intro h st hst
      rw [mstate_verify_iff st]
      intro x hx
      refine h x (List.mem_flatten.mpr ⟨_, List.mem_map.mpr ⟨st, hst, rfl⟩, hx⟩)
  have hpos : (M.verify = true ↔ ∀ x ∈ M.childSums, iscloseOne x = true) := by
    rw [MarkovController.verify, Bool.and_eq_true, hall]
    by_cases he : M.states.isEmpty
    · simp [MarkovController.childSums, he]
    · simp only [MarkovController.childSums, he, if_false, Bool.false_eq_true,
        List.mem_append, List.mem_singleton]
      constructor
      · rintro ⟨ha, hb⟩ x hx
        rcases hx with hx | hx
        · exact hx ▸ ha
        · exact hb x hx
      · intro h
        exact ⟨h _ (Or.inl rfl), fun x hx => h x (Or.inr hx)⟩
  refine ⟨hpos, ?_⟩
  rw [Bool.eq_false_iff, Ne, hpos]
  push_neg
  constructor
  · rintro ⟨x, hx, hfalse⟩
    exact ⟨x, hx, by simpa using hfalse⟩
  · rintro ⟨x, hx, hfalse⟩
    exact ⟨x, hx, by simpa using hfalse⟩

/-! ## Mass conservation: the forward cascade -/

theorem msgDsts_append (l1 l2 : List NodeMsg) :
    msgDsts (l1 ++ l2) = msgDsts l1 ++ msgDsts l2 := by
  induction l1 with
  | nil => rfl
  | cons m rest ih =>
    cases m <;> simp [msgDsts, ih]

theorem drop_append_last (x : ℚ) :
    ∀ (l : List ℚ) (t : ℕ), l.length = t + 1 →
      ((l ++ [x]).drop t).take 2 = [l.getD t 0, x] := by
  intro l
  induction l with
  | nil => intro t h; simp at h
  | cons a l2 ih =>
    intro t h
    cases t with
    | zero =>
      have h2 : l2 = [] := List.length_eq_zero.mp (by simpa using h)
      subst h2
      rfl
    | succ tt =>
      have h2 : l2.length = tt + 1 := by simpa using h
      rw [List.getD_cons_succ]
      exact ih tt h2

theorem getD_append_self (l : List ℚ) (x : ℚ) : (l ++ [x]).getD l.length 0 = x := by
  induction l with
  | nil => rfl
  | cons a l2 ih => simp [List.getD_cons_succ, ih]

theorem getD_append_lt (l : List ℚ) (x : ℚ) :
    ∀ i : ℕ, i < l.length → (l ++ [x]).getD i 0 = l.getD i 0 := by
  induction l with
  | nil => intro i h; simp at h
  | cons a l2 ih =>
    intro i h
    cases i with
    | zero => rfl
    | succ j =>
      rw [List.cons_append, List.getD_cons_succ, List.getD_cons_succ]
      exact ih j (by simpa using h)

theorem forward_trans_spec (nm : String) (p : Prob) (d : String) (v : VarMap) :
    ForwardSpec (.trans nm p d v) := by
  intro states t mass vars th hclosed hnodup hlen
  have heq : TNode.forward states t mass vars (.trans nm p d v) th =
      (setEntry th nm
        ((if t = 0 then histGet th nm ++ [0] else histGet th nm) ++ [mass * p.value t]),
       [.fromTrans d
         ((((if t = 0 then histGet th nm ++ [0] else histGet th nm) ++
            [mass * p.value t]).drop t).take 2)
         (mergeVarsTrans vars v (stateVarsOf states d))]) := by
    rw [TNode.forward]
  have hmem : nm ∈ TNode.transNames (.trans nm p d v) := by
    rw [TNode.transNames]
    exact List.mem_singleton.mpr rfl
  have hlen1 := hlen nm hmem
  have htn : TNode.transNames (.trans nm p d v) = [nm] := by rw [TNode.transNames]
  by_cases ht : t = 0
  · subst ht
    have hnil : histGet th nm = [] := List.length_eq_zero.mp (by simpa using hlen1)
    rw [heq]
    have hwin : ((((if (0:ℕ) = 0 then histGet th nm ++ [0] else histGet th nm) ++
        [mass * p.value 0]).drop 0).take 2) = [0, mass * p.value 0] := by
      simp [hnil]
    rw [hwin]
    refine ⟨?_, ?_, ?_, ?_, ?_, ?_, ?_⟩
    · intro m hm
      rw [List.mem_singleton] at hm
      exact ⟨d, 0, mass * p.value 0, _, hm⟩
    · simp [msgW1, msgWindow, TNode.probOfNode, Prob.value]
    · simp [msgW0, msgWindow, htn, hnil]
    · rw [msgDsts, msgDsts, TNode.dstNames]
    · intro nm2 hnm2
      rw [htn, List.mem_singleton] at hnm2
      exact histGet_setEntry_ne th nm nm2 _ hnm2
    · intro nm2 hnm2
      rw [htn, List.mem_singleton] at hnm2
      subst hnm2
      rw [histGet_setEntry_self]
      simp [hnil]
    · rw [htn]
      simp only [List.map_cons, List.map_nil, List.sum_cons, List.sum_nil]
      rw [histGet_setEntry_self]
      simp [hnil, TNode.probOfNode]
  · have hlen2 : (histGet th nm).length = t + 1 := by
      rw [hlen1, if_neg ht]
    rw [heq]
    rw [if_neg ht]
    have hwin := drop_append_last (mass * p.value t) (histGet th nm) t hlen2
    rw [hwin]
    refine ⟨?_, ?_, ?_, ?_, ?_, ?_, ?_⟩
    · intro m hm
      rw [List.mem_singleton] at hm
      exact ⟨d, (histGet th nm).getD t 0, mass * p.value t, _, hm⟩
    · simp [msgW1, msgWindow, TNode.probOfNode, Prob.value]
    · simp [msgW0, msgWindow, htn]
    · rw [msgDsts, msgDsts, TNode.dstNames]
    · intro nm2 hnm2
      rw [htn, List.mem_singleton] at hnm2
      exact histGet_setEntry_ne th nm nm2 _ hnm2
    · intro nm2 hnm2
      rw [htn, List.mem_singleton] at hnm2
      subst hnm2
      rw [histGet_setEntry_self]
      simp [hlen2]
    · rw [htn]
      simp only [List.map_cons, List.map_nil, List.sum_cons, List.sum_nil]
      rw [histGet_setEntry_self]
      have : t + 1 = (histGet th nm).length := hlen2.symm
      rw [this, getD_append_self]
      simp [TNode.probOfNode]

theorem forwardList_spec :
    ∀ cs : List TNode, (∀ c ∈ cs, ForwardSpec c) → ForwardListSpec cs := by
  intro cs
  induction cs with
  | nil =>
    intro _ states t mass vars th _ _ _
    refine ⟨?_, ?_, ?_, ?_, ?_, ?_, ?_⟩ <;>
      simp [TNode.forwardList, sumProbsAt, TNode.transNamesList, TNode.dstNamesList, msgDsts]
  | cons c cs2 ih =>
    intro hall states t mass vars th hclosed hnodup hlen
    have hc := hall c (List.mem_cons_self c cs2)
    have ihs := ih (fun d hd => hall d (List.mem_cons.mpr (Or.inr hd)))
    rw [TNode.closedAtList, Bool.and_eq_true] at hclosed
    rw [TNode.transNamesList] at hnodup hlen
    obtain ⟨hnd1, hnd2, hdisj⟩ := List.nodup_append.mp hnodup
    have H1 := hc states t mass vars th hclosed.1 hnd1
      (fun nm hnm => hlen nm (List.mem_append.mpr (Or.inl hnm)))
    obtain ⟨h1bin, h1w1, h1w0, h1dst, h1frame, h1len, h1new⟩ := H1
    have hlen2 : ∀ nm ∈ TNode.transNamesList cs2,
        (histGet (TNode.forward states t mass vars c th).1 nm).length =
          (if t = 0 then 0 else t + 1) := by
      intro nm hnm
      rw [h1frame nm (fun hmem => hdisj hmem hnm)]
      exact hlen nm (List.mem_append.mpr (Or.inr hnm))
    have H2 := ihs states t mass vars (TNode.forward states t mass vars c th).1
      hclosed.2 hnd2 hlen2
    obtain ⟨h2bin, h2w1, h2w0, h2dst, h2frame, h2len, h2new⟩ := H2
    have heq : TNode.forwardList states t mass vars (c :: cs2) th =
        ((TNode.forwardList states t mass vars cs2 (TNode.forward states t mass vars c th).1).1,
         (TNode.forward states t mass vars c th).2 ++
           (TNode.forwardList states t mass vars cs2 (TNode.forward states t mass vars c th).1).2) := by
      rw [TNode.forwardList]
    have hsum : sumProbsAt t (c :: cs2) = c.probOfNode.value t + sumProbsAt t cs2 := by
      simp [sumProbsAt]
    rw [heq]
    refine ⟨?_, ?_, ?_, ?_, ?_, ?_, ?_⟩
    · intro m hm
      rcases List.mem_append.mp hm with hm | hm
      · exact h1bin m hm
      · exact h2bin m hm
    · rw [List.map_append, List.sum_append, h1w1, h2w1, hsum]
      ring
    · rw [List.map_append, List.sum_append, h1w0, h2w0, TNode.transNamesList,
        List.map_append, List.sum_append]
      have hcong : (TNode.transNamesList cs2).map
          (fun nm => (histGet (TNode.forward states t mass vars c th).1 nm).getD t 0) =
          (TNode.transNamesList cs2).map (fun nm => (histGet th nm).getD t 0) :=
        List.map_congr_left (fun nm hnm => by rw [h1frame nm (fun hmem => hdisj hmem hnm)])
      rw [hcong]
    · rw [msgDsts_append, h1dst, h2dst, TNode.dstNamesList]
    · intro nm hnm
      rw [TNode.transNamesList, List.mem_append, not_or] at hnm
      rw [h2frame nm hnm.2, h1frame nm hnm.1]
    · intro nm hnm
      rw [TNode.transNamesList, List.mem_append] at hnm
      rcases hnm with hnm | hnm
      · rw [h2frame nm (fun hmem => hdisj hnm hmem)]
        exact h1len nm hnm
      · exact h2len nm hnm
    · rw [TNode.transNamesList, List.map_append, List.sum_append]
      have hcong : (TNode.transNames c).map
          (fun nm =>
            (histGet (TNode.forwardList states t mass vars cs2
              (TNode.forward states t mass vars c th).1).1 nm).getD (t + 1) 0) =
          (TNode.transNames c).map
            (fun nm => (histGet (TNode.forward states t mass vars c th).1 nm).getD (t + 1) 0) :=
        List.map_congr_left (fun nm hnm => by rw [h2frame nm (fun hmem => hdisj hnm hmem)])
      rw [hcong, h1new, h2new, hsum]
      ring

theorem forward_spec_all : ∀ n : TNode, ForwardSpec n := by
  refine TNode.inductionOn _ ?_ ?_
  · exact forward_trans_spec
  · intro nm p v cs ihall
    intro states t mass vars th hclosed hnodup hlen
    rw [TNode.closedAt, Bool.and_eq_true] at hclosed
    have hsum1 : sumProbsAt t cs = 1 := by
      have := hclosed.1
      rwa [beq_iff_eq] at this
    have htn : TNode.transNames (.chance nm p v cs) = TNode.transNamesList cs := by
      rw [TNode.transNames]
    rw [htn] at hnodup hlen
    have H := forwardList_spec cs ihall states t (mass * p.value t) (mergeVars vars v) th
      hclosed.2 hnodup hlen
    obtain ⟨hbin, hw1, hw0, hdst, hframe, hlen2, hnew⟩ := H
    have heq : TNode.forward states t mass vars (.chance nm p v cs) th =
        TNode.forwardList states t (mass * p.value t) (mergeVars vars v) cs th := by
      rw [TNode.forward]
    rw [heq, htn]
    have hdn : TNode.dstNames (.chance nm p v cs) = TNode.dstNamesList cs := by
      rw [TNode.dstNames]
    rw [hdn]
    have hprob : TNode.probOfNode (.chance nm p v cs) = p := rfl
    rw [hprob]
    refine ⟨hbin, ?_, hw0, hdst, hframe, hlen2, ?_⟩
    · rw [hw1, hsum1]
      ring
    · rw [hnew, hsum1]
      ring

/-! ## Mass conservation: the mediator fold -/

theorem selVal_add (method : CountMethod) (x1 y1 x2 y2 : ℚ) :
    selVal method x1 y1 + selVal method x2 y2 = selVal method (x1 + x2) (y1 + y2) := by
  cases method <;> (simp [selVal]; try ring)

theorem selVal_zero (method : CountMethod) : selVal method 0 0 = 0 := by
  cases method <;> simp [selVal]

theorem sel_sum_linear (method : CountMethod) :
    ∀ msgs : List NodeMsg,
      (msgs.map (msgSel method)).sum =
        selVal method ((msgs.map msgW0).sum) ((msgs.map msgW1).sum) := by
  intro msgs
  induction msgs with
  | nil => simp [selVal_zero]
  | cons m rest ih =>
    simp only [List.map_cons, List.sum_cons, ih, msgSel]
    rw [selVal_add]

theorem msgFeed_of_trans (d : String) (w0 w1 : ℚ) (v : VarMap) :
    msgFeed (.fromTrans d [w0, w1] v) = msgW1 (.fromTrans d [w0, w1] v) := rfl

theorem msgKey_map_of_trans :
    ∀ msgs : List NodeMsg, (∀ m ∈ msgs, ∃ d w0 w1 v, m = .fromTrans d [w0, w1] v) →
      msgs.map msgKey = msgDsts msgs := by
  intro msgs
  induction msgs with
  | nil => intro _; rfl
  | cons m rest ih =>
    intro h
    obtain ⟨d, w0, w1, v, rfl⟩ := h m (List.mem_cons_self m rest)
    simp only [List.map_cons, msgKey, msgDsts]
    rw [ih (fun m2 hm2 => h m2 (List.mem_cons.mpr (Or.inr hm2)))]

theorem handleNodeMessage_binary (method : CountMethod) (rate : ℚ) (s : SimState)
    (m : NodeMsg) (hbin : IsBinaryReport m) (hacc : AllAcc s.nextCycleStartProb) :
    ∃ s1, handleNodeMessage method rate s m = some s1 ∧
      s1.stateProbs = s.stateProbs ∧ s1.stateHist = s.stateHist ∧
      s1.transHist = s.transHist ∧ s1.transVarHist = s.transVarHist ∧
      s1.modelTime = s.modelTime ∧ s1.totalProbs = s.totalProbs ∧
      s1.totalVariables = s.totalVariables ∧
      s1.cycleProbs = appendEntry s.cycleProbs (msgKey m) (msgSel method m) ∧
      nextTotal s1.nextCycleStartProb = nextTotal s.nextCycleStartProb + msgFeed m ∧
      AllAcc s1.nextCycleStartProb ∧
      ((keysOf s.nextCycleStartProb).Nodup → (keysOf s1.nextCycleStartProb).Nodup) ∧
      (∀ k, k ∈ keysOf s1.nextCycleStartProb ↔
        (k ∈ keysOf s.nextCycleStartProb ∨ k ∈ msgDsts [m])) := by
  rcases hbin with ⟨nm, w0, w1, v, rfl⟩ | ⟨d, w0, w1, v, rfl⟩
  · refine ⟨_, by rw [handleNodeMessage_fromState, handleReport_pair], ?_⟩
    refine ⟨rfl, rfl, rfl, rfl, rfl, rfl, rfl, rfl, by simp [msgFeed], fun kv hkv => hacc kv hkv,
      fun h => h, ?_⟩
    intro k
    simp [msgDsts]
  · obtain ⟨next, hnext, htot, hacc2, hkeys⟩ :=
      nextAppend_spec s.nextCycleStartProb d w1 hacc
    refine ⟨_, by rw [handleNodeMessage_fromTrans_pair method rate s d w0 w1 v next hnext,
      handleReport_pair], ?_⟩
    refine ⟨rfl, rfl, rfl, rfl, rfl, rfl, rfl, rfl, ?_, hacc2, ?_, ?_⟩
    · exact htot
    · intro hnd
      rw [hkeys]
      split_ifs with hm
      · exact hnd
      · refine List.Nodup.append hnd (List.nodup_singleton d) ?_
        intro a ha had
        rw [List.mem_singleton] at had
        exact hm (had ▸ ha)
    · intro k
      rw [hkeys]
      simp only [msgDsts, List.mem_singleton]
      split_ifs with hm
      · constructor
        · exact fun h => Or.inl h
        · rintro (h | rfl)
          · exact h
          · exact hm
      · rw [List.mem_append, List.mem_singleton]

theorem handleMsgs_spec (method : CountMethod) (rate : ℚ) :
    ∀ (msgs : List NodeMsg) (s : SimState),
      (∀ m ∈ msgs, IsBinaryReport m) →
      AllAcc s.nextCycleStartProb →
      ∃ s2, handleMsgs method rate msgs s = some s2 ∧
        s2.stateProbs = s.stateProbs ∧ s2.stateHist = s.stateHist ∧
        s2.transHist = s.transHist ∧ s2.transVarHist = s.transVarHist ∧
        s2.modelTime = s.modelTime ∧ s2.totalProbs = s.totalProbs ∧
        s2.totalVariables = s.totalVariables ∧
        histTotal s2.cycleProbs = histTotal s.cycleProbs + (msgs.map (msgSel method)).sum ∧
        ((keysOf s.cycleProbs).Nodup → (keysOf s2.cycleProbs).Nodup) ∧
        (∀ k, k ∈ keysOf s2.cycleProbs ↔
          (k ∈ keysOf s.cycleProbs ∨ k ∈ msgs.map msgKey)) ∧
        nextTotal s2.nextCycleStartProb =
          nextTotal s.nextCycleStartProb + (msgs.map msgFeed).sum ∧
        AllAcc s2.nextCycleStartProb ∧
        ((keysOf s.nextCycleStartProb).Nodup → (keysOf s2.nextCycleStartProb).Nodup) ∧
        (∀ k, k ∈ keysOf s2.nextCycleStartProb ↔
          (k ∈ keysOf s.nextCycleStartProb ∨ k ∈ msgDsts msgs)) := by
  intro msgs
  induction msgs with
  | nil =>
    intro s _ hacc
    refine ⟨s, rfl, rfl, rfl, rfl, rfl, rfl, rfl, rfl, by simp, fun h => h, ?_, by simp,
      hacc, fun h => h, ?_⟩
    · intro k; simp
    · intro k; simp [msgDsts]
  | cons m rest ih =>
    intro s hbin hacc
    obtain ⟨s1, hs1, f1, f2, f3, f4, f5, f6, f7, hcp, hnt, hacc1, hndnext, hknext⟩ :=
      handleNodeMessage_binary method rate s m (hbin m (List.mem_cons_self m rest)) hacc
    obtain ⟨s2, hs2, g1, g2, g3, g4, g5, g6, g7, g8, g9, g10, g11, g12, g13, g14⟩ :=
      ih s1 (fun m2 hm2 => hbin m2 (List.mem_cons.mpr (Or.inr hm2))) hacc1
    refine ⟨s2, ?_, by rw [g1, f1], by rw [g2, f2], by rw [g3, f3], by rw [g4, f4],
      by rw [g5, f5], by rw [g6, f6], by rw [g7, f7], ?_, ?_, ?_, ?_, g12, ?_, ?_⟩
    · rw [handleMsgs, hs1]
      exact hs2
    · rw [g8, hcp, histTotal_appendEntry]
      simp only [List.map_cons, List.sum_cons]
      ring
    · intro hnd
      refine g9 ?_
      rw [hcp, keysOf_appendEntry]
      split_ifs with hm
      · exact hnd
      · refine List.Nodup.append hnd (List.nodup_singleton _) ?_
        intro a ha had
        rw [List.mem_singleton] at had
        exact hm (had ▸ ha)
    · intro k
      rw [g10 k, hcp, keysOf_appendEntry]
      simp only [List.map_cons, List.mem_cons]
      split_ifs with hm
      · constructor
        · rintro (h | h)
          · exact Or.inl h
          · exact Or.inr (Or.inr h)
        · rintro (h | h | h)
          · exact Or.inl h
          · exact Or.inl (h ▸ hm)
          · exact Or.inr h
      · rw [List.mem_append, List.mem_singleton]
        constructor
        · rintro ((h | h) | h)
          · exact Or.inl h
          · exact Or.inr (Or.inl h)
          · exact Or.inr (Or.inr h)
        · rintro (h | h | h)
          · exact Or.inl (Or.inl h)
          · exact Or.inl (Or.inr h)
          · exact Or.inr h
    · rw [g11, hnt]
      simp only [List.map_cons, List.sum_cons]
      ring
    · intro hnd
      exact g13 (hndnext hnd)
    · intro k
      rw [g14 k, hknext k]
      have hd : msgDsts (m :: rest) = msgDsts [m] ++ msgDsts rest := by
        rw [show m :: rest = [m] ++ rest from rfl, msgDsts_append]
      rw [hd, List.mem_append]
      tauto

/-! ## Mass conservation: state lookup -/

theorem findState_some :
    ∀ (l : List MState) (nm : String) (st : MState),
      findState l nm = some st → st ∈ l ∧ st.nodeName = nm := by
  intro l
  induction l with
  | nil => intro nm st h; cases h
  | cons st1 rest ih =>
    intro nm st h
    rw [findState] at h
    by_cases h1 : st1.nodeName = nm
    · rw [if_pos h1] at h
      obtain rfl : st1 = st := by injection h
      exact ⟨List.mem_cons_self _ _, h1⟩
    · rw [if_neg h1] at h
      obtain ⟨hmem, hnm⟩ := ih nm st h
      exact ⟨List.mem_cons.mpr (Or.inr hmem), hnm⟩

theorem findState_of_mem :
    ∀ (l : List MState) (nm : String),
      nm ∈ l.map (fun st => st.nodeName) → ∃ st, findState l nm = some st := by
  intro l
  induction l with
  | nil => intro nm h; cases h
  | cons st1 rest ih =>
    intro nm h
    by_cases h1 : st1.nodeName = nm
    · exact ⟨st1, by rw [findState, if_pos h1]⟩
    · rcases List.mem_cons.mp h with he | he
      · exact absurd he.symm h1
      · obtain ⟨st, hst⟩ := ih nm he
        exact ⟨st, by rw [findState, if_neg h1]; exact hst⟩

theorem transNames_mem_flatten (l : List MState) (st : MState) (hst : st ∈ l) :
    ∀ τ ∈ TNode.transNamesList st.children,
      τ ∈ (l.map (fun st => TNode.transNamesList st.children)).flatten := by
  intro τ hτ
  exact List.mem_flatten.mpr ⟨_, List.mem_map.mpr ⟨st, hst, rfl⟩, hτ⟩

theorem findState_trans_nodup :
    ∀ (l : List MState),
      ((l.map (fun st => TNode.transNamesList st.children)).flatten).Nodup →
      ∀ (nm : String) (st : MState), findState l nm = some st →
        (TNode.transNamesList st.children).Nodup := by
  intro l
  induction l with
  | nil => intro _ nm st h; cases h
  | cons st1 rest ih =>
    intro hnd nm st h
    rw [List.map_cons, List.flatten_cons] at hnd
    obtain ⟨hnd1, hnd2, -⟩ := List.nodup_append.mp hnd
    rw [findState] at h
    by_cases h1 : st1.nodeName = nm
    · rw [if_pos h1] at h
      obtain rfl : st1 = st := by injection h
      exact hnd1
    · rw [if_neg h1] at h
      exact ih hnd2 nm st h

theorem findState_trans_disjoint :
    ∀ (l : List MState),
      ((l.map (fun st => TNode.transNamesList st.children)).flatten).Nodup →
      ∀ (nm1 nm2 : String) (st1 st2 : MState), nm1 ≠ nm2 →
        findState l nm1 = some st1 → findState l nm2 = some st2 →
        ∀ τ ∈ TNode.transNamesList st1.children,
          τ ∉ TNode.transNamesList st2.children := by
  intro l
  induction l with
  | nil => intro _ nm1 nm2 st1 st2 _ h; cases h
  | cons st rest ih =>
    intro hnd nm1 nm2 st1 st2 hne h1 h2
    rw [List.map_cons, List.flatten_cons] at hnd
    obtain ⟨hnd1, hnd2, hdisj⟩ := List.nodup_append.mp hnd
    rw [findState] at h1 h2
    by_cases e1 : st.nodeName = nm1
    · rw [if_pos e1] at h1
      have hst1 : st = st1 := by injection h1
      subst hst1
      have e2 : ¬ st.nodeName = nm2 := fun e => hne (e1.symm.trans e)
      rw [if_neg e2] at h2
      obtain ⟨hmem2, -⟩ := findState_some rest nm2 st2 h2
      intro τ hτ hτ2
      exact hdisj hτ (transNames_mem_flatten rest st2 hmem2 τ hτ2)
    · rw [if_neg e1] at h1
      by_cases e2 : st.nodeName = nm2
      · rw [if_pos e2] at h2
        have hst2 : st = st2 := by injection h2
        subst hst2
        obtain ⟨hmem1, -⟩ := findState_some rest nm1 st1 h1
        intro τ hτ hτ2
        exact hdisj hτ2 (transNames_mem_flatten rest st1 hmem1 τ hτ)
      · rw [if_neg e2] at h2
        exact ih hnd2 nm1 nm2 st1 st2 hne h1 h2

theorem closedAt_state (M : MarkovController) (j : ℕ) (h : M.closedAt j = true)
    (st : MState) (hst : st ∈ M.states) :
    sumProbsAt j st.children = 1 ∧ TNode.closedAtList j st.children = true := by
  rw [MarkovController.closedAt, List.all_eq_true] at h
  have h2 := h st hst
  rw [Bool.and_eq_true, beq_iff_eq] at h2
  exact h2

theorem msgFeed_map_of_trans :
    ∀ msgs : List NodeMsg, (∀ m ∈ msgs, ∃ d w0 w1 v, m = .fromTrans d [w0, w1] v) →
      msgs.map msgFeed = msgs.map msgW1 := by
  intro msgs
  induction msgs with
  | nil => intro _; rfl
  | cons m rest ih =>
    intro h
    obtain ⟨d, w0, w1, v, rfl⟩ := h m (List.mem_cons_self m rest)
    simp only [List.map_cons]
    rw [ih (fun m2 hm2 => h m2 (List.mem_cons.mpr (Or.inr hm2)))]
    rfl

theorem msgDsts_fromState_cons (nm : String) (w : List ℚ) (v : VarMap)
    (l : List NodeMsg) : msgDsts (.fromState nm w v :: l) = msgDsts l := rfl

/-- The full effect of delivering one cycle-start entry `(nm, m)` to the
state of that name at time `j`: the cascade and the handler fold succeed,
every report carries a two-element window, the cycle accumulator gains
`selVal method ((j = 0 ? m : 0) + Σ_τ history[j]) m`, the next-cycle map
gains mass `m` spread over the state's destinations, the state's and its
transitions' histories advance by one entry, and everything else is
untouched. -/
theorem deliver_one_spec (M : MarkovController) (j : ℕ) (s : SimState)
    (nm : String) (m : ℚ)
    (hsj : s.modelTime = j)
    (hmem : nm ∈ M.stateNames)
    (hclosed : M.closedAt j = true)
    (htrnd : M.transNames.Nodup)
    (hshape : histShape j (histGet s.stateHist nm))
    (hthl : ∀ τ ∈ stateTransNames M nm,
      (histGet s.transHist τ).length = (if j = 0 then 0 else j + 1))
    (hacc : AllAcc s.nextCycleStartProb) :
    ∃ r s2, sendToNode M nm m s = some r ∧
      handleMsgs M.countMethod M.discountRate r.2 r.1 = some s2 ∧
      s2.modelTime = j ∧
      s2.totalProbs = s.totalProbs ∧ s2.totalVariables = s.totalVariables ∧
      s2.transVarHist = s.transVarHist ∧
      histTotal s2.cycleProbs = histTotal s.cycleProbs +
        selVal M.countMethod ((if j = 0 then m else 0) + stateTransIdxSum M s j nm) m ∧
      ((keysOf s.cycleProbs).Nodup → (keysOf s2.cycleProbs).Nodup) ∧
      (∀ k, k ∈ keysOf s2.cycleProbs ↔
        (k ∈ keysOf s.cycleProbs ∨ k = nm ∨ k ∈ stateDsts M nm)) ∧
      nextTotal s2.nextCycleStartProb = nextTotal s.nextCycleStartProb + m ∧
      AllAcc s2.nextCycleStartProb ∧
      ((keysOf s.nextCycleStartProb).Nodup → (keysOf s2.nextCycleStartProb).Nodup) ∧
      (∀ k, k ∈ keysOf s2.nextCycleStartProb ↔
        (k ∈ keysOf s.nextCycleStartProb ∨ k ∈ stateDsts M nm)) ∧
      (∀ nm2, nm2 ≠ nm → histGet s2.stateHist nm2 = histGet s.stateHist nm2) ∧
      histShape (j + 1) (histGet s2.stateHist nm) ∧
      (∀ τ, τ ∉ stateTransNames M nm → histGet s2.transHist τ = histGet s.transHist τ) ∧
      (∀ τ ∈ stateTransNames M nm, (histGet s2.transHist τ).length = j + 2) ∧
      ((stateTransNames M nm).map (fun τ => (histGet s2.transHist τ).getD (j + 1) 0)).sum = m := by
  obtain ⟨st, hfind⟩ := findState_of_mem M.states nm hmem
  obtain ⟨hstmem, hstnm⟩ := findState_some M.states nm st hfind
  have hstn : stateTransNames M nm = TNode.transNamesList st.children := by
    rw [stateTransNames, hfind]
  have hsd : stateDsts M nm = TNode.dstNamesList st.children := by
    rw [stateDsts, hfind]
  obtain ⟨hsum1, hclosedList⟩ := closedAt_state M j hclosed st hstmem
  have hstnodup : (TNode.transNamesList st.children).Nodup :=
    findState_trans_nodup M.states htrnd nm st hfind
  rw [hstn] at hthl
  -- the cascade through the state's children
  obtain ⟨hbin, hw1, hw0, hdst, hframe, hlen2, hnew⟩ :=
    forwardList_spec st.children (fun c _ => forward_spec_all c) M.states j m
      (zeroVars st.vars) s.transHist hclosedList hstnodup hthl
  -- the state's own history append and window
  have hh2 : ∃ m1, ((if j = 0 then histGet s.stateHist nm ++ [m]
      else histGet s.stateHist nm) ++ [0]) = m1 :: List.replicate (j + 1) 0 ∧
      ((((if j = 0 then histGet s.stateHist nm ++ [m]
        else histGet s.stateHist nm) ++ [0]).drop j).take 2) =
        [(if j = 0 then m else 0), 0] := by
    rw [histShape] at hshape
    by_cases hj : j = 0
    · subst hj
      rw [if_pos rfl] at hshape
      refine ⟨m, ?_, ?_⟩ <;> simp [hshape, List.replicate]
    · rw [if_neg hj] at hshape
      obtain ⟨m0, hm0⟩ := hshape
      refine ⟨m0, ?_, ?_⟩
      · rw [if_neg hj, hm0, List.cons_append, ← List.replicate_succ']
      · rw [if_neg hj, hm0]
        obtain ⟨tt, rfl⟩ : ∃ tt, j = 1 + tt := by
          refine ⟨j - 1, ?_⟩
          omega
        rw [List.cons_append, ← List.replicate_succ']
        rw [show (1 + tt) = tt + 1 from by omega]
        rw [List.drop_succ_cons, List.drop_replicate, List.take_replicate]
        rw [show tt + 1 + 1 - tt = 2 from by omega]
        rfl
  obtain ⟨m1, hm1, hwin⟩ := hh2
  -- the start call
  have hsend : sendToNode M nm m s = some (MState.start M.states st j m s) := by
    rw [sendToNode, hfind, hsj]
  have hstart : MState.start M.states st j m s =
      ({ s with
          stateHist := setEntry s.stateHist st.nodeName
            ((if j = 0 then histGet s.stateHist st.nodeName ++ [m]
              else histGet s.stateHist st.nodeName) ++ [0]),
          stateProbs := setEntry s.stateProbs st.nodeName (.withRange m),
          transHist := (TNode.forwardList M.states j m (zeroVars st.vars)
            st.children s.transHist).1 },
       .fromState st.nodeName
         (((((if j = 0 then histGet s.stateHist st.nodeName ++ [m]
           else histGet s.stateHist st.nodeName) ++ [0]).drop j).take 2)) st.vars ::
         (TNode.forwardList M.states j m (zeroVars st.vars) st.children s.transHist).2) := by
    rw [MState.start]
  rw [hstnm] at hstart
  -- fold the handler over the emitted messages
  have hallbin : ∀ mg ∈ (NodeMsg.fromState nm
        (((((if j = 0 then histGet s.stateHist nm ++ [m]
          else histGet s.stateHist nm) ++ [0]).drop j).take 2)) st.vars ::
        (TNode.forwardList M.states j m (zeroVars st.vars) st.children s.transHist).2),
      IsBinaryReport mg := by
    intro mg hmg
    rcases List.mem_cons.mp hmg with he | he
    · subst he
      rw [hwin]
      exact Or.inl ⟨nm, _, _, _, rfl⟩
    · exact Or.inr (hbin mg he)
  have haccmid : AllAcc ({ s with
      stateHist := setEntry s.stateHist nm
        ((if j = 0 then histGet s.stateHist nm ++ [m]
          else histGet s.stateHist nm) ++ [0]),
      stateProbs := setEntry s.stateProbs nm (.withRange m),
      transHist := (TNode.forwardList M.states j m (zeroVars st.vars)
        st.children s.transHist).1 } : SimState).nextCycleStartProb := hacc
  obtain ⟨s2, hs2, g1, g2, g3, g4, g5, g6, g7, g8, g9, g10, g11, g12, g13, g14⟩ :=
    handleMsgs_spec M.countMethod M.discountRate _ _ hallbin haccmid
  refine ⟨_, s2, hsend, ?_, ?_, ?_, ?_, ?_, ?_, ?_, ?_, ?_, ?_, ?_, ?_, ?_, ?_, ?_, ?_, ?_⟩
  · rw [hstart]
    exact hs2
  · rw [g5, hsj]
  · rw [g6]
  · rw [g7]
  · rw [g4]
  · rw [g8]
    simp only [List.map_cons, List.sum_cons]
    rw [sel_sum_linear M.countMethod, hw1, hsum1]
    have hsel : msgSel M.countMethod (NodeMsg.fromState nm
        (((((if j = 0 then histGet s.stateHist nm ++ [m]
          else histGet s.stateHist nm) ++ [0]).drop j).take 2)) st.vars) =
        selVal M.countMethod (if j = 0 then m else 0) 0 := by
      rw [msgSel, hwin]
      rfl
    rw [hsel, hw0, selVal_add, stateTransIdxSum, hstn]
    ring_nf
  · intro hnd
    exact g9 hnd
  · intro k
    rw [g10 k]
    simp only [List.map_cons, List.mem_cons, msgKey]
    rw [msgKey_map_of_trans _ hbin, hdst, hsd]
  · rw [g11]
    simp only [List.map_cons, List.sum_cons, msgFeed]
    rw [msgFeed_map_of_trans _ hbin, hw1, hsum1]
    ring
  · exact g12
  · intro hnd
    exact g13 hnd
  · intro k
    rw [g14 k, msgDsts_fromState_cons, hdst, hsd]
  · intro nm2 hne
    rw [g2]
    exact histGet_setEntry_ne s.stateHist nm nm2 _ hne
  · rw [g2]
    rw [histGet_setEntry_self, histShape, if_neg (Nat.succ_ne_zero j)]
    exact ⟨m1, hm1⟩
  · intro τ hτ
    rw [hstn] at hτ
    rw [g3]
    exact hframe τ hτ
  · intro τ hτ
    rw [hstn] at hτ
    rw [g3]
    exact hlen2 τ hτ
  · rw [hstn]
    have hcong : (TNode.transNamesList st.children).map
        (fun τ => (histGet s2.transHist τ).getD (j + 1) 0) =
        (TNode.transNamesList st.children).map
          (fun τ => (histGet (TNode.forwardList M.states j m (zeroVars st.vars)
            st.children s.transHist).1 τ).getD (j + 1) 0) :=
      List.map_congr_left (fun τ _ => by rw [g3])
    rw [hcong, hnew, hsum1]
    ring

theorem stateTransNames_eq_of_find (M : MarkovController) (nm : String) (st : MState)
    (h : findState M.states nm = some st) :
    stateTransNames M nm = TNode.transNamesList st.children := by
  rw [stateTransNames, h]

theorem stateTransNames_eq_nil_of_find (M : MarkovController) (nm : String)
    (h : findState M.states nm = none) : stateTransNames M nm = [] := by
  rw [stateTransNames, h]

theorem stateTransNames_disjoint (M : MarkovController) (htrnd : M.transNames.Nodup)
    (nm1 nm2 : String) (hne : nm1 ≠ nm2) :
    ∀ τ ∈ stateTransNames M nm1, τ ∉ stateTransNames M nm2 := by
  intro τ h1 h2
  cases hf1 : findState M.states nm1 with
  | none => rw [stateTransNames_eq_nil_of_find M nm1 hf1] at h1; cases h1
  | some st1 =>
    cases hf2 : findState M.states nm2 with
    | none => rw [stateTransNames_eq_nil_of_find M nm2 hf2] at h2; cases h2
    | some st2 =>
      rw [stateTransNames_eq_of_find M nm1 st1 hf1] at h1
      rw [stateTransNames_eq_of_find M nm2 st2 hf2] at h2
      exact findState_trans_disjoint M.states htrnd nm1 nm2 st1 st2 hne hf1 hf2 τ h1 h2

set_option maxHeartbeats 2000000 in
theorem deliverAll_spec (M : MarkovController) (htrnd : M.transNames.Nodup) :
    ∀ (rest : List (String × NextVal)) (j : ℕ) (s : SimState),
      s.modelTime = j →
      M.closedAt j = true →
      (∀ kv ∈ rest, ∃ m, kv.2 = NextVal.scalar m) →
      (∀ kv ∈ rest, kv.1 ∈ M.stateNames) →
      (keysOf rest).Nodup →
      (∀ kv ∈ rest, histShape j (histGet s.stateHist kv.1)) →
      (∀ kv ∈ rest, ∀ τ ∈ stateTransNames M kv.1,
        (histGet s.transHist τ).length = (if j = 0 then 0 else j + 1)) →
      AllAcc s.nextCycleStartProb →
      ∃ s2, deliverAll M rest s = some s2 ∧
        s2.modelTime = j ∧
        s2.totalProbs = s.totalProbs ∧ s2.totalVariables = s.totalVariables ∧
        s2.transVarHist = s.transVarHist ∧
        histTotal s2.cycleProbs = histTotal s.cycleProbs +
          selVal M.countMethod
            ((if j = 0 then nextTotal rest else 0) +
              (rest.map (fun kv => stateTransIdxSum M s j kv.1)).sum)
            (nextTotal rest) ∧
        ((keysOf s.cycleProbs).Nodup → (keysOf s2.cycleProbs).Nodup) ∧
        (∀ k, k ∈ keysOf s2.cycleProbs ↔
          (k ∈ keysOf s.cycleProbs ∨ k ∈ keysOf rest ∨
            k ∈ (rest.map (fun kv => stateDsts M kv.1)).flatten)) ∧
        nextTotal s2.nextCycleStartProb = nextTotal s.nextCycleStartProb + nextTotal rest ∧
        AllAcc s2.nextCycleStartProb ∧
        ((keysOf s.nextCycleStartProb).Nodup → (keysOf s2.nextCycleStartProb).Nodup) ∧
        (∀ k, k ∈ keysOf s2.nextCycleStartProb ↔
          (k ∈ keysOf s.nextCycleStartProb ∨
            k ∈ (rest.map (fun kv => stateDsts M kv.1)).flatten)) ∧
        (∀ nm, nm ∉ keysOf rest → histGet s2.stateHist nm = histGet s.stateHist nm) ∧
        (∀ kv ∈ rest, histShape (j + 1) (histGet s2.stateHist kv.1)) ∧
        (∀ τ, τ ∉ (rest.map (fun kv => stateTransNames M kv.1)).flatten →
          histGet s2.transHist τ = histGet s.transHist τ) ∧
        (∀ kv ∈ rest, ∀ τ ∈ stateTransNames M kv.1,
          (histGet s2.transHist τ).length = j + 2) ∧
        (rest.map (fun kv => ((stateTransNames M kv.1).map
          (fun τ => (histGet s2.transHist τ).getD (j + 1) 0)).sum)).sum = nextTotal rest := by
  intro rest
  induction rest with
  | nil =>
    intro j s hsj hclosed _ _ _ _ _ hacc
    refine ⟨s, rfl, hsj, rfl, rfl, rfl, ?_, fun h => h, ?_, by simp [nextTotal], hacc,
      fun h => h, ?_, fun nm _ => rfl, ?_, fun τ _ => rfl, ?_, by simp [nextTotal]⟩
    · simp [nextTotal, selVal_zero]
    · intro k
      simp [keysOf]
    · intro k
      simp
    · intro kv hkv
      cases hkv
    · intro kv hkv
      cases hkv
  | cons kv0 rest2 ih =>
    intro j s hsj hclosed hscalar hmem hnodup hshape hthl hacc
    obtain ⟨nm, v0⟩ := kv0
    obtain ⟨m, rfl⟩ : ∃ m, v0 = NextVal.scalar m := by
      obtain ⟨m, hm⟩ := hscalar (nm, v0) (List.mem_cons_self _ _)
      exact ⟨m, hm⟩
    rw [keysOf_cons] at hnodup
    obtain ⟨hnmnotin, hnodup2⟩ := List.nodup_cons.mp hnodup
    have hnm1 : nm ∈ M.stateNames := hmem (nm, .scalar m) (List.mem_cons_self _ _)
    obtain ⟨r, s1, hsend, hmsgs, d1, d2, d3, d4, d5, d6, d7, d8, d9, d10, d11, d12, d13,
        d14, d15, d16⟩ :=
      deliver_one_spec M j s nm m hsj hnm1 hclosed htrnd
        (hshape (nm, .scalar m) (List.mem_cons_self _ _))
        (hthl (nm, .scalar m) (List.mem_cons_self _ _)) hacc
    -- the remaining entries name other states, whose node state is untouched
    have hner : ∀ kv ∈ rest2, (kv : String × NextVal).1 ≠ nm := by
      intro kv hkv he
      exact hnmnotin (he ▸ List.mem_map.mpr ⟨kv, hkv, rfl⟩)
    have hdisjr : ∀ kv ∈ rest2, ∀ τ ∈ stateTransNames M (kv : String × NextVal).1,
        τ ∉ stateTransNames M nm := by
      intro kv hkv τ hτ
      exact stateTransNames_disjoint M htrnd kv.1 nm (hner kv hkv) τ hτ
    have hshape2 : ∀ kv ∈ rest2, histShape j (histGet s1.stateHist kv.1) := by
      intro kv hkv
      rw [d12 kv.1 (hner kv hkv)]
      exact hshape kv (List.mem_cons.mpr (Or.inr hkv))
    have hthl2 : ∀ kv ∈ rest2, ∀ τ ∈ stateTransNames M kv.1,
        (histGet s1.transHist τ).length = (if j = 0 then 0 else j + 1) := by
      intro kv hkv τ hτ
      rw [d14 τ (hdisjr kv hkv τ hτ)]
      exact hthl kv (List.mem_cons.mpr (Or.inr hkv)) τ hτ
    obtain ⟨s3, hrun, e1, e2, e3, e4, e5, e6, e7, e8, e9, e10, e11, e12, e13, e14, e15,
        e16⟩ :=
      ih j s1 d1 hclosed
        (fun kv hkv => hscalar kv (List.mem_cons.mpr (Or.inr hkv)))
        (fun kv hkv => hmem kv (List.mem_cons.mpr (Or.inr hkv)))
        hnodup2 hshape2 hthl2 d9
    have hstep : deliverAll M ((nm, NextVal.scalar m) :: rest2) s = deliverAll M rest2 s1 := by
      simp only [deliverAll, hsend, hmsgs, Option.bind_eq_bind, Option.some_bind]
    have hnewsum : ∀ kv ∈ rest2, stateTransIdxSum M s1 j kv.1 = stateTransIdxSum M s j kv.1 := by
      intro kv hkv
      rw [stateTransIdxSum, stateTransIdxSum]
      refine congrArg List.sum (List.map_congr_left ?_)
      intro τ hτ
      rw [d14 τ (hdisjr kv hkv τ hτ)]
    have hnt : nextTotal ((nm, NextVal.scalar m) :: rest2) = m + nextTotal rest2 := by
      rw [nextTotal_cons]
      rfl
    refine ⟨s3, by rw [hstep]; exact hrun, e1, by rw [e2, d2], by rw [e3, d3],
      by rw [e4, d4], ?_, ?_, ?_, ?_, e9, ?_, ?_, ?_, ?_, ?_, ?_, ?_⟩
    · rw [e5, d5, hnt]
      have hmap : (rest2.map (fun kv => stateTransIdxSum M s1 j kv.1)).sum =
          (rest2.map (fun kv => stateTransIdxSum M s j kv.1)).sum := by
        refine congrArg List.sum (List.map_congr_left ?_)
        intro kv hkv
        exact hnewsum kv hkv
      rw [hmap]
      simp only [List.map_cons, List.sum_cons]
      rw [add_assoc, selVal_add]
      have harg : ((if j = 0 then m else 0) + stateTransIdxSum M s j nm) +
          ((if j = 0 then nextTotal rest2 else 0) +
            (rest2.map (fun kv => stateTransIdxSum M s j kv.1)).sum) =
          (if j = 0 then m + nextTotal rest2 else 0) +
          (stateTransIdxSum M s j nm +
            (rest2.map (fun kv => stateTransIdxSum M s j kv.1)).sum) := by
        split_ifs <;> ring
      rw [harg]
    · intro hnd
      exact e6 (d6 hnd)
    · intro k
      rw [e7 k, d7 k]
      rw [keysOf_cons, List.map_cons, List.flatten_cons]
      simp only [List.mem_cons, List.mem_append]
      tauto
    · rw [e8, d8, hnt]
      ring
    · intro hnd
      exact e10 (d10 hnd)
    · intro k
      rw [e11 k, d11 k]
      rw [List.map_cons, List.flatten_cons]
      simp only [List.mem_append]
      tauto
    · intro nm2 hnm2
      rw [keysOf_cons, List.mem_cons, not_or] at hnm2
      rw [e12 nm2 (by rw [keysOf] at hnm2 ⊢; exact hnm2.2), d12 nm2 hnm2.1]
    · intro kv hkv
      rcases List.mem_cons.mp hkv with he | he
      · rw [he]
        rw [e12 nm ?notin]
        · exact d13
        · intro hmemk
          exact hnmnotin hmemk
      · exact e13 kv he
    · intro τ hτ
      rw [List.map_cons, List.flatten_cons, List.mem_append, not_or] at hτ
      rw [e14 τ hτ.2, d14 τ hτ.1]
    · intro kv hkv τ hτ
      rcases List.mem_cons.mp hkv with he | he
      · subst he
        rw [e14 τ ?notin2]
        · exact d15 τ hτ
        · intro hmemf
          rw [List.mem_flatten] at hmemf
          obtain ⟨l, hl, hτl⟩ := hmemf
          rw [List.mem_map] at hl
          obtain ⟨kv2, hkv2, rfl⟩ := hl
          exact hdisjr kv2 hkv2 τ hτl hτ
      · exact e15 kv he τ hτ
    · rw [List.map_cons, List.sum_cons, hnt]
      have hhead : ((stateTransNames M nm).map
          (fun τ => (histGet s3.transHist τ).getD (j + 1) 0)).sum = m := by
        have hcong : (stateTransNames M nm).map
            (fun τ => (histGet s3.transHist τ).getD (j + 1) 0) =
            (stateTransNames M nm).map
              (fun τ => (histGet s1.transHist τ).getD (j + 1) 0) := by
          refine List.map_congr_left ?_
          intro τ hτ
          rw [e14 τ ?notin3]
          intro hmemf
          rw [List.mem_flatten] at hmemf
          obtain ⟨l, hl, hτl⟩ := hmemf
          rw [List.mem_map] at hl
          obtain ⟨kv2, hkv2, rfl⟩ := hl
          exact hdisjr kv2 hkv2 τ hτl hτ
        rw [hcong]
        exact d16
      rw [hhead, e16]

/-! ## Mass conservation: cycle-level bookkeeping -/

theorem stateDsts_eq_of_find (M : MarkovController) (nm : String) (st : MState)
    (h : findState M.states nm = some st) :
    stateDsts M nm = TNode.dstNamesList st.children := by
  rw [stateDsts, h]

theorem stateTransNames_subset (M : MarkovController) (nm : String) :
    ∀ τ ∈ stateTransNames M nm, τ ∈ M.transNames := by
  intro τ hτ
  cases hf : findState M.states nm with
  | none => rw [stateTransNames_eq_nil_of_find M nm hf] at hτ; cases hτ
  | some st =>
    rw [stateTransNames_eq_of_find M nm st hf] at hτ
    obtain ⟨hmem, -⟩ := findState_some M.states nm st hf
    exact List.mem_flatten.mpr ⟨_, List.mem_map.mpr ⟨st, hmem, rfl⟩, hτ⟩

theorem stateDsts_subset (M : MarkovController) (nm : String) :
    ∀ d ∈ stateDsts M nm, d ∈ M.dstNames := by
  intro d hd
  cases hf : findState M.states nm with
  | none => rw [stateDsts, hf] at hd; cases hd
  | some st =>
    rw [stateDsts_eq_of_find M nm st hf] at hd
    obtain ⟨hmem, -⟩ := findState_some M.states nm st hf
    exact List.mem_flatten.mpr ⟨_, List.mem_map.mpr ⟨st, hmem, rfl⟩, hd⟩

theorem findState_self :
    ∀ (l : List MState), ((l.map (fun st => st.nodeName)).Nodup) →
      ∀ st ∈ l, findState l st.nodeName = some st := by
  intro l
  induction l with
  | nil => intro _ st hst; cases hst
  | cons st1 rest ih =>
    intro hnd st hst
    rw [List.map_cons] at hnd
    obtain ⟨hnm, hnd2⟩ := List.nodup_cons.mp hnd
    rcases List.mem_cons.mp hst with he | he
    · subst he
      rw [findState, if_pos rfl]
    · have hne : ¬ st1.nodeName = st.nodeName := by
        intro e
        exact hnm (e ▸ List.mem_map.mpr ⟨st, he, rfl⟩)
      rw [findState, if_neg hne]
      exact ih hnd2 st he

theorem alistGet_of_mem_nodup {β : Type} :
    ∀ (m : List (String × β)), (keysOf m).Nodup →
      ∀ kv ∈ m, alistGet m kv.1 = some kv.2 := by
  intro m
  induction m with
  | nil => intro _ kv hkv; cases hkv
  | cons e rest ih =>
    intro hnd kv hkv
    obtain ⟨k1, v1⟩ := e
    rw [keysOf_cons] at hnd
    obtain ⟨hk1, hnd2⟩ := List.nodup_cons.mp hnd
    rcases List.mem_cons.mp hkv with he | he
    · subst he
      rw [alistGet_cons, if_pos rfl]
    · have hne : ¬ k1 = kv.1 := by
        intro e
        exact hk1 (e ▸ List.mem_map.mpr ⟨kv, he, rfl⟩)
      rw [alistGet_cons, if_neg hne]
      exact ih hnd2 kv he

theorem sum_keys_perm (f : String → ℚ) (l1 l2 : List String) (h1 : l1.Nodup)
    (h2 : l2.Nodup) (hm : ∀ k, k ∈ l1 ↔ k ∈ l2) :
    (l1.map f).sum = (l2.map f).sum :=
  (((List.perm_ext_iff_of_nodup h1 h2).mpr hm).map f).sum_eq

theorem histTotal_eq_keys :
    ∀ m : List (String × List ℚ), (keysOf m).Nodup →
      histTotal m = ((keysOf m).map (fun k => (histGet m k).sum)).sum := by
  intro m
  induction m with
  | nil => intro _; rfl
  | cons e rest ih =>
    intro hnd
    obtain ⟨k1, v1⟩ := e
    rw [keysOf_cons] at hnd ⊢
    obtain ⟨hk1, hnd2⟩ := List.nodup_cons.mp hnd
    rw [histTotal_cons, List.map_cons, List.sum_cons, ih hnd2]
    have hg1 : histGet ((k1, v1) :: rest) k1 = v1 := by
      simp [histGet, alistGet_cons]
    rw [hg1]
    have hcong : (keysOf rest).map (fun k => (histGet ((k1, v1) :: rest) k).sum) =
        (keysOf rest).map (fun k => (histGet rest k).sum) := by
      refine List.map_congr_left ?_
      intro k hk
      have hne : ¬ k1 = k := fun e => hk1 (e ▸ hk)
      rw [histGet, alistGet_cons, if_neg hne]
      rfl
    rw [hcong]

theorem rowSum_eq_keys (i : ℕ) :
    ∀ m : List (String × List ℚ), (keysOf m).Nodup →
      rowSum m i = ((keysOf m).map (fun k => (histGet m k).getD i 0)).sum := by
  intro m
  induction m with
  | nil => intro _; rfl
  | cons e rest ih =>
    intro hnd
    obtain ⟨k1, v1⟩ := e
    rw [keysOf_cons] at hnd ⊢
    obtain ⟨hk1, hnd2⟩ := List.nodup_cons.mp hnd
    rw [rowSum, List.map_cons, List.sum_cons, List.map_cons, List.sum_cons]
    have hg1 : histGet ((k1, v1) :: rest) k1 = v1 := by
      simp [histGet, alistGet_cons]
    rw [hg1]
    have hcong : (keysOf rest).map (fun k => (histGet ((k1, v1) :: rest) k).getD i 0) =
        (keysOf rest).map (fun k => (histGet rest k).getD i 0) := by
      refine List.map_congr_left ?_
      intro k hk
      have hne : ¬ k1 = k := fun e => hk1 (e ▸ hk)
      rw [histGet, alistGet_cons, if_neg hne]
      rfl
    rw [hcong, ← ih hnd2]
    rfl

theorem keysOf_foldAppend_mem {α : Type} (f : α → ℚ) :
    ∀ (es : List (String × α)) (acc : List (String × List ℚ)) (k : String),
      (k ∈ keysOf (es.foldl (fun a e => appendEntry a e.1 (f e.2)) acc) ↔
        (k ∈ keysOf acc ∨ k ∈ keysOf es)) := by
  intro es
  induction es with
  | nil =>
    intro acc k
    simp [keysOf]
  | cons e rest ih =>
    intro acc k
    rw [List.foldl_cons, ih, keysOf_cons, keysOf_appendEntry]
    split_ifs with hm
    · constructor
      · rintro (h | h)
        · exact Or.inl h
        · exact Or.inr (List.mem_cons.mpr (Or.inr h))
      · rintro (h | h)
        · exact Or.inl h
        · rcases List.mem_cons.mp h with he | he
          · exact Or.inl (he ▸ hm)
          · exact Or.inr he
    · rw [List.mem_append, List.mem_singleton]
      constructor
      · rintro ((h | h) | h)
        · exact Or.inl h
        · exact Or.inr (List.mem_cons.mpr (Or.inl h))
        · exact Or.inr (List.mem_cons.mpr (Or.inr h))
      · rintro (h | h)
        · exact Or.inl (Or.inl h)
        · rcases List.mem_cons.mp h with he | he
          · exact Or.inl (Or.inr he)
          · exact Or.inr he

theorem keysOf_foldAppend_nodup {α : Type} (f : α → ℚ) :
    ∀ (es : List (String × α)) (acc : List (String × List ℚ)),
      (keysOf acc).Nodup →
      (keysOf (es.foldl (fun a e => appendEntry a e.1 (f e.2)) acc)).Nodup := by
  intro es
  induction es with
  | nil => intro acc h; exact h
  | cons e rest ih =>
    intro acc h
    rw [List.foldl_cons]
    refine ih _ ?_
    rw [keysOf_appendEntry]
    split_ifs with hm
    · exact h
    · refine List.Nodup.append h (List.nodup_singleton _) ?_
      intro a ha hae
      rw [List.mem_singleton] at hae
      exact hm (hae ▸ ha)

theorem selVal_one (method : CountMethod) : selVal method 1 1 = 1 := by
  cases method <;> norm_num [selVal]

theorem nextTotal_map_scalar (m : List (String × NextVal)) :
    nextTotal (m.map (fun kv => (kv.1, NextVal.scalar kv.2.total))) = nextTotal m := by
  rw [nextTotal, nextTotal, List.map_map]
  rfl

theorem keysOf_map_scalar (m : List (String × NextVal)) :
    keysOf (m.map (fun kv => (kv.1, NextVal.scalar kv.2.total))) = keysOf m := by
  rw [keysOf, keysOf, List.map_map]
  rfl

theorem stateSum_eq_transSum (M : MarkovController) (hM1 : M.stateNames.Nodup)
    (rest : List (String × NextVal)) (hnd : (keysOf rest).Nodup)
    (hmm : ∀ k, k ∈ keysOf rest ↔ k ∈ M.stateNames) (f : String → ℚ) :
    (rest.map (fun kv => ((stateTransNames M kv.1).map f).sum)).sum =
      (M.transNames.map f).sum := by
  have h1 : (rest.map (fun kv => ((stateTransNames M kv.1).map f).sum)).sum =
      ((keysOf rest).map (fun k => ((stateTransNames M k).map f).sum)).sum := by
    rw [keysOf, List.map_map]
    rfl
  rw [h1, sum_keys_perm _ (keysOf rest) M.stateNames hnd hM1 hmm]
  have h2 : M.stateNames.map (fun k => ((stateTransNames M k).map f).sum) =
      M.states.map (fun st => ((TNode.transNamesList st.children).map f).sum) := by
    rw [MarkovController.stateNames, List.map_map]
    refine List.map_congr_left ?_
    intro st hst
    show ((stateTransNames M st.nodeName).map f).sum = _
    rw [stateTransNames_eq_of_find M st.nodeName st (findState_self M.states hM1 st hst)]
  rw [h2, MarkovController.transNames, List.map_flatten, List.sum_flatten]
  simp only [List.map_map]
  rfl

theorem mem_restDsts_iff (M : MarkovController) (hM1 : M.stateNames.Nodup)
    (rest : List (String × NextVal))
    (hmm : ∀ k, k ∈ keysOf rest ↔ k ∈ M.stateNames) (k : String) :
    k ∈ (rest.map (fun kv => stateDsts M kv.1)).flatten ↔ k ∈ M.dstNames := by
  constructor
  · intro h
    rw [List.mem_flatten] at h
    obtain ⟨l, hl, hkl⟩ := h
    rw [List.mem_map] at hl
    obtain ⟨kv, hkv, rfl⟩ := hl
    exact stateDsts_subset M kv.1 k hkl
  · intro h
    rw [MarkovController.dstNames, List.mem_flatten] at h
    obtain ⟨l, hl, hkl⟩ := h
    rw [List.mem_map] at hl
    obtain ⟨st, hst, rfl⟩ := hl
    have hnm : st.nodeName ∈ keysOf rest :=
      (hmm st.nodeName).mpr (List.mem_map.mpr ⟨st, hst, rfl⟩)
    rw [keysOf] at hnm
    rw [List.mem_map] at hnm
    obtain ⟨kv, hkv, hkv1⟩ := hnm
    refine List.mem_flatten.mpr ⟨stateDsts M kv.1, List.mem_map.mpr ⟨kv, hkv, rfl⟩, ?_⟩
    rw [hkv1, stateDsts_eq_of_find M st.nodeName st (findState_self M.states hM1 st hst)]
    exact hkl

theorem mem_transNames_state (M : MarkovController) (hM1 : M.stateNames.Nodup)
    (τ : String) (h : τ ∈ M.transNames) :
    ∃ st ∈ M.states, τ ∈ stateTransNames M st.nodeName := by
  rw [MarkovController.transNames, List.mem_flatten] at h
  obtain ⟨l, hl, hτl⟩ := h
  rw [List.mem_map] at hl
  obtain ⟨st, hst, rfl⟩ := hl
  refine ⟨st, hst, ?_⟩
  rw [stateTransNames_eq_of_find M st.nodeName st (findState_self M.states hM1 st hst)]
  exact hτl

/-! ## Variable-column bookkeeping (the `total_variables` table) -/

theorem varKeys_zeroVars (v : VarMap) : varKeys (zeroVars v) = varKeys v := by
  induction v with
  | nil => rfl
  | cons kv rest ih =>
    simp only [zeroVars, List.map_cons, varKeys, keysOf] at ih ⊢
    rw [ih]

theorem varKeys_mergeVars (a b : VarMap) :
    varKeys (mergeVars a b) = unionKeys (varKeys a) (varKeys b) :=
  varKeys_keyMap (unionKeys (varKeys a) (varKeys b))
    (fun k => varGet a k + varGet b k)

theorem varKeys_mergeVarsTrans (a b c : VarMap) :
    varKeys (mergeVarsTrans a b c) = unionKeys (varKeys a) (varKeys b) :=
  varKeys_keyMap (unionKeys (varKeys a) (varKeys b))
    (fun k => varGet a k + varGet b k + varGet c k)

theorem forward_varSig :
    ∀ n : TNode, ∀ (states : List MState) (t : ℕ) (mass : ℚ) (vars : VarMap)
      (th : List (String × List ℚ)),
      (TNode.forward states t mass vars n th).2.map msgVarKeys =
        TNode.varSig (varKeys vars) n := by
  refine TNode.inductionOn _ ?_ ?_
  · intro nm p d v states t mass vars th
    rw [TNode.forward, TNode.varSig]
    simp only [List.map_cons, List.map_nil, msgVarKeys]
    rw [varKeys_mergeVarsTrans]
  · intro nm p v cs ih states t mass vars th
    rw [TNode.forward, TNode.varSig]
    have key : ∀ cs2 : List TNode,
        (∀ c ∈ cs2, ∀ (states : List MState) (t : ℕ) (mass : ℚ) (vars : VarMap)
          (th : List (String × List ℚ)),
          (TNode.forward states t mass vars c th).2.map msgVarKeys =
            TNode.varSig (varKeys vars) c) →
        ∀ (states : List MState) (t : ℕ) (mass : ℚ) (vars : VarMap)
          (th : List (String × List ℚ)),
          (TNode.forwardList states t mass vars cs2 th).2.map msgVarKeys =
            TNode.varSigList (varKeys vars) cs2 := by
      intro cs2
      induction cs2 with
      | nil =>
        intro _ states t mass vars th
        rw [TNode.forwardList, TNode.varSigList]
        rfl
      | cons c rest ih2 =>
        intro hall states t mass vars th
        simp only [TNode.forwardList, TNode.varSigList, List.map_append]
        rw [hall c (List.mem_cons_self c rest),
          ih2 (fun d hd => hall d (List.mem_cons_of_mem c hd))]
    rw [key cs ih states t (mass * p.value t) (mergeVars vars v) th,
      varKeys_mergeVars]

theorem forwardList_varSig :
    ∀ (cs : List TNode) (states : List MState) (t : ℕ) (mass : ℚ)
      (vars : VarMap) (th : List (String × List ℚ)),
      (TNode.forwardList states t mass vars cs th).2.map msgVarKeys =
        TNode.varSigList (varKeys vars) cs := by
  intro cs
  induction cs with
  | nil =>
    intro states t mass vars th
    rw [TNode.forwardList, TNode.varSigList]
    rfl
  | cons c rest ih =>
    intro states t mass vars th
    simp only [TNode.forwardList, TNode.varSigList, List.map_append]
    rw [forward_varSig c states t mass vars th, ih]

theorem mstate_start_varSig (states : List MState) (st : MState) (t : ℕ)
    (m : ℚ) (s : SimState) :
    (MState.start states st t m s).2.map msgVarKeys = stateVarSig st := by
  simp only [MState.start, stateVarSig, List.map_cons, msgVarKeys]
  rw [forwardList_varSig st.children states t m (zeroVars st.vars) s.transHist,
    varKeys_zeroVars]

theorem mstate_start_cycleVars (states : List MState) (st : MState) (t : ℕ)
    (m : ℚ) (s : SimState) :
    (MState.start states st t m s).1.cycleVariables = s.cycleVariables := rfl

theorem handleNodeMessage_cycleVars (method : CountMethod) (rate : ℚ)
    (s : SimState) (msg : NodeMsg) (s1 : SimState)
    (h : handleNodeMessage method rate s msg = some s1) :
    (∀ k, k ∈ keysOf s1.cycleVariables ↔
      k ∈ keysOf s.cycleVariables ∨ k ∈ msgVarKeys msg) ∧
    ((keysOf s.cycleVariables).Nodup → (keysOf s1.cycleVariables).Nodup) := by
  cases msg with
  | fromOther v =>
    simp only [handleNodeMessage, Option.some_inj] at h
    subst h
    refine ⟨?_, fun h2 => h2⟩
    intro k
    simp [msgVarKeys]
  | fromState nm w v =>
    rw [handleNodeMessage_fromState, handleReport] at h
    cases hsel : selectProb method w with
    | none =>
      rw [hsel] at h
      simp at h
    | some p =>
      rw [hsel] at h
      simp only [Option.bind_eq_bind, Option.some_bind, Option.some_inj] at h
      subst h
      refine ⟨?_, ?_⟩
      · intro k
        rw [show msgVarKeys (.fromState nm w v) = varKeys v from rfl]
        exact keysOf_foldAppend_mem
          (fun x => x * p / (1 + rate) ^ s.modelTime) v s.cycleVariables k
      · intro hnd
        exact keysOf_foldAppend_nodup
          (fun x => x * p / (1 + rate) ^ s.modelTime) v s.cycleVariables hnd
  | fromTrans d w v =>
    rcases w with _ | ⟨w0, _ | ⟨w1, wr⟩⟩
    · simp only [handleNodeMessage] at h
      cases h
    · simp only [handleNodeMessage] at h
      cases h
    · simp only [handleNodeMessage] at h
      cases hn : nextAppend s.nextCycleStartProb d w1 with
      | none =>
        rw [hn] at h
        simp at h
      | some next =>
        rw [hn] at h
        simp only [Option.bind_eq_bind, Option.some_bind] at h
        rw [handleReport] at h
        cases hsel : selectProb method (w0 :: w1 :: wr) with
        | none =>
          rw [hsel] at h
          simp at h
        | some p =>
          rw [hsel] at h
          simp only [Option.bind_eq_bind, Option.some_bind, Option.some_inj] at h
          subst h
          refine ⟨?_, ?_⟩
          · intro k
            rw [show msgVarKeys (.fromTrans d (w0 :: w1 :: wr) v) = varKeys v from rfl]
            exact keysOf_foldAppend_mem
              (fun x => x * p / (1 + rate) ^ s.modelTime) v s.cycleVariables k
          · intro hnd
            exact keysOf_foldAppend_nodup
              (fun x => x * p / (1 + rate) ^ s.modelTime) v s.cycleVariables hnd

theorem handleMsgs_cycleVars (method : CountMethod) (rate : ℚ) :
    ∀ (msgs : List NodeMsg) (s s2 : SimState),
      handleMsgs method rate msgs s = some s2 →
      (∀ k, k ∈ keysOf s2.cycleVariables ↔
        k ∈ keysOf s.cycleVariables ∨ k ∈ (msgs.map msgVarKeys).flatten) ∧
      ((keysOf s.cycleVariables).Nodup → (keysOf s2.cycleVariables).Nodup) := by
  intro msgs
  induction msgs with
  | nil =>
    intro s s2 h
    rw [handleMsgs, Option.some_inj] at h
    subst h
    exact ⟨fun k => by simp, fun h2 => h2⟩
  | cons m rest ih =>
    intro s s2 h
    rw [handleMsgs] at h
    cases h1 : handleNodeMessage method rate s m with
    | none =>
      rw [h1] at h
      simp at h
    | some s1 =>
      rw [h1] at h
      simp only [Option.bind_eq_bind, Option.some_bind] at h
      obtain ⟨hm1, hm2⟩ := handleNodeMessage_cycleVars method rate s m s1 h1
      obtain ⟨hr1, hr2⟩ := ih s1 s2 h
      refine ⟨?_, fun hnd => hr2 (hm2 hnd)⟩
      intro k
      rw [hr1 k, hm1 k, List.map_cons, List.flatten_cons, List.mem_append]
      tauto

theorem deliverAll_cycleVars (M : MarkovController) :
    ∀ (rest : List (String × NextVal)) (s s2 : SimState),
      deliverAll M rest s = some s2 →
      (∀ k, k ∈ keysOf s2.cycleVariables ↔
        k ∈ keysOf s.cycleVariables ∨
        k ∈ (rest.map (fun kv => (stateVarSigOf M kv.1).flatten)).flatten) ∧
      ((keysOf s.cycleVariables).Nodup → (keysOf s2.cycleVariables).Nodup) := by
  intro rest
  induction rest with
  | nil =>
    intro s s2 h
    rw [deliverAll, Option.some_inj] at h
    subst h
    exact ⟨fun k => by simp, fun h2 => h2⟩
  | cons kv rest2 ih =>
    intro s s2 h
    obtain ⟨nm, val⟩ := kv
    cases val with
    | acc vs =>
      rw [deliverAll] at h
      cases h
    | scalar m =>
      rw [deliverAll] at h
      cases hsend : sendToNode M nm m s with
      | none =>
        rw [hsend] at h
        simp at h
      | some r =>
        rw [hsend] at h
        simp only [Option.bind_eq_bind, Option.some_bind] at h
        cases hmsgs : handleMsgs M.countMethod M.discountRate r.2 r.1 with
        | none =>
          rw [hmsgs] at h
          simp at h
        | some s3 =>
          rw [hmsgs] at h
          simp only [Option.some_bind] at h
          rw [sendToNode] at hsend
          cases hfind : findState M.states nm with
          | none =>
            rw [hfind] at hsend
            cases hsend
          | some st =>
            rw [hfind, Option.some_inj] at hsend
            subst hsend
            obtain ⟨hk3, hnd3⟩ :=
              handleMsgs_cycleVars M.countMethod M.discountRate _ _ _ hmsgs
            obtain ⟨hk2, hnd2⟩ := ih s3 s2 h
            have hsig : ((MState.start M.states st s.modelTime m s).2.map
                msgVarKeys).flatten = (stateVarSigOf M nm).flatten := by
              rw [mstate_start_varSig, stateVarSigOf, hfind]
            have hcv : (MState.start M.states st s.modelTime m s).1.cycleVariables =
                s.cycleVariables := rfl
            refine ⟨?_, ?_⟩
            · intro k
              rw [hk2 k, hk3 k, hsig, hcv, List.map_cons, List.flatten_cons,
                List.mem_append]
              tauto
            · intro hnd
              refine hnd2 (hnd3 ?_)
              rw [hcv]
              exact hnd

theorem stateVarSigOf_subset (M : MarkovController) (nm : String) :
    ∀ k ∈ (stateVarSigOf M nm).flatten, k ∈ M.varNames := by
  intro k hk
  cases hf : findState M.states nm with
  | none =>
    rw [stateVarSigOf, hf] at hk
    cases hk
  | some st =>
    rw [stateVarSigOf, hf] at hk
    obtain ⟨hmem, -⟩ := findState_some M.states nm st hf
    exact List.mem_flatten.mpr ⟨_, List.mem_map.mpr ⟨st, hmem, rfl⟩, hk⟩

theorem mem_restVarSigs_iff (M : MarkovController) (hM1 : M.stateNames.Nodup)
    (rest : List (String × NextVal))
    (hmm : ∀ k, k ∈ keysOf rest ↔ k ∈ M.stateNames) (k : String) :
    k ∈ (rest.map (fun kv => (stateVarSigOf M kv.1).flatten)).flatten ↔
      k ∈ M.varNames := by
  constructor
  · intro h
    rw [List.mem_flatten] at h
    obtain ⟨l, hl, hkl⟩ := h
    rw [List.mem_map] at hl
    obtain ⟨kv, hkv, rfl⟩ := hl
    exact stateVarSigOf_subset M kv.1 k hkl
  · intro h
    rw [MarkovController.varNames, List.mem_flatten] at h
    obtain ⟨l, hl, hkl⟩ := h
    rw [List.mem_map] at hl
    obtain ⟨st, hst, rfl⟩ := hl
    have hnm : st.nodeName ∈ keysOf rest :=
      (hmm st.nodeName).mpr (List.mem_map.mpr ⟨st, hst, rfl⟩)
    rw [keysOf] at hnm
    rw [List.mem_map] at hnm
    obtain ⟨kv, hkv, hkv1⟩ := hnm
    refine List.mem_flatten.mpr ⟨(stateVarSigOf M kv.1).flatten,
      List.mem_map.mpr ⟨kv, hkv, rfl⟩, ?_⟩
    rw [hkv1, stateVarSigOf, findState_self M.states hM1 st hst]
    exact hkl

theorem sameLengths_of_const (m : List (String × List ℚ)) (n : ℕ)
    (h : ∀ kv ∈ m, kv.2.length = n) : sameLengths m = true := by
  cases m with
  | nil => rfl
  | cons kv rest =>
    rw [sameLengths, List.all_eq_true]
    intro kv2 h2
    rw [beq_iff_eq, h kv2 (List.mem_cons_of_mem kv h2),
      h kv (List.mem_cons_self kv rest)]

set_option maxHeartbeats 2000000 in
theorem cycle_step (M : MarkovController) (hM1 : M.stateNames.Nodup)
    (htrnd : M.transNames.Nodup)
    (hdst : ∀ d ∈ M.dstNames, d ∈ M.stateNames)
    (hcover : ∀ nm ∈ M.stateNames, nm ∈ M.dstNames)
    (j : ℕ) (s : SimState) (hclosed : M.closedAt j = true)
    (hinv : CycleInv M j s) :
    ∃ s2, startOneCycle M s = some s2 ∧ CycleInv M (j + 1) (endOneCycle s2) := by
  obtain ⟨s2, hrun, c1, c2, c3, c4, c5, c6, c7, c8, c9, c10, c11, c12, c13, c14, c15,
      c16⟩ :=
    deliverAll_spec M htrnd s.nextCycleStartProb j { s with nextCycleStartProb := [] }
      hinv.modelTime hclosed hinv.nextScalar
      (fun kv hkv => (hinv.nextKeysMem kv.1).mp (List.mem_map.mpr ⟨kv, hkv, rfl⟩))
      hinv.nextKeysNodup
      (by
        intro kv hkv
        have hk : kv.1 ∈ M.stateNames :=
          (hinv.nextKeysMem kv.1).mp (List.mem_map.mpr ⟨kv, hkv, rfl⟩)
        rw [MarkovController.stateNames, List.mem_map] at hk
        obtain ⟨st, hst, hstnm⟩ := hk
        have := hinv.stateHistShape st hst
        rw [hstnm] at this
        exact this)
      (by
        intro kv hkv τ hτ
        exact hinv.transHistLen τ (stateTransNames_subset M kv.1 τ hτ))
      (by intro kv hkv; cases hkv)
  have hstart : startOneCycle M s = some s2 := by
    rw [startOneCycle]
    exact hrun
  -- frequently used membership facts
  have hflatdst : ∀ k, k ∈ (s.nextCycleStartProb.map (fun kv => stateDsts M kv.1)).flatten ↔
      k ∈ M.stateNames := by
    intro k
    rw [mem_restDsts_iff M hM1 s.nextCycleStartProb hinv.nextKeysMem k]
    exact ⟨fun h => hdst k h, fun h => hcover k h⟩
  have hcpempty : ({ s with nextCycleStartProb := ([] : List (String × NextVal)) } :
      SimState).cycleProbs = [] := hinv.cycleProbsEmpty
  have hcpkeysnd : (keysOf s2.cycleProbs).Nodup := by
    refine c6 ?_
    rw [hcpempty]
    exact List.nodup_nil
  have hcpmem : ∀ k, k ∈ keysOf s2.cycleProbs ↔ k ∈ M.stateNames := by
    intro k
    rw [c7 k]
    rw [hcpempty]
    constructor
    · rintro (h | h | h)
      · cases h
      · exact (hinv.nextKeysMem k).mp h
      · exact (hflatdst k).mp h
    · intro h
      exact Or.inr (Or.inl ((hinv.nextKeysMem k).mpr h))
  have htpkeysnd : (keysOf s2.totalProbs).Nodup := by
    rw [c2]
    by_cases hj : j = 0
    · rw [hinv.totalProbsNil hj]
      exact List.nodup_nil
    · exact (hinv.totalProbsKeys (by omega)).1
  have htpmem : ∀ k, k ∈ keysOf s2.totalProbs → k ∈ M.stateNames := by
    intro k hk
    rw [c2] at hk
    by_cases hj : j = 0
    · rw [hinv.totalProbsNil hj] at hk
      cases hk
    · exact ((hinv.totalProbsKeys (by omega)).2 k).mp hk
  have htplen : ∀ k ∈ M.stateNames, (histGet s2.totalProbs k).length = j := by
    intro k hk
    rw [c2]
    by_cases hj : j = 0
    · rw [hinv.totalProbsNil hj, histGet, alistGet]
      simp [hj]
    · have hkk : k ∈ keysOf s.totalProbs := ((hinv.totalProbsKeys (by omega)).2 k).mpr hk
      obtain ⟨v, hv⟩ := alistGet_isSome_of_mem s.totalProbs k hkk
      have hmemv : (k, v) ∈ s.totalProbs := mem_of_alistGet s.totalProbs k v hv
      rw [histGet, hv]
      exact hinv.totalProbsLen (k, v) hmemv
  -- the per-cycle totals
  have hX : (s.nextCycleStartProb.map
      (fun kv => stateTransIdxSum M { s with nextCycleStartProb := [] } j kv.1)).sum =
      (if j = 0 then 0 else 1) := by
    have hre := stateSum_eq_transSum M hM1 s.nextCycleStartProb hinv.nextKeysNodup
      hinv.nextKeysMem (fun τ => (histGet s.transHist τ).getD j 0)
    show (s.nextCycleStartProb.map
        (fun kv => ((stateTransNames M kv.1).map
          (fun τ => (histGet s.transHist τ).getD j 0)).sum)).sum = _
    rw [hre]
    by_cases hj : j = 0
    · rw [if_pos hj]
      refine List.sum_eq_zero ?_
      intro x hx
      rw [List.mem_map] at hx
      obtain ⟨τ, hτ, rfl⟩ := hx
      have hlen := hinv.transHistLen τ hτ
      rw [if_pos hj] at hlen
      rw [List.length_eq_zero.mp hlen]
      rfl
    · rw [if_neg hj]
      exact hinv.transLastSum (by omega)
  have hcyc_total : histTotal s2.cycleProbs = 1 := by
    rw [c5]
    have h0 : histTotal ({ s with nextCycleStartProb := ([] : List (String × NextVal)) } :
        SimState).cycleProbs = 0 := by
      show histTotal s.cycleProbs = 0
      rw [hinv.cycleProbsEmpty]
      rfl
    rw [h0, hX, hinv.nextTotalOne]
    have harg : ((if j = 0 then (1:ℚ) else 0) + (if j = 0 then (0:ℚ) else 1)) = 1 := by
      split_ifs <;> ring
    rw [harg, selVal_one]
    ring
  -- per-key append into the output table
  have hkeyfacts : ∀ k ∈ M.stateNames, ∃ x, alistGet s2.cycleProbs k = some x ∧
      histGet (endOneCycle s2).totalProbs k = histGet s2.totalProbs k ++ [x.sum] := by
    intro k hk
    obtain ⟨x, hx⟩ := alistGet_isSome_of_mem s2.cycleProbs k ((hcpmem k).mpr hk)
    refine ⟨x, hx, ?_⟩
    exact histGet_foldAppend (fun l => l.sum) s2.cycleProbs s2.totalProbs hcpkeysnd k x
      (mem_of_alistGet _ _ _ hx)
  have h3keysnd : (keysOf (endOneCycle s2).totalProbs).Nodup := by
    have h := keysOf_foldAppend_nodup (fun l : List ℚ => l.sum) s2.cycleProbs
      s2.totalProbs htpkeysnd
    exact h
  have h3mem : ∀ k, k ∈ keysOf (endOneCycle s2).totalProbs ↔ k ∈ M.stateNames := by
    intro k
    rw [show (endOneCycle s2).totalProbs = s2.cycleProbs.foldl
      (fun a e => appendEntry a e.1 ((fun l : List ℚ => l.sum) e.2)) s2.totalProbs from rfl]
    rw [keysOf_foldAppend_mem (fun l : List ℚ => l.sum) s2.cycleProbs s2.totalProbs k]
    constructor
    · rintro (h | h)
      · exact htpmem k h
      · exact (hcpmem k).mp h
    · intro h
      exact Or.inr ((hcpmem k).mpr h)
  -- the same bookkeeping for the variable table
  have hcvempty : ({ s with nextCycleStartProb := ([] : List (String × NextVal)) } :
      SimState).cycleVariables = [] := hinv.cycleVarsEmpty
  obtain ⟨hk_cv, hnd_cv⟩ := deliverAll_cycleVars M s.nextCycleStartProb
    { s with nextCycleStartProb := [] } s2 hrun
  have hcvkeysnd : (keysOf s2.cycleVariables).Nodup := by
    refine hnd_cv ?_
    rw [hcvempty]
    exact List.nodup_nil
  have hcvmem : ∀ k, k ∈ keysOf s2.cycleVariables ↔ k ∈ M.varNames := by
    intro k
    rw [hk_cv k, hcvempty]
    rw [mem_restVarSigs_iff M hM1 s.nextCycleStartProb hinv.nextKeysMem k]
    simp [keysOf]
  have htvkeysnd : (keysOf s2.totalVariables).Nodup := by
    rw [c3]
    by_cases hj : j = 0
    · rw [hinv.totalVarsNil hj]
      exact List.nodup_nil
    · exact (hinv.totalVarsKeys (by omega)).1
  have htvmem : ∀ k, k ∈ keysOf s2.totalVariables → k ∈ M.varNames := by
    intro k hk
    rw [c3] at hk
    by_cases hj : j = 0
    · rw [hinv.totalVarsNil hj] at hk
      cases hk
    · exact ((hinv.totalVarsKeys (by omega)).2 k).mp hk
  have htvlen : ∀ k ∈ M.varNames, (histGet s2.totalVariables k).length = j := by
    intro k hk
    rw [c3]
    by_cases hj : j = 0
    · rw [hinv.totalVarsNil hj, histGet, alistGet]
      simp [hj]
    · have hkk : k ∈ keysOf s.totalVariables := ((hinv.totalVarsKeys (by omega)).2 k).mpr hk
      obtain ⟨v, hv⟩ := alistGet_isSome_of_mem s.totalVariables k hkk
      have hmemv : (k, v) ∈ s.totalVariables := mem_of_alistGet s.totalVariables k v hv
      rw [histGet, hv]
      exact hinv.totalVarsLen (k, v) hmemv
  have hvarkeyfacts : ∀ k ∈ M.varNames, ∃ x, alistGet s2.cycleVariables k = some x ∧
      histGet (endOneCycle s2).totalVariables k =
        histGet s2.totalVariables k ++ [x.sum] := by
    intro k hk
    obtain ⟨x, hx⟩ := alistGet_isSome_of_mem s2.cycleVariables k ((hcvmem k).mpr hk)
    refine ⟨x, hx, ?_⟩
    exact histGet_foldAppend (fun l => l.sum) s2.cycleVariables s2.totalVariables
      hcvkeysnd k x (mem_of_alistGet _ _ _ hx)
  have hv3keysnd : (keysOf (endOneCycle s2).totalVariables).Nodup := by
    have h := keysOf_foldAppend_nodup (fun l : List ℚ => l.sum) s2.cycleVariables
      s2.totalVariables htvkeysnd
    exact h
  have hv3mem : ∀ k, k ∈ keysOf (endOneCycle s2).totalVariables ↔ k ∈ M.varNames := by
    intro k
    rw [show (endOneCycle s2).totalVariables = s2.cycleVariables.foldl
      (fun a e => appendEntry a e.1 ((fun l : List ℚ => l.sum) e.2))
      s2.totalVariables from rfl]
    rw [keysOf_foldAppend_mem (fun l : List ℚ => l.sum) s2.cycleVariables
      s2.totalVariables k]
    constructor
    · rintro (h | h)
      · exact htvmem k h
      · exact (hcvmem k).mp h
    · intro h
      exact Or.inr ((hcvmem k).mpr h)
  refine ⟨s2, hstart, ?_, ?_, ?_, ?_, ?_, ?_, ?_, ?_, ?_, ?_, ?_, ?_, ?_, ?_, ?_, ?_,
    ?_⟩
  -- modelTime
  · show s2.modelTime + 1 = j + 1
    rw [c1]
  -- cycle accumulators cleared
  · rfl
  · rfl
  -- next entries are scalars
  · intro kv hkv
    rw [show (endOneCycle s2).nextCycleStartProb =
      s2.nextCycleStartProb.map (fun kv => (kv.1, NextVal.scalar kv.2.total)) from rfl] at hkv
    rw [List.mem_map] at hkv
    obtain ⟨kv0, hkv0, rfl⟩ := hkv
    exact ⟨kv0.2.total, rfl⟩
  -- next keys nodup
  · show (keysOf (s2.nextCycleStartProb.map (fun kv => (kv.1, NextVal.scalar kv.2.total)))).Nodup
    rw [keysOf_map_scalar]
    exact c10 List.nodup_nil
  -- next keys = state names
  · intro k
    show k ∈ keysOf (s2.nextCycleStartProb.map (fun kv => (kv.1, NextVal.scalar kv.2.total))) ↔ _
    rw [keysOf_map_scalar, c11 k]
    constructor
    · rintro (h | h)
      · cases h
      · exact (hflatdst k).mp h
    · intro h
      exact Or.inr ((hflatdst k).mpr h)
  -- next total = 1
  · show nextTotal (s2.nextCycleStartProb.map (fun kv => (kv.1, NextVal.scalar kv.2.total))) = 1
    rw [nextTotal_map_scalar, c8]
    have h0 : nextTotal ([] : List (String × NextVal)) = 0 := rfl
    rw [h0, hinv.nextTotalOne]
    ring
  -- state histories
  · intro st hst
    show histShape (j + 1) (histGet s2.stateHist st.nodeName)
    have hk : st.nodeName ∈ keysOf s.nextCycleStartProb :=
      (hinv.nextKeysMem st.nodeName).mpr (List.mem_map.mpr ⟨st, hst, rfl⟩)
    rw [keysOf, List.mem_map] at hk
    obtain ⟨kv, hkv, hkv1⟩ := hk
    have := c13 kv hkv
    rw [hkv1] at this
    exact this
  -- transition history lengths
  · intro τ hτ
    rw [if_neg (Nat.succ_ne_zero j)]
    show (histGet s2.transHist τ).length = j + 2
    obtain ⟨st, hst, hτst⟩ := mem_transNames_state M hM1 τ hτ
    have hk : st.nodeName ∈ keysOf s.nextCycleStartProb :=
      (hinv.nextKeysMem st.nodeName).mpr (List.mem_map.mpr ⟨st, hst, rfl⟩)
    rw [keysOf, List.mem_map] at hk
    obtain ⟨kv, hkv, hkv1⟩ := hk
    rw [← hkv1] at hτst
    exact c15 kv hkv τ hτst
  -- transition last sums
  · intro _
    show transIdxSum M (endOneCycle s2) (j + 1) = 1
    rw [transIdxSum]
    have hre := stateSum_eq_transSum M hM1 s.nextCycleStartProb hinv.nextKeysNodup
      hinv.nextKeysMem (fun τ => (histGet s2.transHist τ).getD (j + 1) 0)
    rw [show (endOneCycle s2).transHist = s2.transHist from rfl]
    rw [← hre]
    rw [show (s.nextCycleStartProb.map (fun kv => ((stateTransNames M kv.1).map
      (fun τ => (histGet s2.transHist τ).getD (j + 1) 0)).sum)).sum = nextTotal
      s.nextCycleStartProb from c16, hinv.nextTotalOne]
  -- output table nil only before the first cycle
  · intro h
    exact absurd h (Nat.succ_ne_zero j)
  -- output table keys
  · intro _
    exact ⟨h3keysnd, h3mem⟩
  -- output table lengths
  · intro kv hkv
    have hget := alistGet_of_mem_nodup (endOneCycle s2).totalProbs h3keysnd kv hkv
    have hk : kv.1 ∈ M.stateNames :=
      (h3mem kv.1).mp (List.mem_map.mpr ⟨kv, hkv, rfl⟩)
    obtain ⟨x, hx, happ⟩ := hkeyfacts kv.1 hk
    have : kv.2 = histGet (endOneCycle s2).totalProbs kv.1 := by
      rw [histGet, hget]
      rfl
    rw [this, happ]
    rw [List.length_append, htplen kv.1 hk]
    rfl
  -- variable table nil only before the first cycle
  · intro h
    exact absurd h (Nat.succ_ne_zero j)
  -- variable table keys
  · intro _
    exact ⟨hv3keysnd, hv3mem⟩
  -- variable table lengths
  · intro kv hkv
    have hget := alistGet_of_mem_nodup (endOneCycle s2).totalVariables hv3keysnd kv hkv
    have hk : kv.1 ∈ M.varNames :=
      (hv3mem kv.1).mp (List.mem_map.mpr ⟨kv, hkv, rfl⟩)
    obtain ⟨x, hx, happ⟩ := hvarkeyfacts kv.1 hk
    have : kv.2 = histGet (endOneCycle s2).totalVariables kv.1 := by
      rw [histGet, hget]
      rfl
    rw [this, happ]
    rw [List.length_append, htvlen kv.1 hk]
    rfl
  -- row sums
  · intro i hi
    have hrow : rowSum (endOneCycle s2).totalProbs i =
        ((keysOf (endOneCycle s2).totalProbs).map
          (fun k => (histGet (endOneCycle s2).totalProbs k).getD i 0)).sum :=
      rowSum_eq_keys i _ h3keysnd
    by_cases hij : i = j
    · subst hij
      rw [hrow]
      have hsum : ((keysOf (endOneCycle s2).totalProbs).map
          (fun k => (histGet (endOneCycle s2).totalProbs k).getD i 0)).sum =
          ((keysOf (endOneCycle s2).totalProbs).map
            (fun k => (histGet s2.cycleProbs k).sum)).sum := by
        refine congrArg List.sum (List.map_congr_left ?_)
        intro k hk
        obtain ⟨x, hx, happ⟩ := hkeyfacts k ((h3mem k).mp hk)
        rw [happ]
        have hlen := htplen k ((h3mem k).mp hk)
        rw [← hlen, getD_append_self]
        rw [histGet, hx]
        rfl
      rw [hsum]
      rw [sum_keys_perm _ _ (keysOf s2.cycleProbs) h3keysnd hcpkeysnd
        (fun k => (h3mem k).trans (hcpmem k).symm)]
      rw [← histTotal_eq_keys s2.cycleProbs hcpkeysnd]
      exact hcyc_total
    · have hij2 : i < j := by omega
      have hj1 : ¬ j = 0 := by omega
      rw [hrow]
      have hsum : ((keysOf (endOneCycle s2).totalProbs).map
          (fun k => (histGet (endOneCycle s2).totalProbs k).getD i 0)).sum =
          ((keysOf (endOneCycle s2).totalProbs).map
            (fun k => (histGet s.totalProbs k).getD i 0)).sum := by
        refine congrArg List.sum (List.map_congr_left ?_)
        intro k hk
        obtain ⟨x, hx, happ⟩ := hkeyfacts k ((h3mem k).mp hk)
        rw [happ]
        have hlen := htplen k ((h3mem k).mp hk)
        rw [c2] at hlen ⊢
        exact getD_append_lt _ _ i (by omega)
      rw [hsum]
      have hperm : ((keysOf (endOneCycle s2).totalProbs).map
          (fun k => (histGet s.totalProbs k).getD i 0)).sum =
          ((keysOf s.totalProbs).map
            (fun k => (histGet s.totalProbs k).getD i 0)).sum := by
        refine sum_keys_perm _ _ _ h3keysnd (hinv.totalProbsKeys (by omega)).1 ?_
        intro k
        exact (h3mem k).trans ((hinv.totalProbsKeys (by omega)).2 k).symm
      rw [hperm, ← rowSum_eq_keys i s.totalProbs (hinv.totalProbsKeys (by omega)).1]
      exact hinv.rowsOne i hij2

/-! ## The reset and seeding phases of `run` (claim C2) -/

theorem setEntry_eq_append {β : Type} (m : List (String × β)) (k : String) (v : β)
    (h : k ∉ keysOf m) : setEntry m k v = m ++ [(k, v)] := by
  induction m with
  | nil => rfl
  | cons kv rest ih =>
    obtain ⟨k1, v1⟩ := kv
    rw [keysOf_cons, List.mem_cons, not_or] at h
    rw [setEntry_cons, if_neg (fun e => h.1 e.symm), List.cons_append, ih h.2]

theorem keysOf_append {β : Type} (m1 m2 : List (String × β)) :
    keysOf (m1 ++ m2) = keysOf m1 ++ keysOf m2 := List.map_append _ _ _

theorem keysOf_map_pair {α β : Type} (l : List α) (f : α → String) (g : α → β) :
    keysOf (l.map (fun x => (f x, g x))) = l.map f := by
  induction l with
  | nil => rfl
  | cons x xs ih => rw [List.map_cons, keysOf_cons, ih, List.map_cons]

theorem resetFrame_rfl (s : SimState) : ResetFrame s s :=
  ⟨rfl, rfl, rfl, rfl, rfl, rfl, rfl, fun _ => Or.inr rfl, fun _ => Or.inr rfl⟩

theorem resetFrame_trans {s0 s1 s2 : SimState} (h1 : ResetFrame s0 s1)
    (h2 : ResetFrame s1 s2) : ResetFrame s0 s2 := by
  obtain ⟨a1, a2, a3, a4, a5, a6, a7, a8, a9⟩ := h1
  obtain ⟨b1, b2, b3, b4, b5, b6, b7, b8, b9⟩ := h2
  refine ⟨b1.trans a1, b2.trans a2, b3.trans a3, b4.trans a4, b5.trans a5,
    b6.trans a6, b7.trans a7, ?_, ?_⟩
  · intro nm
    rcases b8 nm with h | h
    · exact Or.inl h
    · rw [h]
      exact a8 nm
  · intro nm
    rcases b9 nm with h | h
    · exact Or.inl h
    · rw [h]
      exact a9 nm

theorem tnode_reset_frame :
    ∀ n : TNode, ∀ s : SimState, ResetFrame s (TNode.reset n s) := by
  refine TNode.inductionOn _ ?_ ?_
  · intro nm p d v s
    rw [TNode.reset]
    refine ⟨rfl, rfl, rfl, rfl, rfl, rfl, rfl, fun _ => Or.inr rfl, ?_⟩
    intro nm2
    by_cases h : nm2 = nm
    · subst h
      exact Or.inl (histGet_setEntry_self _ _ _)
    · exact Or.inr (histGet_setEntry_ne _ _ _ _ h)
  · intro nm p v cs ih s
    rw [TNode.reset]
    have key : ∀ cs2 : List TNode,
        (∀ c ∈ cs2, ∀ s2 : SimState, ResetFrame s2 (TNode.reset c s2)) →
        ∀ s2 : SimState, ResetFrame s2 (TNode.resetList cs2 s2) := by
      intro cs2
      induction cs2 with
      | nil =>
        intro _ s2
        rw [TNode.resetList]
        exact resetFrame_rfl s2
      | cons c rest ih3 =>
        intro hall s2
        rw [TNode.resetList]
        exact resetFrame_trans (hall c (List.mem_cons_self c rest) s2)
          (ih3 (fun d hd => hall d (List.mem_cons_of_mem c hd)) (TNode.reset c s2))
    exact key cs ih s

theorem tnode_resetList_frame :
    ∀ (cs : List TNode) (s : SimState), ResetFrame s (TNode.resetList cs s) := by
  intro cs
  induction cs with
  | nil =>
    intro s
    rw [TNode.resetList]
    exact resetFrame_rfl s
  | cons c rest ih =>
    intro s
    rw [TNode.resetList]
    exact resetFrame_trans (tnode_reset_frame c s) (ih (TNode.reset c s))

theorem mstate_reset_frame (st : MState) (s : SimState) :
    ResetFrame s (MState.reset st s) := by
  show ResetFrame s (TNode.resetList st.children
    { s with stateHist := setEntry s.stateHist st.nodeName [] })
  refine resetFrame_trans ?_ (tnode_resetList_frame st.children _)
  refine ⟨rfl, rfl, rfl, rfl, rfl, rfl, rfl, ?_, fun _ => Or.inr rfl⟩
  intro nm
  by_cases h : nm = st.nodeName
  · subst h
    exact Or.inl (histGet_setEntry_self _ _ _)
  · exact Or.inr (histGet_setEntry_ne _ _ _ _ h)

theorem reset_fold_frame :
    ∀ (sts : List MState) (s : SimState),
      ResetFrame s (sts.foldl (fun s st => MState.reset st s) s) := by
  intro sts
  induction sts with
  | nil =>
    intro s
    exact resetFrame_rfl s
  | cons st rest ih =>
    intro s
    rw [List.foldl_cons]
    exact resetFrame_trans (mstate_reset_frame st s) (ih (MState.reset st s))

theorem controller_reset_frame (M : MarkovController) (s : SimState) :
    ResetFrame (resetMemory s) (M.reset s) :=
  reset_fold_frame M.states (resetMemory s)

/-- The seeding loop of `run` (`next_cycle_start_prob[state] =
state.trans_prob.value(0)` over the controller-owned states): with fresh,
pairwise distinct state names it appends one scalar entry per state, in
order, and touches nothing else. -/
theorem seed_fold_spec :
    ∀ (sts : List MState) (s : SimState),
      (∀ st ∈ sts, st.nodeName ∉ keysOf s.nextCycleStartProb) →
      (sts.map (fun st => st.nodeName)).Nodup →
      sts.foldl
        (fun s st =>
          { s with nextCycleStartProb := (setEntry s.nextCycleStartProb st.nodeName
              (NextVal.scalar ((probOf s st.nodeName).value 0))) }) s =
      { s with nextCycleStartProb := (s.nextCycleStartProb ++
          sts.map (fun st =>
            (st.nodeName, NextVal.scalar ((probOf s st.nodeName).value 0)))) } := by
  intro sts
  induction sts with
  | nil =>
    intro s _ _
    rw [List.foldl_nil, List.map_nil, List.append_nil]
  | cons st rest ih =>
    intro s hfresh hnd
    rw [List.map_cons] at hnd
    obtain ⟨hhead, hnd2⟩ := List.nodup_cons.mp hnd
    simp only [List.foldl_cons]
    rw [setEntry_eq_append s.nextCycleStartProb st.nodeName
      (NextVal.scalar ((probOf s st.nodeName).value 0))
      (hfresh st (List.mem_cons_self st rest))]
    have hf2 : ∀ st2 ∈ rest, st2.nodeName ∉
        keysOf (s.nextCycleStartProb ++
          [(st.nodeName, NextVal.scalar ((probOf s st.nodeName).value 0))]) := by
      intro st2 hst2 hmem
      rw [keysOf_append] at hmem
      rcases List.mem_append.mp hmem with h | h
      · exact hfresh st2 (List.mem_cons_of_mem st hst2) h
      · have h2 : st2.nodeName = st.nodeName := by
          simpa [keysOf] using h
        exact hhead (List.mem_map.mpr ⟨st2, hst2, h2⟩)
    rw [ih ({ s with nextCycleStartProb := (s.nextCycleStartProb ++
        [(st.nodeName, NextVal.scalar ((probOf s st.nodeName).value 0))]) }) hf2 hnd2]
    have hprob : ∀ nm, probOf ({ s with nextCycleStartProb := (s.nextCycleStartProb ++
        [(st.nodeName, NextVal.scalar ((probOf s st.nodeName).value 0))]) } :
          SimState) nm = probOf s nm := fun _ => rfl
    simp only [hprob]
    rw [List.map_cons]
    show ({ s with nextCycleStartProb := ((s.nextCycleStartProb ++
      [(st.nodeName, NextVal.scalar ((probOf s st.nodeName).value 0))]) ++
      rest.map (fun st2 =>
        (st2.nodeName, NextVal.scalar ((probOf s st2.nodeName).value 0)))) } :
          SimState) = _
    rw [List.append_assoc, List.singleton_append]

/-- Iterating `start_one_cycle(); end_one_cycle()` preserves the run
invariant, one cycle at a time. -/
theorem runCycles_inv (M : MarkovController) (hM1 : M.stateNames.Nodup)
    (htrnd : M.transNames.Nodup)
    (hdst : ∀ d ∈ M.dstNames, d ∈ M.stateNames)
    (hcover : ∀ nm ∈ M.stateNames, nm ∈ M.dstNames) :
    ∀ (n j : ℕ) (s : SimState), CycleInv M j s →
      (∀ t, j ≤ t → t < j + n → M.closedAt t = true) →
      ∃ s2, runCycles M n s = some s2 ∧ CycleInv M (j + n) s2 := by
  intro n
  induction n with
  | zero =>
    intro j s hinv _
    exact ⟨s, rfl, hinv⟩
  | succ n ih =>
    intro j s hinv hcl
    obtain ⟨s1, hstart, hinv1⟩ := cycle_step M hM1 htrnd hdst hcover j s
      (hcl j le_rfl (by omega)) hinv
    obtain ⟨s2, hrest, hinv2⟩ := ih (j + 1) (endOneCycle s1) hinv1
      (fun t ht1 ht2 => hcl t (by omega) (by omega))
    refine ⟨s2, ?_, ?_⟩
    · simp only [runCycles, hstart, Option.bind_eq_bind, Option.some_bind]
      exact hrest
    · rw [show j + (n + 1) = j + 1 + n from by omega]
      exact hinv2

/-- After `run`'s reset and seeding phases the run invariant holds at cycle
`0`: the reset leaves every history empty, and the seeding loop installs
one scalar entry per state, totalling the initial-probability sum. -/
theorem run_seed_inv (M : MarkovController) (hM1 : M.stateNames.Nodup)
    (hinit : (M.states.map (fun st => st.initProb.value 0)).sum = 1) :
    CycleInv M 0
      (M.states.foldl
        (fun s st =>
          { s with nextCycleStartProb := (setEntry s.nextCycleStartProb st.nodeName
              (NextVal.scalar ((probOf s st.nodeName).value 0))) })
        (M.reset (initSim M))) := by
  have hframe := controller_reset_frame M (initSim M)
  obtain ⟨f1, f2, f3, f4, f5, f6, f7, f8, f9⟩ := hframe
  -- every history entry of the reset state is empty
  have hsh : ∀ nm, histGet (M.reset (initSim M)).stateHist nm = [] := by
    intro nm
    rcases f8 nm with h | h
    · exact h
    · rw [h]
      rfl
  have hth : ∀ nm, histGet (M.reset (initSim M)).transHist nm = [] := by
    intro nm
    rcases f9 nm with h | h
    · exact h
    · rw [h]
      rfl
  -- the reset state still carries the freshly built `trans_prob` map
  have hsp : (M.reset (initSim M)).stateProbs =
      M.states.map (fun st => (st.nodeName, st.initProb)) := f1
  have hspkeys : (keysOf (M.reset (initSim M)).stateProbs).Nodup := by
    rw [hsp, keysOf_map_pair]
    exact hM1
  have hprobst : ∀ st ∈ M.states, probOf (M.reset (initSim M)) st.nodeName =
      st.initProb := by
    intro st hst
    have hget := alistGet_of_mem_nodup (M.reset (initSim M)).stateProbs hspkeys
      (st.nodeName, st.initProb)
      (by
        rw [hsp]
        exact List.mem_map.mpr ⟨st, hst, rfl⟩)
    show (alistGet (M.reset (initSim M)).stateProbs st.nodeName).getD
      (Prob.withRange 0) = st.initProb
    rw [hget]
    rfl
  -- the seeding fold, in closed form
  have hnext0 : (M.reset (initSim M)).nextCycleStartProb = [] := by
    rw [f7]
    rfl
  have hseed := seed_fold_spec M.states (M.reset (initSim M))
    (by
      intro st _
      rw [hnext0]
      exact List.not_mem_nil st.nodeName)
    hM1
  rw [hseed]
  have hmapval : M.states.map (fun st =>
      (st.nodeName, NextVal.scalar ((probOf (M.reset (initSim M)) st.nodeName).value 0))) =
      M.states.map (fun st => (st.nodeName, NextVal.scalar (st.initProb.value 0))) := by
    refine List.map_congr_left ?_
    intro st hst
    rw [hprobst st hst]
  rw [hnext0, hmapval, List.nil_append]
  -- now check every invariant field at cycle 0
  refine ⟨?_, ?_, ?_, ?_, ?_, ?_, ?_, ?_, ?_, ?_, ?_, ?_, ?_, ?_, ?_, ?_, ?_⟩
  · show (M.reset (initSim M)).modelTime = 0
    rw [f2]
    rfl
  · show (M.reset (initSim M)).cycleProbs = []
    rw [f5]
    rfl
  · show (M.reset (initSim M)).cycleVariables = []
    rw [f6]
    rfl
  · intro kv hkv
    rw [List.mem_map] at hkv
    obtain ⟨st, _, rfl⟩ := hkv
    exact ⟨st.initProb.value 0, rfl⟩
  · show (keysOf (M.states.map (fun st =>
      (st.nodeName, NextVal.scalar (st.initProb.value 0))))).Nodup
    rw [keysOf_map_pair]
    exact hM1
  · intro k
    show k ∈ keysOf (M.states.map (fun st =>
      (st.nodeName, NextVal.scalar (st.initProb.value 0)))) ↔ k ∈ M.stateNames
    rw [keysOf_map_pair]
    exact Iff.rfl
  · show nextTotal (M.states.map (fun st =>
      (st.nodeName, NextVal.scalar (st.initProb.value 0)))) = 1
    rw [nextTotal, List.map_map]
    rw [show ((fun kv : String × NextVal => kv.2.total) ∘ fun st : MState =>
      (st.nodeName, NextVal.scalar (st.initProb.value 0))) =
      (fun st : MState => st.initProb.value 0) from rfl]
    exact hinit
  · intro st _
    show histShape 0 (histGet (M.reset (initSim M)).stateHist st.nodeName)
    rw [hsh st.nodeName]
    simp [histShape]
  · intro nm _
    show (histGet (M.reset (initSim M)).transHist nm).length = if 0 = 0 then 0 else 0 + 1
    rw [hth nm]
    simp
  · intro h
    omega
  · intro _
    show (M.reset (initSim M)).totalProbs = []
    rw [f3]
    rfl
  · intro h
    omega
  · intro kv hkv
    have h3 : (M.reset (initSim M)).totalProbs = [] := by
      rw [f3]
      rfl
    rw [show ({ M.reset (initSim M) with nextCycleStartProb := (M.states.map (fun st =>
      (st.nodeName, NextVal.scalar (st.initProb.value 0)))) } : SimState).totalProbs =
      (M.reset (initSim M)).totalProbs from rfl, h3] at hkv
    cases hkv
  · intro _
    show (M.reset (initSim M)).totalVariables = []
    rw [f4]
    rfl
  · intro h
    omega
  · intro kv hkv
    have h4 : (M.reset (initSim M)).totalVariables = [] := by
      rw [f4]
      rfl
    rw [show ({ M.reset (initSim M) with nextCycleStartProb := (M.states.map (fun st =>
      (st.nodeName, NextVal.scalar (st.initProb.value 0)))) } : SimState).totalVariables =
      (M.reset (initSim M)).totalVariables from rfl, h4] at hkv
    cases hkv
  · intro i hi
    omega

/-- C2: for a model whose state names are unique, whose transition names
are unique, whose transitions all target controller-owned states, in which
every state is the destination of at least one transition, which is closed
(every node's children's probabilities sum to `1`) at every simulated
cycle, and whose initial probabilities sum to `1`, `run()` completes and
every row of its probability table sums to exactly `1`. -/
theorem mass_conservation_covered (M : MarkovController)
    (hM1 : M.stateNames.Nodup) (htrnd : M.transNames.Nodup)
    (hdst : ∀ d ∈ M.dstNames, d ∈ M.stateNames)
    (hcover : ∀ nm ∈ M.stateNames, nm ∈ M.dstNames)
    (hclosed : ∀ t, t < M.totalCycles → M.closedAt t = true)
    (hinit : (M.states.map (fun st => st.initProb.value 0)).sum = 1) :
    ∃ s, M.run (initSim M) = some s ∧
      (∀ t, t < M.totalCycles → rowSum s.totalProbs t = 1) := by
  have hloop : runLoop M (initSim M) = runCycles M M.totalCycles
      (M.states.foldl
        (fun s st =>
          { s with nextCycleStartProb := (setEntry s.nextCycleStartProb st.nodeName
              (NextVal.scalar ((probOf s st.nodeName).value 0))) })
        (M.reset (initSim M))) := rfl
  obtain ⟨s2, hcycles, hinv⟩ := runCycles_inv M hM1 htrnd hdst hcover M.totalCycles 0 _
    (run_seed_inv M hM1 hinit) (fun t ht1 ht2 => hclosed t (by omega))
  have h1 : fromDict s2.totalProbs = some s2.totalProbs := by
    rw [fromDict, if_pos (sameLengths_of_const s2.totalProbs (0 + M.totalCycles)
      hinv.totalProbsLen)]
  have h2 : fromDict s2.totalVariables = some s2.totalVariables := by
    rw [fromDict, if_pos (sameLengths_of_const s2.totalVariables (0 + M.totalCycles)
      hinv.totalVarsLen)]
  have hout : outputTables s2 = some (s2.totalProbs, s2.totalVariables) := by
    rw [outputTables, h1]
    simp only [Option.bind_eq_bind, Option.some_bind]
    rw [h2]
    rfl
  refine ⟨s2, ?_, ?_⟩
  · rw [MarkovController.run, hloop, hcycles]
    simp only [Option.bind_eq_bind, Option.some_bind, hout]
  · intro t ht
    exact hinv.rowsOne t (by omega)

/-- Witness for the C2 amended theorem: on the covered two-state model
`exModelW` every hypothesis holds concretely, so `run()` completes with
every probability-table row summing to `1`. -/
theorem mass_conservation_covered_witness :
    ∃ s, MarkovController.run exModelW (initSim exModelW) = some s ∧
      (∀ t, t < exModelW.totalCycles → rowSum s.totalProbs t = 1) :=
  mass_conservation_covered exModelW
    (by decide)
    (by
      simp [exModelW, MarkovController.transNames, TNode.transNamesList,
        TNode.transNames])
    (by
      intro d hd
      simp [exModelW, MarkovController.dstNames, TNode.dstNames, TNode.dstNamesList,
        MarkovController.stateNames] at hd ⊢
      rcases hd with h | h <;> simp [h])
    (by
      intro nm hnm
      simp [exModelW, MarkovController.stateNames] at hnm
      simp [exModelW, MarkovController.dstNames, TNode.dstNames, TNode.dstNamesList]
      rcases hnm with h | h <;> simp [h])
    (by
      intro t _
      simp [exModelW, MarkovController.closedAt, TNode.closedAt, TNode.closedAtList,
        sumProbsAt, TNode.probOfNode, Prob.value]
      norm_num)
    (by
      simp [exModelW, Prob.value])
